import Mathlib

/-!
Verification of the lazy range-algebra engine of `range-set-blaze`.

The element type `T` (a fixed-width integer type) is modelled as `ℤ`
together with explicit parameters `lo` (`T::min_value()`) and `hi`
(`T::max_value()` / `T::safe_max_value()`); an inclusive range
`start..=end` is the pair `(start, end) : ℤ × ℤ`.  Each lazy iterator of
the source is embedded as a function that maps the (finite) input stream,
given as a `List`, to the full output stream it would yield, with the
iterator's internal state threaded explicitly.  Panics and the guarded
`add_one`/`sub_one` boundary operations are modelled with `Option`
results where the claims are about them.
-/

namespace RangeSetBlaze

/-- An inclusive integer range `start..=end`, as `(start, end)`. -/
abbrev Rg : Type := ℤ × ℤ

/-- `covers r x` means the inclusive range `r` contains the coordinate `x`. -/
def covers (r : Rg) (x : ℤ) : Prop := r.1 ≤ x ∧ x ≤ r.2

instance (r : Rg) (x : ℤ) : Decidable (covers r x) :=
  inferInstanceAs (Decidable (r.1 ≤ x ∧ x ≤ r.2))

/-- Number of ranges of `l` that cover the coordinate `x`. -/
def countCov (x : ℤ) (l : List Rg) : ℕ := l.countP (fun r => decide (covers r x))

/-- A coordinate is in the set described by a list of ranges when some range covers it. -/
def memOut (x : ℤ) (l : List Rg) : Prop := ∃ r ∈ l, covers r x

instance (x : ℤ) (l : List Rg) : Decidable (memOut x l) :=
  inferInstanceAs (Decidable (∃ r ∈ l, covers r x))

/-- Executable test for the disjointness chain, used for decidability. -/
def sdChainB : List Rg → Bool
  | [] => true
  | [_] => true
  | a :: b :: t => (decide (a.2 + 1 < b.1)) && sdChainB (b :: t)

theorem sdChainB_iff : ∀ l : List Rg,
    sdChainB l = true ↔ l.Chain' (fun a b => a.2 + 1 < b.1)
  | [] => by simp [sdChainB]
  | [a] => by simp [sdChainB]
  | a :: b :: t => by
    rw [List.chain'_cons]
    simp only [sdChainB, Bool.and_eq_true, decide_eq_true_eq, sdChainB_iff (b :: t)]

/-- Executable test for the sorted-starts chain, used for decidability. -/
def ssChainB : List Rg → Bool
  | [] => true
  | [_] => true
  | a :: b :: t => (decide (a.1 ≤ b.1)) && ssChainB (b :: t)

theorem ssChainB_iff : ∀ l : List Rg,
    ssChainB l = true ↔ l.Chain' (fun a b => a.1 ≤ b.1)
  | [] => by simp [ssChainB]
  | [a] => by simp [ssChainB]
  | a :: b :: t => by
    rw [List.chain'_cons]
    simp only [ssChainB, Bool.and_eq_true, decide_eq_true_eq, ssChainB_iff (b :: t)]

instance (l : List Rg) : Decidable (l.Chain' (fun a b : Rg => a.2 + 1 < b.1)) :=
  decidable_of_iff _ (sdChainB_iff l)

instance (l : List Rg) : Decidable (l.Chain' (fun a b : Rg => a.1 ≤ b.1)) :=
  decidable_of_iff _ (ssChainB_iff l)

/-- The Sorted-Disjoint invariant of the spec: every range is well formed
(`start ≤ end`) and consecutive ranges neither overlap nor touch
(`e1 + 1 < s2`). -/
def SortedDisjoint (l : List Rg) : Prop :=
  (∀ r ∈ l, r.1 ≤ r.2) ∧ l.Chain' (fun a b => a.2 + 1 < b.1)

instance (l : List Rg) : Decidable (SortedDisjoint l) :=
  inferInstanceAs (Decidable (_ ∧ _))

/-- Sorted-Starts contract: starts are non-decreasing along the stream. -/
def SortedStarts (l : List Rg) : Prop := l.Chain' (fun a b => a.1 ≤ b.1)

instance (l : List Rg) : Decidable (SortedStarts l) :=
  inferInstanceAs (Decidable (List.Chain' _ l))


/-! ### Normalization, set flavor (`src/unsorted_disjoint.rs`, `UnsortedDisjoint::next`)

The struct fields `iter`, `option_range` and `min_value_plus_2 = T::min_value() + 2`
become the list argument, the `pending` argument and `lo + 2`.  Each
iteration of the `loop` in `next` is one recursive call; a `return` of a
range is a `cons` onto the output of the continued run. -/

/-- Full output stream of `UnsortedDisjoint` from pending state `pending`. -/
def unsortedDisjointRun (lo : ℤ) : List Rg → Option Rg → List Rg
  | [], pending => pending.toList
  | range :: rest, pending =>
    let nextStart := range.1
    let nextEnd := range.2
    if nextStart > nextEnd then unsortedDisjointRun lo rest pending
    else
      match pending with
      | none => unsortedDisjointRun lo rest (some (nextStart, nextEnd))
      | some selfRange =>
        let selfStart := selfRange.1
        let selfEnd := selfRange.2
        if (nextStart ≥ lo + 2 ∧ selfEnd ≤ nextStart - 1 - 1) ∨
            (selfStart ≥ lo + 2 ∧ nextEnd ≤ selfStart - 1 - 1) then
          (selfStart, selfEnd) :: unsortedDisjointRun lo rest (some (nextStart, nextEnd))
        else
          unsortedDisjointRun lo rest (some (min selfStart nextStart, max selfEnd nextEnd))

/-- Modelled from the spec (section 4.2): the reference fold that keeps one
pending range, drops crossed ranges, merges a new item into the pending
range when they overlap or touch, and otherwise emits the pending range. -/
def specNormalize : List Rg → Option Rg → List Rg
  | [], pending => pending.toList
  | range :: rest, pending =>
    if range.1 > range.2 then specNormalize rest pending
    else
      match pending with
      | none => specNormalize rest (some range)
      | some p =>
        if range.1 ≤ p.2 + 1 ∧ p.1 ≤ range.2 + 1 then
          specNormalize rest (some (min p.1 range.1, max p.2 range.2))
        else
          p :: specNormalize rest (some range)

/-! ### Normalization, map flavor (`src/unsorted_disjoint_map.rs`, `UnsortedDisjointMap::next`)

Items are `(range, value)` pairs; the stage annotates each consumed item
with the current `priority: NonZeroUsize` (starting at `NonZeroUsize::MAX`)
and then decrements it, panicking (`expect_debug_unwrap_release`) when the
decrement reaches zero.  `usize` is modelled as `ℕ`; a panic is `none`. -/

/-- `NonZeroUsize::MAX` for a 64-bit `usize`. -/
def usizeMax : ℕ := 2 ^ 64 - 1

section MapValues

variable {V : Type} [DecidableEq V]

/-- Full output stream (with assigned priority numbers) of
`UnsortedDisjointMap` from pending state `pending`, with `priority` the
current priority counter; `none` models a panic. -/
def unsortedDisjointMapRun (lo hi : ℤ) :
    ℕ → List (Rg × V) → Option ((Rg × V) × ℕ) → Option (List ((Rg × V) × ℕ))
  | _, [], pending => some pending.toList
  | priority, rv :: rest, pending =>
    -- annotate with the current priority number, then decrement (panic at zero)
    let nextPriority : (Rg × V) × ℕ := (rv, priority)
    if priority - 1 = 0 then none
    else
      let nextStart := rv.1.1
      let nextEnd := rv.1.2
      if nextEnd > hi then none  -- assert: end must be <= T::safe_max_value()
      else if nextStart > nextEnd then
        unsortedDisjointMapRun lo hi (priority - 1) rest pending
      else
        match pending with
        | none => unsortedDisjointMapRun lo hi (priority - 1) rest (some nextPriority)
        | some currentPriority =>
          let currentStart := currentPriority.1.1.1
          let currentEnd := currentPriority.1.1.2
          if (nextStart ≥ lo + 2 ∧ currentEnd ≤ nextStart - 2) ∨
              (currentStart ≥ lo + 2 ∧ nextEnd ≤ currentStart - 2) then
            (unsortedDisjointMapRun lo hi (priority - 1) rest (some nextPriority)).map
              (currentPriority :: ·)
          else if currentPriority.1.2 ≠ rv.2 then
            (unsortedDisjointMapRun lo hi (priority - 1) rest (some nextPriority)).map
              (currentPriority :: ·)
          else
            unsortedDisjointMapRun lo hi (priority - 1) rest
              (some (((min currentStart nextStart, max currentEnd nextEnd),
                currentPriority.1.2), currentPriority.2))

/-- Modelled from the spec (section 4.2), value-carrying variant of the
reference fold: merge a new item into the pending one only when the ranges
overlap or touch and the payloads are equal. -/
def specNormalizeMap : List (Rg × V) → Option (Rg × V) → List (Rg × V)
  | [], pending => pending.toList
  | rv :: rest, pending =>
    if rv.1.1 > rv.1.2 then specNormalizeMap rest pending
    else
      match pending with
      | none => specNormalizeMap rest (some rv)
      | some pv =>
        if (rv.1.1 ≤ pv.1.2 + 1 ∧ pv.1.1 ≤ rv.1.2 + 1) ∧ pv.2 = rv.2 then
          specNormalizeMap rest (some ((min pv.1.1 rv.1.1, max pv.1.2 rv.1.2), pv.2))
        else
          pv :: specNormalizeMap rest (some rv)

end MapValues

/-- The set-flavor normalization run agrees with the spec's reference fold,
for any input whose coordinates are bounded below by the domain minimum
and any well-formed pending range. -/
theorem unsortedDisjointRun_eq_spec (lo : ℤ) :
    ∀ (xs : List Rg) (pending : Option Rg),
      (∀ r ∈ xs, lo ≤ r.1) →
      (∀ p ∈ pending.toList, lo ≤ p.1 ∧ p.1 ≤ p.2) →
      unsortedDisjointRun lo xs pending = specNormalize xs pending := by
  intro xs
  induction xs with
  | nil => intro pending _ _; rfl
  | cons r rest ih =>
    intro pending hxs hp
    have hr1 : lo ≤ r.1 := hxs r (List.mem_cons_self r rest)
    have hrest : ∀ s ∈ rest, lo ≤ s.1 := fun s hs => hxs s (List.mem_cons_of_mem _ hs)
    by_cases hcross : r.1 > r.2
    · simp only [unsortedDisjointRun, specNormalize, if_pos hcross]
      exact ih pending hrest hp
    · cases pending with
      | none =>
        simp only [unsortedDisjointRun, specNormalize, if_neg hcross]
        exact ih (some (r.1, r.2)) hrest (by
          intro p hp'
          simp only [Option.toList_some, List.mem_singleton] at hp'
          subst hp'
          exact ⟨hr1, by omega⟩)
      | some p =>
        have hpb : lo ≤ p.1 ∧ p.1 ≤ p.2 := hp p (by simp)
        by_cases hM : r.1 ≤ p.2 + 1 ∧ p.1 ≤ r.2 + 1
        · have hC : ¬((r.1 ≥ lo + 2 ∧ p.2 ≤ r.1 - 1 - 1) ∨
              (p.1 ≥ lo + 2 ∧ r.2 ≤ p.1 - 1 - 1)) := by omega
          simp only [unsortedDisjointRun, specNormalize, if_neg hcross, if_neg hC, if_pos hM]
          exact ih (some (min p.1 r.1, max p.2 r.2)) hrest (by
            intro q hq
            simp only [Option.toList_some, List.mem_singleton] at hq
            subst hq
            constructor
            · simp only [le_min_iff]; exact ⟨hpb.1, hr1⟩
            · have : p.1 ≤ p.2 := hpb.2
              simp only [min_le_iff, le_max_iff]
              omega)
        · have hC : (r.1 ≥ lo + 2 ∧ p.2 ≤ r.1 - 1 - 1) ∨
              (p.1 ≥ lo + 2 ∧ r.2 ≤ p.1 - 1 - 1) := by omega
          simp only [unsortedDisjointRun, specNormalize, if_neg hcross, if_pos hC, if_neg hM]
          rw [ih (some (r.1, r.2)) hrest (by
            intro q hq
            simp only [Option.toList_some, List.mem_singleton] at hq
            subst hq
            exact ⟨hr1, by omega⟩)]

/-- The map-flavor normalization run panics on no input whose item count is
below the priority counter, and its `(range, value)` projection agrees
with the spec's value-carrying reference fold. -/
theorem unsortedDisjointMapRun_eq_spec {V : Type} [DecidableEq V] (lo hi : ℤ) :
    ∀ (ys : List (Rg × V)) (priority : ℕ) (cp : Option ((Rg × V) × ℕ)),
      (∀ rv ∈ ys, lo ≤ rv.1.1 ∧ rv.1.2 ≤ hi) →
      ys.length < priority →
      (∀ q ∈ cp.toList, lo ≤ q.1.1.1 ∧ q.1.1.1 ≤ q.1.1.2) →
      (unsortedDisjointMapRun lo hi priority ys cp).map (List.map Prod.fst) =
        some (specNormalizeMap ys (cp.map Prod.fst)) := by
  intro ys
  induction ys with
  | nil =>
    intro priority cp _ _ _
    cases cp <;> rfl
  | cons rv rest ih =>
    intro priority cp hys hlen hcp
    have hrv : lo ≤ rv.1.1 ∧ rv.1.2 ≤ hi := hys rv (List.mem_cons_self rv rest)
    have hrest : ∀ s ∈ rest, lo ≤ s.1.1 ∧ s.1.2 ≤ hi :=
      fun s hs => hys s (List.mem_cons_of_mem _ hs)
    have hlen' : rest.length < priority - 1 := by
      simp only [List.length_cons] at hlen; omega
    have hpz : ¬(priority - 1 = 0) := by omega
    have hhi : ¬(rv.1.2 > hi) := by omega
    by_cases hcross : rv.1.1 > rv.1.2
    · simp only [unsortedDisjointMapRun, specNormalizeMap, if_neg hpz, if_neg hhi,
        if_pos hcross]
      exact ih (priority - 1) cp hrest hlen' hcp
    · cases cp with
      | none =>
        simp only [unsortedDisjointMapRun, specNormalizeMap, if_neg hpz, if_neg hhi,
          if_neg hcross, Option.map_none]
        exact ih (priority - 1) (some (rv, priority)) hrest hlen' (by
          intro q hq
          simp only [Option.toList_some, List.mem_singleton] at hq
          subst hq
          exact ⟨hrv.1, not_lt.mp hcross⟩)
      | some cq =>
        have hqb := hcp cq (by simp)
        by_cases hT : rv.1.1 ≤ cq.1.1.2 + 1 ∧ cq.1.1.1 ≤ rv.1.2 + 1
        · have hC : ¬((rv.1.1 ≥ lo + 2 ∧ cq.1.1.2 ≤ rv.1.1 - 2) ∨
              (cq.1.1.1 ≥ lo + 2 ∧ rv.1.2 ≤ cq.1.1.1 - 2)) := by omega
          by_cases hV : cq.1.2 = rv.2
          · have hS : (rv.1.1 ≤ cq.1.1.2 + 1 ∧ cq.1.1.1 ≤ rv.1.2 + 1) ∧ cq.1.2 = rv.2 :=
              ⟨hT, hV⟩
            simp only [unsortedDisjointMapRun, specNormalizeMap, if_neg hpz, if_neg hhi,
              if_neg hcross, if_neg hC, if_neg (by simp [hV] : ¬(cq.1.2 ≠ rv.2)),
              Option.map_some', if_pos hS]
            rw [ih (priority - 1)
              (some (((min cq.1.1.1 rv.1.1, max cq.1.1.2 rv.1.2), cq.1.2), cq.2))
              hrest hlen' (by
                intro q hq
                simp only [Option.toList_some, List.mem_singleton] at hq
                subst hq
                refine ⟨by simp only [le_min_iff]; exact ⟨hqb.1, hrv.1⟩, ?_⟩
                have := hqb.2
                simp only [min_le_iff, le_max_iff]
                omega)]
            rfl
          · have hS : ¬((rv.1.1 ≤ cq.1.1.2 + 1 ∧ cq.1.1.1 ≤ rv.1.2 + 1) ∧ cq.1.2 = rv.2) := by
              simp [hV]
            simp only [unsortedDisjointMapRun, specNormalizeMap, if_neg hpz, if_neg hhi,
              if_neg hcross, if_neg hC, if_pos (by simpa using hV : cq.1.2 ≠ rv.2),
              Option.map_some', if_neg hS]
            rw [Option.map_map]
            have hrec := ih (priority - 1) (some (rv, priority)) hrest hlen' (by
              intro q hq
              simp only [Option.toList_some, List.mem_singleton] at hq
              subst hq
              exact ⟨hrv.1, not_lt.mp hcross⟩)
            rw [show (List.map Prod.fst ∘ fun l => cq :: l : List ((Rg × V) × ℕ) →
                List (Rg × V)) = (fun l => cq.1 :: l) ∘ List.map Prod.fst from rfl,
              ← Option.map_map, hrec]
            rfl
        · have hC : (rv.1.1 ≥ lo + 2 ∧ cq.1.1.2 ≤ rv.1.1 - 2) ∨
              (cq.1.1.1 ≥ lo + 2 ∧ rv.1.2 ≤ cq.1.1.1 - 2) := by omega
          have hS : ¬((rv.1.1 ≤ cq.1.1.2 + 1 ∧ cq.1.1.1 ≤ rv.1.2 + 1) ∧ cq.1.2 = rv.2) := by
            simp [hT]
          simp only [unsortedDisjointMapRun, specNormalizeMap, if_neg hpz, if_neg hhi,
            if_neg hcross, if_pos hC, Option.map_some', if_neg hS]
          rw [Option.map_map]
          have hrec := ih (priority - 1) (some (rv, priority)) hrest hlen' (by
            intro q hq
            simp only [Option.toList_some, List.mem_singleton] at hq
            subst hq
            exact ⟨hrv.1, not_lt.mp hcross⟩)
          rw [show (List.map Prod.fst ∘ fun l => cq :: l : List ((Rg × V) × ℕ) →
              List (Rg × V)) = (fun l => cq.1 :: l) ∘ List.map Prod.fst from rfl,
            ← Option.map_map, hrec]
          rfl

/-- C8: for arbitrary input iterators (coordinates within the element
type's domain, and fewer items than the priority counter for the map
flavor), the normalization stage's output equals the spec's reference
fold, in both the set flavor and the value-carrying flavor. -/
theorem normalization_matches_reference_fold {V : Type} [DecidableEq V]
    (lo hi : ℤ) (xs : List Rg) (ys : List (Rg × V))
    (hxs : ∀ r ∈ xs, lo ≤ r.1)
    (hys : ∀ rv ∈ ys, lo ≤ rv.1.1 ∧ rv.1.2 ≤ hi)
    (hlen : ys.length < usizeMax) :
    unsortedDisjointRun lo xs none = specNormalize xs none ∧
    (unsortedDisjointMapRun lo hi usizeMax ys none).map (List.map Prod.fst) =
      some (specNormalizeMap ys none) := by
  constructor
  · exact unsortedDisjointRun_eq_spec lo xs none hxs (by simp)
  · simpa using unsortedDisjointMapRun_eq_spec lo hi ys usizeMax none hys hlen (by simp)

/-- Witness for C8 at a concrete unsorted, overlapping input. -/
theorem normalization_matches_reference_fold_witness :
    (∀ r ∈ ([(5, 100), (1, 2), (9, 3), (2, 6)] : List Rg), (0 : ℤ) ≤ r.1) ∧
    (∀ rv ∈ ([(((5 : ℤ), 100), (7 : ℕ)), ((1, 2), 7), ((101, 101), 8)] :
        List (Rg × ℕ)), (0 : ℤ) ≤ rv.1.1 ∧ rv.1.2 ≤ 255) ∧
    ([(((5 : ℤ), 100), (7 : ℕ)), ((1, 2), 7), ((101, 101), 8)] :
        List (Rg × ℕ)).length < usizeMax ∧
    (unsortedDisjointRun 0 [(5, 100), (1, 2), (9, 3), (2, 6)] none =
        specNormalize [(5, 100), (1, 2), (9, 3), (2, 6)] none ∧
      (unsortedDisjointMapRun 0 255 usizeMax
          [(((5 : ℤ), 100), (7 : ℕ)), ((1, 2), 7), ((101, 101), 8)] none).map
          (List.map Prod.fst) =
        some (specNormalizeMap [(((5 : ℤ), 100), (7 : ℕ)), ((1, 2), 7), ((101, 101), 8)]
          none)) :=
  ⟨by decide, by decide, by decide,
    normalization_matches_reference_fold 0 255 _ _ (by decide) (by decide) (by decide)⟩

/-! ### Pairwise equality (`src/sorted_disjoint_map.rs`, `SortedDisjointMap::equal`)

`equal` zips the two streams with `zip_longest` and requires, at every
position, equal ranges and equal payloads; a position where only one
stream still has an item yields `false`. -/

/-- The `equal` comparison of two `SortedDisjointMap` streams. -/
def equalRun {V : Type} [DecidableEq V] : List (Rg × V) → List (Rg × V) → Bool
  | [], [] => true
  | a :: as_, b :: bs => (decide (a.1 = b.1) && decide (a.2 = b.2)) && equalRun as_ bs
  | _ :: _, [] => false
  | [], _ :: _ => false

/-- C9: `equal` returns `true` exactly when the two streams have the same
length and agree, position by position, on both range and payload. -/
theorem equal_iff_same_length_and_pointwise {V : Type} [DecidableEq V]
    (a b : List (Rg × V)) :
    equalRun a b = true ↔
      (a.length = b.length ∧
        ∀ (i : ℕ) (ha : i < a.length) (hb : i < b.length),
          (a.get ⟨i, ha⟩).1 = (b.get ⟨i, hb⟩).1 ∧
          (a.get ⟨i, ha⟩).2 = (b.get ⟨i, hb⟩).2) := by
  induction a generalizing b with
  | nil =>
    cases b with
    | nil => simp [equalRun]
    | cons y ys => simp [equalRun]
  | cons x xs ih =>
    cases b with
    | nil => simp [equalRun]
    | cons y ys =>
      simp only [equalRun, Bool.and_eq_true, decide_eq_true_eq, List.length_cons, ih]
      constructor
      · rintro ⟨⟨h1, h2⟩, hlen, hpt⟩
        refine ⟨by omega, ?_⟩
        intro i ha hb
        match i with
        | 0 => exact ⟨h1, h2⟩
        | Nat.succ k =>
          exact hpt k (by omega) (by omega)
      · rintro ⟨hlen, hpt⟩
        refine ⟨hpt 0 (by omega) (by omega), by omega, ?_⟩
        intro i ha hb
        exact hpt (i + 1) (by omega) (by omega)

/-! ### Priority annotation (`src/unsorted_disjoint_map.rs`, lines 39-48 and 72-78)

`UnsortedDisjointMap::new` initializes `priority = NonZeroUsize::MAX`;
each call to the inner `iter.next()` annotates the consumed item with the
current `priority` and then replaces `priority` by
`non_zero_checked_sub(priority, 1)`.  So the k-th consumed item carries
the priority number `NonZeroUsize::MAX - k`. -/

/-- The sequence of `(item, priority_number)` annotations produced as the
inner iterator is consumed, starting from the counter `priority`. -/
def assignPriorityNumbers {α : Type} : ℕ → List α → List (α × ℕ)
  | _, [] => []
  | priority, x :: rest => (x, priority) :: assignPriorityNumbers (priority - 1) rest

theorem assignPriorityNumbers_length {α : Type} :
    ∀ (priority : ℕ) (ys : List α),
      (assignPriorityNumbers priority ys).length = ys.length := by
  intro priority ys
  induction ys generalizing priority with
  | nil => rfl
  | cons y rest ih => simp [assignPriorityNumbers, ih]

theorem assignPriorityNumbers_get {α : Type} :
    ∀ (ys : List α) (priority k : ℕ) (h : k < ys.length)
      (h2 : k < (assignPriorityNumbers priority ys).length),
      (assignPriorityNumbers priority ys).get ⟨k, h2⟩ = (ys.get ⟨k, h⟩, priority - k) := by
  intro ys
  induction ys with
  | nil => intro priority k h _; exact absurd h (by simp)
  | cons y rest ih =>
    intro priority k h h2
    match k with
    | 0 => rfl
    | Nat.succ m =>
      have hm : m < rest.length := by simpa using h
      have hm2 : m < (assignPriorityNumbers (priority - 1) rest).length := by
        rw [assignPriorityNumbers_length]; exact hm
      have := ih (priority - 1) m hm hm2
      simp only [assignPriorityNumbers, List.get_cons_succ, this]
      congr 1
      omega

/-- C7 counterexample: with two items consumed from the input, the item
consumed later carries a smaller (not larger) priority number. -/
theorem priority_annotation_not_ascending :
    ¬(((assignPriorityNumbers usizeMax
          ([(((1 : ℤ), 2), (0 : ℕ)), (((5 : ℤ), 6), 1)] : List (Rg × ℕ))).get
        ⟨1, by decide⟩).2 >
      ((assignPriorityNumbers usizeMax
          ([(((1 : ℤ), 2), (0 : ℕ)), (((5 : ℤ), 6), 1)] : List (Rg × ℕ))).get
        ⟨0, by decide⟩).2) := by
  decide

/-- C7 as amended: the annotation counter starts at `NonZeroUsize::MAX`
and is decremented per consumed item, so the item consumed later carries a
strictly smaller priority number (smaller numbers win ties downstream). -/
theorem priority_annotation_strictly_descending {V : Type} [DecidableEq V]
    (ys : List (Rg × V)) (i j : ℕ) (hij : i < j) (hj : j < ys.length)
    (hp : ys.length ≤ usizeMax) :
    ((assignPriorityNumbers usizeMax ys).get
        ⟨j, by rw [assignPriorityNumbers_length]; exact hj⟩).2 <
    ((assignPriorityNumbers usizeMax ys).get
        ⟨i, by rw [assignPriorityNumbers_length]; omega⟩).2 := by
  rw [assignPriorityNumbers_get ys usizeMax j hj, assignPriorityNumbers_get ys usizeMax i
    (by omega)]
  have : (0 : ℕ) < usizeMax - j := by
    have : j < usizeMax := by omega
    omega
  omega

/-- Witness for the amended C7 at a concrete two-item input. -/
theorem priority_annotation_strictly_descending_witness :
    (0 < 1 ∧ 1 < ([(((1 : ℤ), 2), (0 : ℕ)), (((5 : ℤ), 6), 1)] : List (Rg × ℕ)).length ∧
      ([(((1 : ℤ), 2), (0 : ℕ)), (((5 : ℤ), 6), 1)] : List (Rg × ℕ)).length ≤ usizeMax) ∧
    ((assignPriorityNumbers usizeMax
        ([(((1 : ℤ), 2), (0 : ℕ)), (((5 : ℤ), 6), 1)] : List (Rg × ℕ))).get
      ⟨1, by rw [assignPriorityNumbers_length]; decide⟩).2 <
    ((assignPriorityNumbers usizeMax
        ([(((1 : ℤ), 2), (0 : ℕ)), (((5 : ℤ), 6), 1)] : List (Rg × ℕ))).get
      ⟨0, by rw [assignPriorityNumbers_length]; decide⟩).2 :=
  ⟨⟨by decide, by decide, by decide⟩,
    priority_annotation_strictly_descending _ 0 1 (by decide) (by decide) (by decide)⟩

/-! ### Checking wrapper (`src/sorted_disjoint_map.rs`, `CheckSortedDisjointMap::next`)

The wrapper stores the previous item and asserts, for every item after the
first: `start ≤ end`, `end ≤ T::safe_max_value()`, `previous_end < start`,
and, when the new range touches the previous one, that the two values
differ.  The very first item is stored and yielded without any check.  A
failed assert is a panic, modelled as the `Bool` component `true`; the
emitted prefix is the first component. -/

/-- Output prefix and panic flag of `CheckSortedDisjointMap` from a stored
previous item. -/
def checkSortedDisjointMapRun {V : Type} [DecidableEq V] (hi : ℤ) :
    Option (Rg × V) → List (Rg × V) → List (Rg × V) × Bool
  | _, [] => ([], false)
  | none, rangeValue :: rest =>
    let p := checkSortedDisjointMapRun hi (some rangeValue) rest
    (rangeValue :: p.1, p.2)
  | some previous, rangeValue :: rest =>
    let previousEnd := previous.1.2
    if rangeValue.1.1 > rangeValue.1.2 then ([], true)
    else if rangeValue.1.2 > hi then ([], true)
    else if previousEnd ≥ rangeValue.1.1 then ([], true)
    else if previousEnd + 1 = rangeValue.1.1 ∧ previous.2 = rangeValue.2 then ([], true)
    else
      let p := checkSortedDisjointMapRun hi (some rangeValue) rest
      (rangeValue :: p.1, p.2)

/-- The conditions under which `CheckSortedDisjointMap` panics on item
`cur` when the previously yielded item was `prev`. -/
def checkViol {V : Type} (hi : ℤ) (prev cur : Rg × V) : Prop :=
  cur.1.1 > cur.1.2 ∨ cur.1.2 > hi ∨ prev.1.2 ≥ cur.1.1 ∨
    (prev.1.2 + 1 = cur.1.1 ∧ prev.2 = cur.2)

instance {V : Type} [DecidableEq V] (hi : ℤ) (prev cur : Rg × V) :
    Decidable (checkViol hi prev cur) :=
  inferInstanceAs (Decidable (_ ∨ _ ∨ _ ∨ _))

/-- C6 counterexample: the stream `[(1..=2, 0), (3..=4, 1)]` violates the
claimed condition `e1 + 1 < s2` at its consecutive pair (the ranges touch),
yet the checking wrapper yields both items and does not panic, because
touching ranges with different values are accepted. -/
theorem check_touching_distinct_values_no_panic :
    checkSortedDisjointMapRun 1000 none
        ([(((1 : ℤ), 2), (0 : ℕ)), (((3 : ℤ), 4), 1)] : List (Rg × ℕ)) =
      ([(((1 : ℤ), 2), (0 : ℕ)), (((3 : ℤ), 4), 1)], false) ∧
    ¬((2 : ℤ) + 1 < 3) := by
  constructor
  · rfl
  · decide

theorem checkSortedDisjointMapRun_chain {V : Type} [DecidableEq V] (hi : ℤ) :
    ∀ (xs : List (Rg × V)) (prev : Rg × V),
      ((checkSortedDisjointMapRun hi (some prev) xs).2 = false ↔
        List.Chain (fun a b => ¬checkViol hi a b) prev xs) ∧
      ((checkSortedDisjointMapRun hi (some prev) xs).2 = false →
        (checkSortedDisjointMapRun hi (some prev) xs).1 = xs) ∧
      (∃ n, (checkSortedDisjointMapRun hi (some prev) xs).1 = xs.take n) := by
  intro xs
  induction xs with
  | nil =>
    intro prev
    refine ⟨by simp [checkSortedDisjointMapRun], fun _ => rfl, ⟨0, rfl⟩⟩
  | cons cur rest ih =>
    intro prev
    by_cases hv : checkViol hi prev cur
    · have hrun : checkSortedDisjointMapRun hi (some prev) (cur :: rest) = ([], true) := by
        simp only [checkSortedDisjointMapRun]
        rcases hv with h | h | h | h
        · rw [if_pos h]
        · by_cases h1 : cur.1.1 > cur.1.2
          · rw [if_pos h1]
          · rw [if_neg h1, if_pos h]
        · by_cases h1 : cur.1.1 > cur.1.2
          · rw [if_pos h1]
          · by_cases h2 : cur.1.2 > hi
            · rw [if_neg h1, if_pos h2]
            · rw [if_neg h1, if_neg h2, if_pos h]
        · by_cases h1 : cur.1.1 > cur.1.2
          · rw [if_pos h1]
          · by_cases h2 : cur.1.2 > hi
            · rw [if_neg h1, if_pos h2]
            · by_cases h3 : prev.1.2 ≥ cur.1.1
              · rw [if_neg h1, if_neg h2, if_pos h3]
              · rw [if_neg h1, if_neg h2, if_neg h3, if_pos h]
      refine ⟨?_, ?_, ?_⟩
      · rw [hrun]
        simp only [List.chain_cons]
        constructor
        · intro h; simp at h
        · rintro ⟨h, _⟩; exact (h hv).elim
      · intro h; rw [hrun] at h; simp at h
      · exact ⟨0, by rw [hrun]; rfl⟩
    · have h1 : ¬(cur.1.1 > cur.1.2) := fun h => hv (Or.inl h)
      have h2 : ¬(cur.1.2 > hi) := fun h => hv (Or.inr (Or.inl h))
      have h3 : ¬(prev.1.2 ≥ cur.1.1) := fun h => hv (Or.inr (Or.inr (Or.inl h)))
      have h4 : ¬(prev.1.2 + 1 = cur.1.1 ∧ prev.2 = cur.2) :=
        fun h => hv (Or.inr (Or.inr (Or.inr h)))
      have hrun : checkSortedDisjointMapRun hi (some prev) (cur :: rest) =
          ((cur :: (checkSortedDisjointMapRun hi (some cur) rest).1),
            (checkSortedDisjointMapRun hi (some cur) rest).2) := by
        simp only [checkSortedDisjointMapRun]
        rw [if_neg h1, if_neg h2, if_neg h3, if_neg h4]
      obtain ⟨ih1, ih2, n, ih3⟩ := ih cur
      refine ⟨?_, ?_, ?_⟩
      · rw [hrun]
        simp only [List.chain_cons]
        rw [ih1]
        exact ⟨fun h => ⟨hv, h⟩, fun h => h.2⟩
      · intro h
        rw [hrun] at h ⊢
        simp only [List.cons.injEq, true_and]
        exact ih2 h
      · exact ⟨n + 1, by rw [hrun]; simp [ih3]⟩

/-- C6 as amended: the checking wrapper yields the input items unchanged
up to the first violation and panics there; a violation at an item after
the first is: `start > end`, or `end` above the safe maximum, or overlap
with the previous range (`prev_end ≥ start`), or touching the previous
range with an equal value.  Touching ranges with different values are
accepted, and the first item is yielded without any check. -/
theorem check_sorted_disjoint_map_panic_characterization {V : Type} [DecidableEq V]
    (hi : ℤ) (xs : List (Rg × V)) :
    ((checkSortedDisjointMapRun hi none xs).2 = false ↔
      List.Chain' (fun a b => ¬checkViol hi a b) xs) ∧
    ((checkSortedDisjointMapRun hi none xs).2 = false →
      (checkSortedDisjointMapRun hi none xs).1 = xs) ∧
    (∃ n, (checkSortedDisjointMapRun hi none xs).1 = xs.take n) := by
  cases xs with
  | nil => exact ⟨by simp [checkSortedDisjointMapRun], fun _ => rfl, ⟨0, rfl⟩⟩
  | cons cur rest =>
    obtain ⟨ih1, ih2, n, ih3⟩ := checkSortedDisjointMapRun_chain hi rest cur
    have hrun : checkSortedDisjointMapRun hi none (cur :: rest) =
        ((cur :: (checkSortedDisjointMapRun hi (some cur) rest).1),
          (checkSortedDisjointMapRun hi (some cur) rest).2) := by
      simp [checkSortedDisjointMapRun]
    refine ⟨?_, ?_, ?_⟩
    · rw [hrun]
      exact ih1
    · intro h
      rw [hrun] at h ⊢
      simp only [List.cons.injEq, true_and]
      exact ih2 h
    · exact ⟨n + 1, by rw [hrun]; simp [ih3]⟩

/-! ### Complement (`src/not_iter.rs`, `NotIter::next`)

State: the upstream iterator, `start_not` (initially `T::min_value2()`,
i.e. `lo`) and the `next_time_return_none` flag.  The single bounded
recursion of `next` (the no-gap case) is one more step of the same run. -/

/-- Full output stream of `NotIter` from state `(startNot, nextTimeReturnNone)`. -/
def notIterRun (lo hi : ℤ) : List Rg → ℤ → Bool → List Rg
  | _, _, true => []
  | [], startNot, false => [(startNot, hi)]
  | range :: rest, startNot, false =>
    if startNot < range.1 then
      (startNot, range.1 - 1) ::
        (if range.2 < hi then notIterRun lo hi rest (range.2 + 1) false else [])
    else if range.2 < hi then notIterRun lo hi rest (range.2 + 1) false
    else []

/-- The complement stream of a Sorted-Disjoint input, from a fresh `NotIter`. -/
def notIterSeq (lo hi : ℤ) (xs : List Rg) : List Rg := notIterRun lo hi xs lo false

/-- Overflow/panic-instrumented `NotIter`: the assert `min ≤ max`, the
debug assert `start ≤ end`, and the `sub_one`/`add_one` calls (which must
not be applied at `lo`/`hi`) are checked; `none` models a panic or an
overflow. -/
def notIterRunChk (lo hi : ℤ) : List Rg → ℤ → Option (List Rg)
  | [], startNot =>
    if ¬(lo ≤ hi) then none
    else some [(startNot, hi)]
  | range :: rest, startNot =>
    if ¬(lo ≤ hi) then none
    else if ¬(range.1 ≤ range.2) then none
    else if startNot < range.1 then
      match (if range.1 = lo then none else some (range.1 - 1)) with
      | none => none
      | some gapEnd =>
        if range.2 < hi then
          match (if range.2 = hi then none else some (range.2 + 1)) with
          | none => none
          | some newStart => (notIterRunChk lo hi rest newStart).map ((startNot, gapEnd) :: ·)
        else some [(startNot, gapEnd)]
    else if range.2 < hi then
      match (if range.2 = hi then none else some (range.2 + 1)) with
      | none => none
      | some newStart => notIterRunChk lo hi rest newStart
    else some []

/-! ### Union, set flavor (`src/union_iter.rs`, `UnionIter::next`)

State: the upstream (merged, Sorted-Starts) iterator and `option_range`,
the current accumulating range. -/

/-- Full output stream of `UnionIter` from pending state `cur`. -/
def unionIterRun (hi : ℤ) : List Rg → Option Rg → List Rg
  | [], cur => cur.toList
  | range :: rest, cur =>
    if range.2 < range.1 then unionIterRun hi rest cur
    else
      match cur with
      | none => unionIterRun hi rest (some range)
      | some c =>
        if range.1 ≤ c.2 ∨ (c.2 < hi ∧ range.1 ≤ c.2 + 1) then
          unionIterRun hi rest (some (c.1, max c.2 range.2))
        else
          (c.1, c.2) :: unionIterRun hi rest (some range)

/-- The union stream of a Sorted-Starts input, from a fresh `UnionIter`. -/
def unionIterSeq (hi : ℤ) (xs : List Rg) : List Rg := unionIterRun hi xs none

/-- Overflow/panic-instrumented `UnionIter`: the debug assert
`current_start ≤ start` is checked, and `current_end + 1` is only taken
behind its `current_end < safe_max_value` guard (so it can never
overflow); `none` models a panic. -/
def unionIterRunChk (hi : ℤ) : List Rg → Option Rg → Option (List Rg)
  | [], cur => some cur.toList
  | range :: rest, cur =>
    if range.2 < range.1 then unionIterRunChk hi rest cur
    else
      match cur with
      | none => unionIterRunChk hi rest (some range)
      | some c =>
        if ¬(c.1 ≤ range.1) then none
        else if range.1 ≤ c.2 ∨ (c.2 < hi ∧ range.1 ≤ c.2 + 1) then
          unionIterRunChk hi rest (some (c.1, max c.2 range.2))
        else
          (unionIterRunChk hi rest (some range)).map ((c.1, c.2) :: ·)

theorem sortedDisjoint_tail {a : Rg} {t : List Rg} (h : SortedDisjoint (a :: t)) :
    SortedDisjoint t :=
  ⟨fun r hr => h.1 r (List.mem_cons_of_mem _ hr), h.2.tail⟩

theorem sd_head_lt : ∀ (a : Rg) (t : List Rg), SortedDisjoint (a :: t) →
    ∀ r ∈ t, a.2 + 1 < r.1 := by
  intro a t
  induction t generalizing a with
  | nil => intro _ r hr; simp at hr
  | cons b t' ih =>
    intro h r hr
    have hab : a.2 + 1 < b.1 := (List.chain'_cons.mp h.2).1
    rcases List.mem_cons.mp hr with rfl | hr'
    · exact hab
    · have hb : b.1 ≤ b.2 := h.1 b (by simp)
      have := ih b (sortedDisjoint_tail h) r hr'
      omega

/-- Two Sorted-Disjoint lists describing the same set of coordinates are
equal: the canonical form is unique. -/
theorem sortedDisjoint_ext : ∀ (l1 l2 : List Rg), SortedDisjoint l1 → SortedDisjoint l2 →
    (∀ x, memOut x l1 ↔ memOut x l2) → l1 = l2 := by
  intro l1
  induction l1 with
  | nil =>
    intro l2 _ h2 hm
    cases l2 with
    | nil => rfl
    | cons b t2 =>
      exfalso
      have hb : memOut b.1 (b :: t2) :=
        ⟨b, List.mem_cons_self _ _, le_refl _, h2.1 b (by simp)⟩
      obtain ⟨r, hr, _⟩ := (hm b.1).mpr hb
      simp at hr
  | cons a t1 ih =>
    intro l2 h1 h2 hm
    cases l2 with
    | nil =>
      exfalso
      have ha : memOut a.1 (a :: t1) :=
        ⟨a, List.mem_cons_self _ _, le_refl _, h1.1 a (by simp)⟩
      obtain ⟨r, hr, _⟩ := (hm a.1).mp ha
      simp at hr
    | cons b t2 =>
      have hav : a.1 ≤ a.2 := h1.1 a (by simp)
      have hbv : b.1 ≤ b.2 := h2.1 b (by simp)
      have hge : b.1 ≤ a.1 := by
        obtain ⟨r, hr, hcov⟩ := (hm a.1).mp ⟨a, List.mem_cons_self _ _, le_refl _, hav⟩
        rcases List.mem_cons.mp hr with rfl | hr'
        · exact hcov.1
        · have := sd_head_lt b t2 h2 r hr'
          have := hcov.1
          omega
      have hle : a.1 ≤ b.1 := by
        obtain ⟨r, hr, hcov⟩ := (hm b.1).mpr ⟨b, List.mem_cons_self _ _, le_refl _, hbv⟩
        rcases List.mem_cons.mp hr with rfl | hr'
        · exact hcov.1
        · have := sd_head_lt a t1 h1 r hr'
          have := hcov.1
          omega
      have hstart : a.1 = b.1 := le_antisymm hle hge
      have hend : a.2 = b.2 := by
        by_contra hne
        rcases lt_or_gt_of_ne hne with hlt | hgt
        · obtain ⟨r, hr, hcov⟩ := (hm (a.2 + 1)).mpr
            ⟨b, List.mem_cons_self _ _, by omega, by omega⟩
          rcases List.mem_cons.mp hr with rfl | hr'
          · have := hcov.2; omega
          · have := sd_head_lt a t1 h1 r hr'
            have := hcov.1
            omega
        · obtain ⟨r, hr, hcov⟩ := (hm (b.2 + 1)).mp
            ⟨a, List.mem_cons_self _ _, by omega, by omega⟩
          rcases List.mem_cons.mp hr with rfl | hr'
          · have := hcov.2; omega
          · have := sd_head_lt b t2 h2 r hr'
            have := hcov.1
            omega
      have htail : t1 = t2 := by
        apply ih t2 (sortedDisjoint_tail h1) (sortedDisjoint_tail h2)
        intro x
        constructor
        · rintro ⟨r, hr, hcov⟩
          have hrgt : a.2 + 1 < r.1 := sd_head_lt a t1 h1 r hr
          obtain ⟨q, hq, hqcov⟩ := (hm x).mp ⟨r, List.mem_cons_of_mem _ hr, hcov⟩
          rcases List.mem_cons.mp hq with rfl | hq'
          · exfalso
            have := hqcov.2
            have := hcov.1
            omega
          · exact ⟨q, hq', hqcov⟩
        · rintro ⟨r, hr, hcov⟩
          have hrgt : b.2 + 1 < r.1 := sd_head_lt b t2 h2 r hr
          obtain ⟨q, hq, hqcov⟩ := (hm x).mpr ⟨r, List.mem_cons_of_mem _ hr, hcov⟩
          rcases List.mem_cons.mp hq with rfl | hq'
          · exfalso
            have := hqcov.2
            have := hcov.1
            omega
          · exact ⟨q, hq', hqcov⟩
      rw [htail, Prod.ext hstart hend]

/-- Main properties of the `NotIter` run: for a Sorted-Disjoint input whose
ranges lie in `[s, hi]`, the output is Sorted-Disjoint, lies in `[s, hi]`,
and a coordinate `x ≤ hi` is covered by the output exactly when `s ≤ x`
and `x` is not covered by the input. -/
theorem notIterRun_main (lo hi : ℤ) : ∀ (xs : List Rg) (s : ℤ),
    s ≤ hi →
    (∀ r ∈ xs, s ≤ r.1 ∧ r.1 ≤ r.2 ∧ r.2 ≤ hi) →
    xs.Chain' (fun a b => a.2 + 1 < b.1) →
    SortedDisjoint (notIterRun lo hi xs s false) ∧
    (∀ out ∈ notIterRun lo hi xs s false, s ≤ out.1 ∧ out.1 ≤ out.2 ∧ out.2 ≤ hi) ∧
    (∀ x : ℤ, x ≤ hi → (memOut x (notIterRun lo hi xs s false) ↔ s ≤ x ∧ ¬memOut x xs)) := by
  intro xs
  induction xs with
  | nil =>
    intro s hs _ _
    refine ⟨⟨fun r hr => ?_, ?_⟩, fun out hout => ?_, fun x hx => ?_⟩
    · simp only [notIterRun, List.mem_singleton] at hr; subst hr; exact hs
    · simp [notIterRun]
    · simp only [notIterRun, List.mem_singleton] at hout; subst hout
      exact ⟨le_refl _, hs, le_refl _⟩
    · simp only [notIterRun, memOut, covers, List.mem_singleton]
      constructor
      · rintro ⟨r, rfl, h1, h2⟩
        exact ⟨h1, by rintro ⟨q, hq, _⟩; simp at hq⟩
      · rintro ⟨h1, _⟩
        exact ⟨(s, hi), rfl, h1, hx⟩
  | cons r rest ih =>
    intro s hs hb hchain
    have hr := hb r (List.mem_cons_self r rest)
    have hbrest : ∀ q ∈ rest, s ≤ q.1 ∧ q.1 ≤ q.2 ∧ q.2 ≤ hi :=
      fun q hq => hb q (List.mem_cons_of_mem _ hq)
    have hsd : SortedDisjoint (r :: rest) :=
      ⟨fun q hq => (hb q hq).2.1, hchain⟩
    have hgap : ∀ q ∈ rest, r.2 + 1 < q.1 := sd_head_lt r rest hsd
    have hmr : ∀ x : ℤ, memOut x rest → r.2 + 1 < x := by
      rintro x ⟨q, hq, hc1, _⟩
      have := hgap q hq
      omega
    by_cases hlt : s < r.1
    · by_cases hrh : r.2 < hi
      · obtain ⟨sdR, bndR, memR⟩ := ih (r.2 + 1) (by omega)
          (fun q hq => ⟨le_of_lt (hgap q hq), (hbrest q hq).2.1, (hbrest q hq).2.2⟩)
          hchain.tail
        have hrun : notIterRun lo hi (r :: rest) s false =
            (s, r.1 - 1) :: notIterRun lo hi rest (r.2 + 1) false := by
          simp only [notIterRun, if_pos hlt, if_pos hrh]
        rw [hrun]
        refine ⟨⟨?_, ?_⟩, ?_, ?_⟩
        · intro q hq
          rcases List.mem_cons.mp hq with rfl | hq'
          · simp only; omega
          · exact (bndR q hq').2.1
        · rw [List.chain'_cons']
          refine ⟨fun b hbh => ?_, sdR.2⟩
          have hbm := List.mem_of_mem_head? hbh
          have := (bndR b hbm).1
          simp only
          omega
        · intro out hout
          rcases List.mem_cons.mp hout with rfl | hout'
          · exact ⟨le_refl _, by omega, by omega⟩
          · have := bndR out hout'
            exact ⟨by omega, this.2.1, this.2.2⟩
        · intro x hx
          constructor
          · rintro ⟨q, hq, hcov⟩
            rcases List.mem_cons.mp hq with rfl | hq2
            · refine ⟨hcov.1, ?_⟩
              rintro ⟨p, hp, hpcov⟩
              rcases List.mem_cons.mp hp with rfl | hp2
              · have := hcov.2
                have := hpcov.1
                omega
              · have := hmr x ⟨p, hp2, hpcov⟩
                have := hcov.2
                omega
            · obtain ⟨h1, h2⟩ := (memR x hx).mp ⟨q, hq2, hcov⟩
              refine ⟨by omega, ?_⟩
              rintro ⟨p, hp, hpcov⟩
              rcases List.mem_cons.mp hp with rfl | hp2
              · have := hpcov.2
                omega
              · exact h2 ⟨p, hp2, hpcov⟩
          · rintro ⟨hsx, hnot⟩
            by_cases hxr : x ≤ r.1 - 1
            · exact ⟨(s, r.1 - 1), List.mem_cons_self _ _, hsx, hxr⟩
            · have hxgt : r.2 + 1 ≤ x := by
                by_contra hc
                exact hnot ⟨r, List.mem_cons_self _ _, by omega, by omega⟩
              obtain ⟨q, hq, hqcov⟩ := (memR x hx).mpr
                ⟨hxgt, fun hm => hnot (by
                  obtain ⟨p, hp, hpcov⟩ := hm
                  exact ⟨p, List.mem_cons_of_mem _ hp, hpcov⟩)⟩
              exact ⟨q, List.mem_cons_of_mem _ hq, hqcov⟩
      · have hr2 : r.2 = hi := by omega
        have hrest_nil : rest = [] := by
          cases rest with
          | nil => rfl
          | cons q t =>
            exfalso
            have h1 := hgap q (List.mem_cons_self q t)
            have h2 := hbrest q (List.mem_cons_self q t)
            omega
        subst hrest_nil
        have hrun : notIterRun lo hi [r] s false = [(s, r.1 - 1)] := by
          simp only [notIterRun, if_pos hlt, if_neg hrh]
        rw [hrun]
        refine ⟨⟨?_, ?_⟩, ?_, ?_⟩
        · intro q hq
          simp only [List.mem_singleton] at hq; subst hq
          simp only; omega
        · simp
        · intro out hout
          simp only [List.mem_singleton] at hout; subst hout
          exact ⟨le_refl _, by omega, by omega⟩
        · intro x hx
          simp only [memOut, covers, List.mem_singleton]
          constructor
          · rintro ⟨q, rfl, h1, h2⟩
            exact ⟨h1, by rintro ⟨p, rfl, hc1, hc2⟩; omega⟩
          · rintro ⟨h1, h2⟩
            refine ⟨(s, r.1 - 1), rfl, h1, ?_⟩
            by_contra hc
            exact h2 ⟨r, rfl, by omega, by omega⟩
    · have hseq : s ≤ r.1 := hr.1
      have hseq2 : r.1 ≤ s := by omega
      by_cases hrh : r.2 < hi
      · obtain ⟨sdR, bndR, memR⟩ := ih (r.2 + 1) (by omega)
          (fun q hq => ⟨le_of_lt (hgap q hq), (hbrest q hq).2.1, (hbrest q hq).2.2⟩)
          hchain.tail
        have hrun : notIterRun lo hi (r :: rest) s false =
            notIterRun lo hi rest (r.2 + 1) false := by
          simp only [notIterRun, if_neg hlt, if_pos hrh]
        rw [hrun]
        refine ⟨sdR, ?_, ?_⟩
        · intro out hout
          have := bndR out hout
          exact ⟨by omega, this.2.1, this.2.2⟩
        · intro x hx
          rw [memR x hx]
          constructor
          · rintro ⟨h1, h2⟩
            refine ⟨by omega, ?_⟩
            rintro ⟨p, hp, hpcov⟩
            rcases List.mem_cons.mp hp with rfl | hp2
            · have := hpcov.2
              omega
            · exact h2 ⟨p, hp2, hpcov⟩
          · rintro ⟨h1, h2⟩
            have hxr : ¬(x ≤ r.2) := by
              intro hc
              by_cases hx1 : r.1 ≤ x
              · exact h2 ⟨r, List.mem_cons_self _ _, hx1, hc⟩
              · omega
            refine ⟨by omega, fun hm => ?_⟩
            obtain ⟨p, hp, hpcov⟩ := hm
            exact h2 ⟨p, List.mem_cons_of_mem _ hp, hpcov⟩
      · have hr2 : r.2 = hi := by omega
        have hrest_nil : rest = [] := by
          cases rest with
          | nil => rfl
          | cons q t =>
            exfalso
            have h1 := hgap q (List.mem_cons_self q t)
            have h2 := hbrest q (List.mem_cons_self q t)
            omega
        subst hrest_nil
        have hrun : notIterRun lo hi [r] s false = [] := by
          simp only [notIterRun, if_neg hlt, if_neg hrh]
        rw [hrun]
        refine ⟨⟨by simp, by simp⟩, by simp, ?_⟩
        intro x hx
        simp only [memOut, List.not_mem_nil]
        constructor
        · rintro ⟨q, hq, _⟩; simp at hq
        · rintro ⟨h1, h2⟩
          exact absurd ⟨r, List.mem_singleton.mpr rfl, by omega, by omega⟩ h2

/-- C3: applying the complement stage twice to a Sorted-Disjoint sequence
over the domain `[lo, hi]` yields back exactly the same sequence. -/
theorem complement_involution (lo hi : ℤ) (xs : List Rg)
    (hlohi : lo ≤ hi)
    (hb : ∀ r ∈ xs, lo ≤ r.1 ∧ r.2 ≤ hi)
    (hsd : SortedDisjoint xs) :
    notIterSeq lo hi (notIterSeq lo hi xs) = xs := by
  have hb2 : ∀ r ∈ xs, lo ≤ r.1 ∧ r.1 ≤ r.2 ∧ r.2 ≤ hi :=
    fun r hr => ⟨(hb r hr).1, hsd.1 r hr, (hb r hr).2⟩
  obtain ⟨sd1, bnd1, mem1⟩ := notIterRun_main lo hi xs lo hlohi hb2 hsd.2
  obtain ⟨sd2, bnd2, mem2⟩ :=
    notIterRun_main lo hi (notIterRun lo hi xs lo false) lo hlohi bnd1 sd1.2
  apply sortedDisjoint_ext _ _ sd2 hsd
  intro x
  by_cases hx : x ≤ hi
  · rw [mem2 x hx, mem1 x hx]
    constructor
    · rintro ⟨h1, h2⟩
      by_contra hm
      exact h2 ⟨h1, hm⟩
    · intro hm
      have hx1 : lo ≤ x := by
        obtain ⟨r, hr, hc⟩ := hm
        have := (hb2 r hr).1
        have := hc.1
        omega
      exact ⟨hx1, fun hp => hp.2 hm⟩
  · constructor
    · rintro ⟨r, hr, hc⟩
      have := bnd2 r hr
      exact absurd (le_trans hc.2 this.2.2) hx
    · rintro ⟨r, hr, hc⟩
      have := (hb2 r hr).2.2
      exact absurd (le_trans hc.2 this) hx

/-- Witness for C3 on `u8`-like domain `[0, 255]`. -/
theorem complement_involution_witness :
    ((0 : ℤ) ≤ 255 ∧
      (∀ r ∈ ([(1, 2), (5, 100)] : List Rg), (0 : ℤ) ≤ r.1 ∧ r.2 ≤ 255) ∧
      SortedDisjoint [(1, 2), (5, 100)]) ∧
    notIterSeq 0 255 (notIterSeq 0 255 [(1, 2), (5, 100)]) = [(1, 2), (5, 100)] :=
  ⟨⟨by decide, by decide, by decide⟩,
    complement_involution 0 255 _ (by decide) (by decide) (by decide)⟩

/-- The instrumented `NotIter` never panics or overflows on well-formed
input within the domain: it computes exactly the plain run. -/
theorem notIterRunChk_eq (lo hi : ℤ) : ∀ (xs : List Rg) (s : ℤ),
    lo ≤ hi → lo ≤ s →
    (∀ r ∈ xs, lo ≤ r.1 ∧ r.1 ≤ r.2) →
    notIterRunChk lo hi xs s = some (notIterRun lo hi xs s false) := by
  intro xs
  induction xs with
  | nil =>
    intro s hlh _ _
    simp only [notIterRunChk, notIterRun, if_neg (not_not_intro hlh)]
  | cons r rest ih =>
    intro s hlh hls hv
    have hr := hv r (List.mem_cons_self r rest)
    have hrest : ∀ q ∈ rest, lo ≤ q.1 ∧ q.1 ≤ q.2 :=
      fun q hq => hv q (List.mem_cons_of_mem _ hq)
    by_cases hs : s < r.1
    · have hne : ¬(r.1 = lo) := by omega
      by_cases hrh : r.2 < hi
      · have hne2 : ¬(r.2 = hi) := by omega
        simp only [notIterRunChk, notIterRun, if_neg (not_not_intro hlh),
          if_neg (not_not_intro hr.2), if_pos hs, if_pos hrh, if_neg hne, if_neg hne2]
        rw [ih (r.2 + 1) hlh (by omega) hrest]
        rfl
      · simp only [notIterRunChk, notIterRun, if_neg (not_not_intro hlh),
          if_neg (not_not_intro hr.2), if_pos hs, if_neg hrh, if_neg hne]
    · by_cases hrh : r.2 < hi
      · have hne2 : ¬(r.2 = hi) := by omega
        simp only [notIterRunChk, notIterRun, if_neg (not_not_intro hlh),
          if_neg (not_not_intro hr.2), if_neg hs, if_pos hrh, if_neg hne2]
        exact ih (r.2 + 1) hlh (by omega) hrest
      · simp only [notIterRunChk, notIterRun, if_neg (not_not_intro hlh),
          if_neg (not_not_intro hr.2), if_neg hs, if_neg hrh]

/-- In a Sorted-Starts list, every later range starts no earlier than the
head. -/
theorem ss_head_le : ∀ (a : Rg) (t : List Rg), SortedStarts (a :: t) →
    ∀ r ∈ t, a.1 ≤ r.1 := by
  intro a t
  induction t generalizing a with
  | nil => intro _ r hr; simp at hr
  | cons b t2 ih =>
    intro h r hr
    have hab : a.1 ≤ b.1 := (List.chain'_cons.mp h).1
    rcases List.mem_cons.mp hr with rfl | hr2
    · exact hab
    · exact le_trans hab (ih b (List.chain'_cons.mp h).2 r hr2)

/-- Structure of the `UnionIter` run from a well-formed pending range: the
output starts with the pending range's start, extends at least to its end,
and is Sorted-Disjoint (coordinates bounded by `hi`). -/
theorem unionIterRun_some (hi : ℤ) : ∀ (xs : List Rg) (c : Rg),
    (∀ r ∈ xs, r.1 ≤ hi) →
    c.1 ≤ c.2 →
    ∃ e2 tail, unionIterRun hi xs (some c) = (c.1, e2) :: tail ∧ c.2 ≤ e2 ∧
      SortedDisjoint (unionIterRun hi xs (some c)) := by
  intro xs
  induction xs with
  | nil =>
    intro c _ hc
    refine ⟨c.2, [], rfl, le_refl _, ⟨?_, ?_⟩⟩
    · intro q hq
      simp only [unionIterRun, Option.toList_some, List.mem_singleton] at hq
      subst hq
      exact hc
    · simp [unionIterRun]
  | cons r rest ih =>
    intro c hb hc
    have hr1 : r.1 ≤ hi := hb r (List.mem_cons_self r rest)
    have hbrest : ∀ q ∈ rest, q.1 ≤ hi := fun q hq => hb q (List.mem_cons_of_mem _ hq)
    by_cases hinv : r.2 < r.1
    · have hrun : unionIterRun hi (r :: rest) (some c) = unionIterRun hi rest (some c) := by
        simp only [unionIterRun, if_pos hinv]
      rw [hrun]
      exact ih c hbrest hc
    · by_cases hm : r.1 ≤ c.2 ∨ (c.2 < hi ∧ r.1 ≤ c.2 + 1)
      · have hrun : unionIterRun hi (r :: rest) (some c) =
            unionIterRun hi rest (some (c.1, max c.2 r.2)) := by
          simp only [unionIterRun, if_neg hinv, if_pos hm]
        rw [hrun]
        obtain ⟨e2, tail, heq, hle, hsd⟩ := ih (c.1, max c.2 r.2) hbrest
          (by simp only; omega)
        exact ⟨e2, tail, heq, by simp only at hle; omega, hsd⟩
      · have hgap : c.2 + 1 < r.1 := by
          rcases le_or_lt c.2 hi with h | h
          · rcases lt_or_eq_of_le h with h2 | h2
            · omega
            · omega
          · omega
        have hrun : unionIterRun hi (r :: rest) (some c) =
            (c.1, c.2) :: unionIterRun hi rest (some r) := by
          simp only [unionIterRun, if_neg hinv, if_neg hm]
        rw [hrun]
        obtain ⟨e2, tail, heq, hle, hsd⟩ := ih r hbrest (by omega)
        refine ⟨c.2, unionIterRun hi rest (some r), rfl, le_refl _, ?_, ?_⟩
        · intro q hq
          rcases List.mem_cons.mp hq with rfl | hq2
          · exact hc
          · exact hsd.1 q hq2
        · rw [List.chain'_cons']
          refine ⟨fun b hbh => ?_, hsd.2⟩
          rw [heq] at hbh
          simp only [List.head?_cons, Option.mem_def, Option.some.injEq] at hbh
          subst hbh
          simp only
          omega

/-- The `UnionIter` output of any input with starts bounded by `hi` is
Sorted-Disjoint. -/
theorem unionIterSeq_sd (hi : ℤ) : ∀ (xs : List Rg),
    (∀ r ∈ xs, r.1 ≤ hi) →
    SortedDisjoint (unionIterSeq hi xs) := by
  intro xs
  induction xs with
  | nil =>
    intro _
    refine ⟨?_, ?_⟩
    · intro q hq
      simp [unionIterSeq, unionIterRun] at hq
    · simp [unionIterSeq, unionIterRun]
  | cons r rest ih =>
    intro hb
    have hbrest : ∀ q ∈ rest, q.1 ≤ hi := fun q hq => hb q (List.mem_cons_of_mem _ hq)
    by_cases hinv : r.2 < r.1
    · have hrun : unionIterSeq hi (r :: rest) = unionIterSeq hi rest := by
        simp only [unionIterSeq, unionIterRun, if_pos hinv]
      rw [hrun]
      exact ih hbrest
    · have hrun : unionIterSeq hi (r :: rest) = unionIterRun hi rest (some r) := by
        simp only [unionIterSeq, unionIterRun, if_neg hinv]
      rw [hrun]
      obtain ⟨e2, tail, _, _, hsd⟩ := unionIterRun_some hi rest r hbrest (by omega)
      exact hsd

/-- The instrumented `UnionIter` never panics on Sorted-Starts input: the
debug assert holds and the guarded `end + 1` is never taken at the
maximum, so it computes exactly the plain run. -/
theorem unionIterRunChk_eq (hi : ℤ) : ∀ (xs : List Rg) (cur : Option Rg),
    SortedStarts xs →
    (∀ c ∈ cur.toList, ∀ r ∈ xs, c.1 ≤ r.1) →
    unionIterRunChk hi xs cur = some (unionIterRun hi xs cur) := by
  intro xs
  induction xs with
  | nil =>
    intro cur _ _
    cases cur <;> rfl
  | cons r rest ih =>
    intro cur hss hcur
    have hssr : SortedStarts rest := hss.tail
    by_cases hinv : r.2 < r.1
    · simp only [unionIterRunChk, unionIterRun, if_pos hinv]
      exact ih cur hssr (fun c hc q hq => hcur c hc q (List.mem_cons_of_mem _ hq))
    · cases cur with
      | none =>
        simp only [unionIterRunChk, unionIterRun, if_neg hinv]
        exact ih (some r) hssr (by
          intro c hc q hq
          simp only [Option.toList_some, List.mem_singleton] at hc
          rw [hc]
          exact ss_head_le r rest hss q hq)
      | some c =>
        have hcr : c.1 ≤ r.1 := hcur c (by simp) r (List.mem_cons_self r rest)
        by_cases hm : r.1 ≤ c.2 ∨ (c.2 < hi ∧ r.1 ≤ c.2 + 1)
        · simp only [unionIterRunChk, unionIterRun, if_neg hinv,
            if_neg (not_not_intro hcr), if_pos hm]
          exact ih (some (c.1, max c.2 r.2)) hssr (by
            intro d hd q hq
            simp only [Option.toList_some, List.mem_singleton] at hd
            rw [hd]
            exact le_trans hcr (ss_head_le r rest hss q hq))
        · simp only [unionIterRunChk, unionIterRun, if_neg hinv,
            if_neg (not_not_intro hcr), if_neg hm]
          rw [ih (some r) hssr (by
            intro d hd q hq
            simp only [Option.toList_some, List.mem_singleton] at hd
            rw [hd]
            exact ss_head_le r rest hss q hq)]
          rfl

/-- C5: on well-formed inputs within the domain (including ranges ending
at the type maximum `hi`), the instrumented union and complement stages
panic or overflow nowhere (they compute the plain runs); the complement of
the full domain is empty and the complement of the empty stream is the
full domain. -/
theorem boundary_safety (lo hi : ℤ) (xs ys : List Rg)
    (hlohi : lo ≤ hi)
    (hxs : ∀ r ∈ xs, lo ≤ r.1 ∧ r.1 ≤ r.2)
    (hys : SortedStarts ys) :
    notIterRunChk lo hi xs lo = some (notIterSeq lo hi xs) ∧
    unionIterRunChk hi ys none = some (unionIterSeq hi ys) ∧
    notIterSeq lo hi [(lo, hi)] = [] ∧
    notIterSeq lo hi [] = [(lo, hi)] := by
  refine ⟨notIterRunChk_eq lo hi xs lo hlohi (le_refl _) hxs,
    unionIterRunChk_eq hi ys none hys (by simp), ?_, rfl⟩
  simp only [notIterSeq, notIterRun, lt_irrefl, if_neg (lt_irrefl hi)]
  simp

/-- Witness for C5 with ranges ending exactly at the maximum value 255. -/
theorem boundary_safety_witness :
    ((0 : ℤ) ≤ 255 ∧
      (∀ r ∈ ([(1, 2), (5, 255)] : List Rg), (0 : ℤ) ≤ r.1 ∧ r.1 ≤ r.2) ∧
      SortedStarts [(1, 2), (2, 6), (200, 255)]) ∧
    (notIterRunChk 0 255 [(1, 2), (5, 255)] 0 =
        some (notIterSeq 0 255 [(1, 2), (5, 255)]) ∧
      unionIterRunChk 255 [(1, 2), (2, 6), (200, 255)] none =
        some (unionIterSeq 255 [(1, 2), (2, 6), (200, 255)]) ∧
      notIterSeq 0 255 [(0, 255)] = [] ∧
      notIterSeq 0 255 [] = [(0, 255)]) :=
  ⟨⟨by decide, by decide, by decide⟩,
    boundary_safety 0 255 _ _ (by decide) (by decide) (by decide)⟩

/-! ### Symmetric difference (`src/sym_diff_iter.rs`, `SymDiffIter::next`)

State: the upstream merged iterator, the one-item lookahead `next_item`,
the `workspace` of currently open ranges (a `Vec`; `first()` is the best,
`pop()` takes from the back), the cached minimum end `workspace_next_end`,
and the `gather`/`ready_to_go` buffers.  One iteration of the `loop` in
`next` is one `symLoopStep`; `symRun` is the whole output stream, with a
fuel parameter that dominates the loop count (`symMeasure` below). -/

/-- The iterator state of `SymDiffIter`. -/
structure SymState : Type where
  iter : List Rg
  nextItem : Option Rg
  workspace : List Rg
  workspaceNextEnd : Option ℤ
  gather : Option Rg
  readyToGo : Option Rg

/-- `min_next_end` of `src/sym_diff_iter.rs` (lines 51-59). -/
def minNextEnd (nextEnd : Option ℤ) (nextItemEnd : ℤ) : Option ℤ :=
  some (nextEnd.elim nextItemEnd fun currentEnd => min currentEnd nextItemEnd)

/-- The rebuild loop of the workspace (lines 192-204): items are popped
from the back, dropped when fully consumed (`end ≤ next_end`), otherwise
trimmed to start at `next_end + 1` and pushed, tracking the new minimum
end. -/
def symTrimGo (nextEnd : ℤ) : List Rg → List Rg → Option ℤ → List Rg × Option ℤ
  | [], newWorkspace, newNextEnd => (newWorkspace, newNextEnd)
  | item :: rest, newWorkspace, newNextEnd =>
    if item.2 ≤ nextEnd then symTrimGo nextEnd rest newWorkspace newNextEnd
    else
      symTrimGo nextEnd rest (newWorkspace ++ [(nextEnd + 1, item.2)])
        (minNextEnd newNextEnd item.2)

/-- Workspace rebuild: `pop()` visits the `Vec` back to front, so the go
function runs over the reversed workspace. -/
def symTrim (nextEnd : ℤ) (ws : List Rg) : List Rg × Option ℤ :=
  symTrimGo nextEnd ws.reverse [] none

/-- The part of the loop body from the terminal check onward (lines
121-206): emit the gather when the workspace is empty, otherwise buffer
the best item's front up to the emission boundary and rebuild the
workspace.  Result: the ranges returned during this iteration and the
continuation state (`none` when the iterator is finished, or stuck on the
`unwrap` of a missing cached end, which is unreachable). -/
def symEmit (st : SymState) : List Rg × Option SymState :=
  match st.workspace with
  | [] => (st.gather.toList, none)
  | best :: _ =>
    match st.workspaceNextEnd with
    | none => ([], none)
    | some cachedEnd =>
      let nextEnd :=
        match st.nextItem with
        | some nextItem => min (nextItem.1 - 1) cachedEnd
        | none => cachedEnd
      let gatherReady : Option Rg × Option Rg :=
        match st.gather with
        | some gather =>
          if gather.2 + 1 = best.1 then
            if st.workspace.length % 2 = 1 then (some (gather.1, nextEnd), none)
            else (none, some gather)
          else
            if st.workspace.length % 2 = 1 then (some (best.1, nextEnd), some gather)
            else (none, some gather)
        | none =>
          if st.workspace.length % 2 = 1 then (some (best.1, nextEnd), none)
          else (none, none)
      let trimmed := symTrim nextEnd st.workspace
      ([], some { st with
        workspace := trimmed.1,
        workspaceNextEnd := trimmed.2,
        gather := gatherReady.1,
        readyToGo := gatherReady.2 })

/-- One iteration of the main processing loop of `SymDiffIter::next`. -/
def symLoopStep (st : SymState) : List Rg × Option SymState :=
  match st.readyToGo with
  | some value => ([value], some { st with readyToGo := none })
  | none =>
    match st.nextItem, st.workspace with
    | some nextItem, [] =>
      ([], some { st with
        workspaceNextEnd := minNextEnd st.workspaceNextEnd nextItem.2,
        workspace := st.workspace ++ [nextItem],
        nextItem := st.iter.head?,
        iter := st.iter.tail })
    | some nextItem, best :: _ =>
      if nextItem.1 = best.1 then
        ([], some { st with
          workspaceNextEnd := minNextEnd st.workspaceNextEnd nextItem.2,
          workspace := st.workspace ++ [nextItem],
          nextItem := st.iter.head?,
          iter := st.iter.tail })
      else symEmit st
    | none, _ => symEmit st

/-- The whole output stream, with fuel bounding the number of loop
iterations. -/
def symRun : ℕ → SymState → List Rg
  | 0, _ => []
  | fuel + 1, st =>
    (symLoopStep st).1 ++
      match (symLoopStep st).2 with
      | none => []
      | some st2 => symRun fuel st2

/-- `SymDiffIter::new`: prime `next_item` with the first upstream item. -/
def symDiffInit (xs : List Rg) : SymState :=
  { iter := xs.tail, nextItem := xs.head?, workspace := [], workspaceNextEnd := none,
    gather := none, readyToGo := none }

/-- Counts the work left in a state; every loop iteration strictly
decreases it on invariant states, so it bounds the loop count. -/
def absorbFlag (st : SymState) : ℕ :=
  match st.nextItem, st.workspace with
  | some nextItem, best :: _ => if nextItem.1 = best.1 then 0 else 1
  | _, _ => 1

def symMeasure (st : SymState) : ℕ :=
  7 * (st.iter.length + st.nextItem.toList.length) + 4 * st.workspace.length +
    st.readyToGo.toList.length + 2 * absorbFlag st + 1

/-- The symmetric-difference output stream of a merged input. -/
def symDiffSeq (xs : List Rg) : List Rg :=
  symRun (7 * xs.length + 10) (symDiffInit xs)

/-- Loop-top states after `n` iterations (for reachability statements). -/
def symIterate : ℕ → SymState → Option SymState
  | 0, st => some st
  | n + 1, st =>
    match (symLoopStep st).2 with
    | none => none
    | some st2 => symIterate n st2

/-- The ranges still to be processed from a state. -/
def symRemaining (st : SymState) : List Rg :=
  st.workspace ++ st.nextItem.toList ++ st.iter

/-- The loop invariant of `SymDiffIter` at the top of the main loop (for
states reached from a Sorted-Starts input): all workspace entries share
the start of the first entry and are well formed; the cached
`workspace_next_end` is exactly the minimum end over the workspace (absent
only when the workspace is empty); the lookahead bounds the sorted
remaining input; and the `gather`/`ready_to_go` buffers sit strictly
before everything still open. -/
def SymInv (st : SymState) : Prop :=
  (∀ r ∈ st.workspace, r.1 ≤ r.2) ∧
  (∀ r ∈ st.workspace, ∀ b ∈ st.workspace.head?, r.1 = b.1) ∧
  (st.workspaceNextEnd = none → st.workspace = []) ∧
  (∀ m, st.workspaceNextEnd = some m →
    (∃ r ∈ st.workspace, r.2 = m) ∧ ∀ r ∈ st.workspace, m ≤ r.2) ∧
  (∀ it, st.nextItem = some it → it.1 ≤ it.2 ∧ (∀ r ∈ st.iter, it.1 ≤ r.1) ∧
    ∀ b ∈ st.workspace.head?, b.1 ≤ it.1) ∧
  (st.nextItem = none → st.iter = []) ∧
  st.iter.Chain' (fun a b => a.1 ≤ b.1) ∧
  (∀ r ∈ st.iter, r.1 ≤ r.2) ∧
  (∀ g, st.gather = some g → g.1 ≤ g.2 ∧ (∀ b ∈ st.workspace.head?, g.2 + 1 ≤ b.1) ∧
    ∀ it, st.nextItem = some it → g.2 + 1 ≤ it.1) ∧
  (∀ v, st.readyToGo = some v → v.1 ≤ v.2 ∧
    (∀ g, st.gather = some g → v.2 + 1 < g.1) ∧
    (st.gather = none → (∀ b ∈ st.workspace.head?, v.2 + 1 < b.1) ∧
      ∀ it, st.nextItem = some it → v.2 + 1 < it.1))

/-- Closed form of the workspace rebuild loop. -/
theorem symTrimGo_eq (nextEnd : ℤ) : ∀ (l acc : List Rg) (accNext : Option ℤ),
    symTrimGo nextEnd l acc accNext =
      (acc ++ (l.filter fun it => !decide (it.2 ≤ nextEnd)).map fun it => (nextEnd + 1, it.2),
        l.foldl (fun a it => if it.2 ≤ nextEnd then a else minNextEnd a it.2) accNext) := by
  intro l
  induction l with
  | nil => intro acc accNext; simp [symTrimGo]
  | cons it rest ih =>
    intro acc accNext
    by_cases h : it.2 ≤ nextEnd
    · simp [symTrimGo, if_pos h, ih, h]
    · simp [symTrimGo, if_neg h, ih, h]

/-- Workspace rebuild membership: the survivors are exactly the items not
fully consumed, trimmed to start at `next_end + 1`. -/
theorem symTrim_mem (nextEnd : ℤ) (ws : List Rg) (r : Rg) :
    r ∈ (symTrim nextEnd ws).1 ↔ ∃ it ∈ ws, ¬(it.2 ≤ nextEnd) ∧ r = (nextEnd + 1, it.2) := by
  rw [symTrim, symTrimGo_eq]
  simp only [List.nil_append, List.mem_map, List.mem_filter, List.mem_reverse,
    Bool.not_eq_eq_eq_not, Bool.not_true, decide_eq_false_iff_not]
  constructor
  · rintro ⟨it, ⟨hm, hk⟩, rfl⟩
    exact ⟨it, hm, hk, rfl⟩
  · rintro ⟨it, hm, hk, rfl⟩
    exact ⟨it, ⟨hm, hk⟩, rfl⟩

/-- Workspace rebuild preserves coverage counts beyond the boundary. -/
theorem symTrim_count (nextEnd : ℤ) (ws : List Rg) (x : ℤ) (hx : nextEnd < x)
    (hstart : ∀ it ∈ ws, it.1 ≤ nextEnd + 1) :
    countCov x (symTrim nextEnd ws).1 = countCov x ws := by
  rw [symTrim, symTrimGo_eq]
  simp only [List.nil_append, countCov, List.countP_map, List.countP_filter]
  rw [← List.countP_reverse _ ws]
  apply List.countP_congr
  intro it hit
  have hs := hstart it (List.mem_reverse.mp hit)
  simp only [Function.comp_apply, Bool.and_eq_true, decide_eq_true_eq, covers,
    Bool.not_eq_eq_eq_not, Bool.not_true, decide_eq_false_iff_not]
  constructor
  · rintro ⟨⟨h1, h2⟩, h3⟩
    exact ⟨by omega, h2⟩
  · rintro ⟨h1, h2⟩
    exact ⟨⟨by omega, h2⟩, by omega⟩

/-- Workspace rebuild: every survivor starts at `next_end + 1`. -/
theorem symTrim_start (nextEnd : ℤ) (ws : List Rg) :
    ∀ r ∈ (symTrim nextEnd ws).1, r.1 = nextEnd + 1 := by
  intro r hr
  obtain ⟨it, _, _, rfl⟩ := (symTrim_mem nextEnd ws r).mp hr
  rfl

/-- Workspace rebuild: the new cached end is the minimum surviving end
(and is absent exactly on an emptied workspace). -/
theorem symTrim_cache (nextEnd : ℤ) (ws : List Rg) :
    ((symTrim nextEnd ws).2 = none → (symTrim nextEnd ws).1 = []) ∧
    (∀ m, (symTrim nextEnd ws).2 = some m →
      (∃ r ∈ (symTrim nextEnd ws).1, r.2 = m) ∧ ∀ r ∈ (symTrim nextEnd ws).1, m ≤ r.2) := by
  rw [symTrim]
  generalize ws.reverse = l
  have main : ∀ (l acc : List Rg) (accNext : Option ℤ),
      (accNext = none → acc = []) →
      (∀ m, accNext = some m → (∃ r ∈ acc, r.2 = m) ∧ ∀ r ∈ acc, m ≤ r.2) →
      ((symTrimGo nextEnd l acc accNext).2 = none → (symTrimGo nextEnd l acc accNext).1 = []) ∧
      (∀ m, (symTrimGo nextEnd l acc accNext).2 = some m →
        (∃ r ∈ (symTrimGo nextEnd l acc accNext).1, r.2 = m) ∧
        ∀ r ∈ (symTrimGo nextEnd l acc accNext).1, m ≤ r.2) := by
    intro l
    induction l with
    | nil =>
      intro acc accNext h1 h2
      exact ⟨h1, h2⟩
    | cons it rest ih =>
      intro acc accNext h1 h2
      by_cases h : it.2 ≤ nextEnd
      · rw [symTrimGo, if_pos h]
        exact ih acc accNext h1 h2
      · rw [symTrimGo, if_neg h]
        apply ih
        · intro hn
          simp [minNextEnd] at hn
        · intro m hm
          cases haccNext : accNext with
          | none =>
            have hacc : acc = [] := h1 haccNext
            subst hacc
            rw [haccNext] at hm
            simp only [minNextEnd, Option.elim_none, Option.some.injEq] at hm
            subst hm
            exact ⟨⟨(nextEnd + 1, it.2), by simp, rfl⟩, by simp⟩
          | some m0 =>
            rw [haccNext] at hm
            simp only [minNextEnd, Option.elim_some, Option.some.injEq] at hm
            obtain ⟨⟨w, hw, hw2⟩, hall⟩ := h2 m0 haccNext
            constructor
            · rcases le_total m0 it.2 with hle | hle
              · refine ⟨w, List.mem_append_left _ hw, ?_⟩
                omega
              · refine ⟨(nextEnd + 1, it.2), List.mem_append_right _ (by simp), ?_⟩
                simp only
                omega
            · intro r hr
              rcases List.mem_append.mp hr with hr2 | hr2
              · have := hall r hr2
                omega
              · simp only [List.mem_singleton] at hr2
                subst hr2
                simp only
                omega
  exact main l [] none (fun _ => rfl) (by intro m hm; simp at hm)

/-- Workspace rebuild: length bookkeeping for the termination measure. -/
theorem symTrim_length (nextEnd : ℤ) (ws : List Rg) :
    (symTrim nextEnd ws).1.length = (ws.filter fun it => !decide (it.2 ≤ nextEnd)).length := by
  rw [symTrim, symTrimGo_eq]
  simp [List.filter_reverse]

theorem absorbFlag_le_one (st : SymState) : absorbFlag st ≤ 1 := by
  unfold absorbFlag
  rcases st.nextItem with _ | it
  · simp
  · rcases st.workspace with _ | ⟨b, t⟩
    · simp
    · by_cases h : it.1 = b.1 <;> simp [h]

/-- Invariant for the state produced by the emission step, given simple
bounds on the new `gather`/`ready_to_go` buffers. -/
theorem symEmit_state_inv (iterL : List Rg) (nextIt : Option Rg) (ws : List Rg)
    (ne : ℤ) (g2 r2 : Option Rg)
    (hnn : nextIt = none → iterL = [])
    (hic : iterL.Chain' fun a b => a.1 ≤ b.1)
    (hiv : ∀ r ∈ iterL, r.1 ≤ r.2)
    (hni2 : ∀ it, nextIt = some it → it.1 ≤ it.2 ∧ (∀ r ∈ iterL, it.1 ≤ r.1) ∧
      ne + 1 ≤ it.1)
    (hg2 : ∀ g, g2 = some g → g.1 ≤ g.2 ∧ g.2 ≤ ne ∧
      ∀ it, nextIt = some it → g.2 + 1 ≤ it.1)
    (hr2 : ∀ v, r2 = some v → v.1 ≤ v.2 ∧ (∀ g, g2 = some g → v.2 + 1 < g.1) ∧
      (g2 = none → v.2 + 1 ≤ ne ∧ ∀ it, nextIt = some it → v.2 + 1 < it.1)) :
    SymInv
      { iter := iterL
        nextItem := nextIt
        workspace := (symTrim ne ws).1
        workspaceNextEnd := (symTrim ne ws).2
        gather := g2
        readyToGo := r2 } := by
  have hts := symTrim_start ne ws
  have htcache := symTrim_cache ne ws
  refine ⟨?_, ?_, ?_, ?_, ?_, ?_, ?_, ?_, ?_, ?_⟩
  · intro r hrr
    obtain ⟨it2, _, hk, rfl⟩ := (symTrim_mem ne ws r).mp hrr
    simp only at hk ⊢
    omega
  · intro r hrr b hb
    rw [hts r hrr, hts b (List.mem_of_mem_head? hb)]
  · exact htcache.1
  · exact htcache.2
  · intro it hit
    obtain ⟨h1, h2, h3⟩ := hni2 it hit
    refine ⟨h1, h2, ?_⟩
    intro b hb
    rw [hts b (List.mem_of_mem_head? hb)]
    omega
  · exact hnn
  · exact hic
  · exact hiv
  · intro g hg2eq
    obtain ⟨h1, h2, h3⟩ := hg2 g hg2eq
    refine ⟨h1, ?_, h3⟩
    intro b hb
    rw [hts b (List.mem_of_mem_head? hb)]
    omega
  · intro v hv2
    obtain ⟨h1, h2, h3⟩ := hr2 v hv2
    refine ⟨h1, h2, ?_⟩
    intro hg2n
    obtain ⟨h4, h5⟩ := h3 hg2n
    refine ⟨?_, h5⟩
    intro b hb
    rw [hts b (List.mem_of_mem_head? hb)]
    omega

/-- Measure decrease for the emission step. -/
theorem symEmit_measure (st : SymState) (nextIt : Option Rg) (ne : ℤ) (g2 r2 : Option Rg)
    (hnio : st.nextItem = nextIt)
    (hflag : absorbFlag st = 1)
    (hcase : (symTrim ne st.workspace).1.length < st.workspace.length ∨
      ((symTrim ne st.workspace).1.length ≤ st.workspace.length ∧
        absorbFlag
          { iter := st.iter
            nextItem := nextIt
            workspace := (symTrim ne st.workspace).1
            workspaceNextEnd := (symTrim ne st.workspace).2
            gather := g2
            readyToGo := r2 } = 0)) :
    symMeasure
      { iter := st.iter
        nextItem := nextIt
        workspace := (symTrim ne st.workspace).1
        workspaceNextEnd := (symTrim ne st.workspace).2
        gather := g2
        readyToGo := r2 } < symMeasure st := by
  have h1 : r2.toList.length ≤ 1 := by rcases r2 <;> simp
  have h3 := absorbFlag_le_one
    { iter := st.iter
      nextItem := nextIt
      workspace := (symTrim ne st.workspace).1
      workspaceNextEnd := (symTrim ne st.workspace).2
      gather := g2
      readyToGo := r2 }
  simp only [symMeasure, hflag, hnio]
  rcases hcase with hc | ⟨hc1, hc2⟩
  · omega
  · rw [hc2]
    omega

set_option maxHeartbeats 1000000 in
/-- The emission step preserves the loop invariant and decreases the
measure. -/
theorem symEmit_preserve (st : SymState) (hinv : SymInv st)
    (hheld : ∀ it, st.nextItem = some it → ∀ b ∈ st.workspace.head?, b.1 < it.1) :
    ∀ (out : List Rg) (st' : SymState), symEmit st = (out, some st') →
      SymInv st' ∧ symMeasure st' < symMeasure st := by
  obtain ⟨hwv, hws, hcn, hcs, hni, hnn, hic, hiv, hg, hr⟩ := hinv
  intro out st' hstep
  rcases hwso : st.workspace with _ | ⟨best, restWs⟩
  · simp only [symEmit, hwso] at hstep
    simp at hstep
  · rcases hcache : st.workspaceNextEnd with _ | cachedEnd
    · simp only [symEmit, hwso, hcache] at hstep
      simp at hstep
    · have hS0 : ∀ r ∈ st.workspace, r.1 = best.1 := by
        intro r hrr
        exact hws r hrr best (by simp [hwso])
      obtain ⟨⟨w, hw, hw2⟩, hminall⟩ := hcs cachedEnd hcache
      have hbestv : best.1 ≤ best.2 := hwv best (by simp [hwso])
      have hs0c : best.1 ≤ cachedEnd := by
        have h1 := hS0 w hw
        have h2 := hwv w hw
        omega
      have hgfacts : ∀ g, st.gather = some g → g.1 ≤ g.2 ∧ g.2 + 1 ≤ best.1 :=
        fun g hgeq => ⟨(hg g hgeq).1, (hg g hgeq).2.1 best (by simp [hwso])⟩
      rcases hnio : st.nextItem with _ | it
      · -- no lookahead: the boundary is the cached minimum end
        have hflag : absorbFlag st = 1 := by simp [absorbFlag, hnio]
        have hdrop : (symTrim cachedEnd st.workspace).1.length < st.workspace.length := by
          rw [symTrim_length]
          apply List.length_filter_lt_length_iff_exists.mpr
          exact ⟨w, hw, by simp [hw2]⟩
        have hni2 : ∀ it2, (none : Option Rg) = some it2 → it2.1 ≤ it2.2 ∧
            (∀ r ∈ st.iter, it2.1 ≤ r.1) ∧ cachedEnd + 1 ≤ it2.1 := by
          intro it2 hit2
          simp at hit2
        have hnn2 : (none : Option Rg) = none → st.iter = [] := fun _ => hnn hnio
        simp only [symEmit, hwso, hcache, hnio] at hstep
        rw [← hwso] at hstep
        rcases hgo : st.gather with _ | g
        all_goals simp only [hgo] at hstep
        · by_cases hpar : st.workspace.length % 2 = 1
          all_goals first
            | (rw [if_pos hpar] at hstep) | (rw [if_neg hpar] at hstep)
          all_goals simp only [Prod.mk.injEq, Option.some.injEq] at hstep
          all_goals obtain ⟨h1, h2⟩ := hstep
          all_goals subst h1
          all_goals subst h2
          · refine ⟨symEmit_state_inv st.iter none st.workspace cachedEnd _ _
              hnn2 hic hiv hni2 ?_ ?_,
              symEmit_measure st none cachedEnd _ _ hnio hflag (Or.inl hdrop)⟩
            · intro g hgeq
              simp only [Option.some.injEq] at hgeq
              subst hgeq
              exact ⟨hs0c, le_refl _, fun it2 hit2 => by simp at hit2⟩
            · intro v hv
              simp at hv
          · refine ⟨symEmit_state_inv st.iter none st.workspace cachedEnd _ _
              hnn2 hic hiv hni2 ?_ ?_,
              symEmit_measure st none cachedEnd _ _ hnio hflag (Or.inl hdrop)⟩
            · intro g hgeq
              simp at hgeq
            · intro v hv
              simp at hv
        · obtain ⟨hgv, hgb⟩ := hgfacts g hgo
          by_cases hcont : g.2 + 1 = best.1
          all_goals first
            | (rw [if_pos hcont] at hstep) | (rw [if_neg hcont] at hstep)
          all_goals by_cases hpar : st.workspace.length % 2 = 1
          all_goals first
            | (rw [if_pos hpar] at hstep) | (rw [if_neg hpar] at hstep)
          all_goals simp only [Prod.mk.injEq, Option.some.injEq] at hstep
          all_goals obtain ⟨h1, h2⟩ := hstep
          all_goals subst h1
          all_goals subst h2
          · -- contiguous, odd: extend the gather
            refine ⟨symEmit_state_inv st.iter none st.workspace cachedEnd _ _
              hnn2 hic hiv hni2 ?_ ?_,
              symEmit_measure st none cachedEnd _ _ hnio hflag (Or.inl hdrop)⟩
            · intro gx hgeq
              simp only [Option.some.injEq] at hgeq
              subst hgeq
              exact ⟨by simp only; omega, le_refl _, fun it2 hit2 => by simp at hit2⟩
            · intro v hv
              simp at hv
          · -- contiguous, even: flush the gather
            refine ⟨symEmit_state_inv st.iter none st.workspace cachedEnd _ _
              hnn2 hic hiv hni2 ?_ ?_,
              symEmit_measure st none cachedEnd _ _ hnio hflag (Or.inl hdrop)⟩
            · intro gx hgeq
              simp at hgeq
            · intro v hv
              simp only [Option.some.injEq] at hv
              subst hv
              refine ⟨hgv, by intro gx hgx; simp at hgx, ?_⟩
              intro _
              exact ⟨by omega, fun it2 hit2 => by simp at hit2⟩
          · -- not contiguous, odd: flush, restart the gather
            refine ⟨symEmit_state_inv st.iter none st.workspace cachedEnd _ _
              hnn2 hic hiv hni2 ?_ ?_,
              symEmit_measure st none cachedEnd _ _ hnio hflag (Or.inl hdrop)⟩
            · intro gx hgeq
              simp only [Option.some.injEq] at hgeq
              subst hgeq
              exact ⟨hs0c, le_refl _, fun it2 hit2 => by simp at hit2⟩
            · intro v hv
              simp only [Option.some.injEq] at hv
              subst hv
              refine ⟨hgv, ?_, ?_⟩
              · intro gx hgx
                simp only [Option.some.injEq] at hgx
                subst hgx
                simp only
                omega
              · intro hgx
                simp at hgx
          · -- not contiguous, even: flush, no new gather
            refine ⟨symEmit_state_inv st.iter none st.workspace cachedEnd _ _
              hnn2 hic hiv hni2 ?_ ?_,
              symEmit_measure st none cachedEnd _ _ hnio hflag (Or.inl hdrop)⟩
            · intro gx hgeq
              simp at hgeq
            · intro v hv
              simp only [Option.some.injEq] at hv
              subst hv
              refine ⟨hgv, by intro gx hgx; simp at hgx, ?_⟩
              intro _
              exact ⟨by omega, fun it2 hit2 => by simp at hit2⟩
      · -- lookahead held: the boundary also stops before its start
        have hlt : best.1 < it.1 := hheld it hnio best (by simp [hwso])
        have hnele : min (it.1 - 1) cachedEnd ≤ cachedEnd := min_le_right _ _
        have hneit : min (it.1 - 1) cachedEnd ≤ it.1 - 1 := min_le_left _ _
        have hnes0 : best.1 ≤ min (it.1 - 1) cachedEnd := by omega
        have hflag : absorbFlag st = 1 := by
          have hne2 : ¬(it.1 = best.1) := by omega
          simp [absorbFlag, hnio, hwso, hne2]
        have hni2 : ∀ it2, (some it : Option Rg) = some it2 → it2.1 ≤ it2.2 ∧
            (∀ r ∈ st.iter, it2.1 ≤ r.1) ∧ min (it.1 - 1) cachedEnd + 1 ≤ it2.1 := by
          intro it2 hit2
          injection hit2 with hit2
          obtain ⟨ha, hb, _⟩ := hni it hnio
          rw [← hit2]
          exact ⟨ha, hb, by omega⟩
        have hnn2 : (some it : Option Rg) = none → st.iter = [] := by
          intro h; simp at h
        have hmcase : ∀ g2 r2 : Option Rg,
            (symTrim (min (it.1 - 1) cachedEnd) st.workspace).1.length <
              st.workspace.length ∨
            ((symTrim (min (it.1 - 1) cachedEnd) st.workspace).1.length ≤
                st.workspace.length ∧
              absorbFlag
                { iter := st.iter
                  nextItem := some it
                  workspace := (symTrim (min (it.1 - 1) cachedEnd) st.workspace).1
                  workspaceNextEnd := (symTrim (min (it.1 - 1) cachedEnd) st.workspace).2
                  gather := g2
                  readyToGo := r2 } = 0) := by
          intro g2 r2
          by_cases hd : cachedEnd ≤ it.1 - 1
          · left
            rw [symTrim_length]
            apply List.length_filter_lt_length_iff_exists.mpr
            refine ⟨w, hw, ?_⟩
            have hwle : w.2 ≤ min (it.1 - 1) cachedEnd := by omega
            simp [hwle]
          · right
            have hkeep : ∀ r ∈ st.workspace, ¬(r.2 ≤ min (it.1 - 1) cachedEnd) := by
              intro r hrr
              have := hminall r hrr
              omega
            have hfe : st.workspace.filter
                (fun it2 => !decide (it2.2 ≤ min (it.1 - 1) cachedEnd)) =
                st.workspace := by
              apply List.filter_eq_self.mpr
              intro r hrr
              simp [hkeep r hrr]
            have hlen2 : (symTrim (min (it.1 - 1) cachedEnd) st.workspace).1.length =
                st.workspace.length := by
              rw [symTrim_length, hfe]
            refine ⟨le_of_eq hlen2, ?_⟩
            rcases htr : (symTrim (min (it.1 - 1) cachedEnd) st.workspace).1
              with _ | ⟨c, cs⟩
            · exfalso
              rw [htr] at hlen2
              rw [hwso] at hlen2
              simp at hlen2
            · have hc1 : c.1 = min (it.1 - 1) cachedEnd + 1 :=
                symTrim_start _ st.workspace c (by rw [htr]; simp)
              have hceq : it.1 = c.1 := by omega
              simp [absorbFlag, htr, hceq]
        simp only [symEmit, hwso, hcache, hnio] at hstep
        rw [← hwso] at hstep
        rcases hgo : st.gather with _ | g
        all_goals simp only [hgo] at hstep
        · by_cases hpar : st.workspace.length % 2 = 1
          all_goals first
            | (rw [if_pos hpar] at hstep) | (rw [if_neg hpar] at hstep)
          all_goals simp only [Prod.mk.injEq, Option.some.injEq] at hstep
          all_goals obtain ⟨h1, h2⟩ := hstep
          all_goals subst h1
          all_goals subst h2
          · refine ⟨symEmit_state_inv st.iter (some it) st.workspace
              (min (it.1 - 1) cachedEnd) _ _ hnn2 hic hiv hni2 ?_ ?_,
              symEmit_measure st (some it) (min (it.1 - 1) cachedEnd) _ _ hnio hflag
                (hmcase _ _)⟩
            · intro gx hgeq
              simp only [Option.some.injEq] at hgeq
              subst hgeq
              refine ⟨hnes0, le_refl _, ?_⟩
              intro it2 hit2
              injection hit2 with hit2
              subst hit2
              simp only
              omega
            · intro v hv
              simp at hv
          · refine ⟨symEmit_state_inv st.iter (some it) st.workspace
              (min (it.1 - 1) cachedEnd) _ _ hnn2 hic hiv hni2 ?_ ?_,
              symEmit_measure st (some it) (min (it.1 - 1) cachedEnd) _ _ hnio hflag
                (hmcase _ _)⟩
            · intro gx hgeq
              simp at hgeq
            · intro v hv
              simp at hv
        · obtain ⟨hgv, hgb⟩ := hgfacts g hgo
          by_cases hcont : g.2 + 1 = best.1
          all_goals first
            | (rw [if_pos hcont] at hstep) | (rw [if_neg hcont] at hstep)
          all_goals by_cases hpar : st.workspace.length % 2 = 1
          all_goals first
            | (rw [if_pos hpar] at hstep) | (rw [if_neg hpar] at hstep)
          all_goals simp only [Prod.mk.injEq, Option.some.injEq] at hstep
          all_goals obtain ⟨h1, h2⟩ := hstep
          all_goals subst h1
          all_goals subst h2
          · refine ⟨symEmit_state_inv st.iter (some it) st.workspace
              (min (it.1 - 1) cachedEnd) _ _ hnn2 hic hiv hni2 ?_ ?_,
              symEmit_measure st (some it) (min (it.1 - 1) cachedEnd) _ _ hnio hflag
                (hmcase _ _)⟩
            · intro gx hgeq
              simp only [Option.some.injEq] at hgeq
              subst hgeq
              refine ⟨by simp only; omega, le_refl _, ?_⟩
              intro it2 hit2
              injection hit2 with hit2
              subst hit2
              simp only
              omega
            · intro v hv
              simp at hv
          · refine ⟨symEmit_state_inv st.iter (some it) st.workspace
              (min (it.1 - 1) cachedEnd) _ _ hnn2 hic hiv hni2 ?_ ?_,
              symEmit_measure st (some it) (min (it.1 - 1) cachedEnd) _ _ hnio hflag
                (hmcase _ _)⟩
            · intro gx hgeq
              simp at hgeq
            · intro v hv
              simp only [Option.some.injEq] at hv
              subst hv
              refine ⟨hgv, by intro gx hgx; simp at hgx, ?_⟩
              intro _
              refine ⟨by omega, ?_⟩
              intro it2 hit2
              injection hit2 with hit2
              subst hit2
              omega
          · refine ⟨symEmit_state_inv st.iter (some it) st.workspace
              (min (it.1 - 1) cachedEnd) _ _ hnn2 hic hiv hni2 ?_ ?_,
              symEmit_measure st (some it) (min (it.1 - 1) cachedEnd) _ _ hnio hflag
                (hmcase _ _)⟩
            · intro gx hgeq
              simp only [Option.some.injEq] at hgeq
              subst hgeq
              refine ⟨hnes0, le_refl _, ?_⟩
              intro it2 hit2
              injection hit2 with hit2
              subst hit2
              simp only
              omega
            · intro v hv
              simp only [Option.some.injEq] at hv
              subst hv
              refine ⟨hgv, ?_, ?_⟩
              · intro gx hgx
                simp only [Option.some.injEq] at hgx
                subst hgx
                simp only
                omega
              · intro hgx
                simp at hgx
          · refine ⟨symEmit_state_inv st.iter (some it) st.workspace
              (min (it.1 - 1) cachedEnd) _ _ hnn2 hic hiv hni2 ?_ ?_,
              symEmit_measure st (some it) (min (it.1 - 1) cachedEnd) _ _ hnio hflag
                (hmcase _ _)⟩
            · intro gx hgeq
              simp at hgeq
            · intro v hv
              simp only [Option.some.injEq] at hv
              subst hv
              refine ⟨hgv, by intro gx hgx; simp at hgx, ?_⟩
              intro _
              refine ⟨by omega, ?_⟩
              intro it2 hit2
              injection hit2 with hit2
              subst hit2
              omega

theorem tail_head_length {α : Type} (l : List α) :
    l.tail.length + l.head?.toList.length = l.length := by
  rcases l <;> simp

/-- Every loop iteration of `SymDiffIter` that continues preserves the
loop invariant and strictly decreases the measure. -/
theorem symLoopStep_preserve (st : SymState) (hinv : SymInv st) :
    ∀ (out : List Rg) (st' : SymState), symLoopStep st = (out, some st') →
      SymInv st' ∧ symMeasure st' < symMeasure st := by
  intro out st' hstep
  obtain ⟨hwv, hws, hcn, hcs, hni, hnn, hic, hiv, hg, hr⟩ := hinv
  rcases hrtg : st.readyToGo with _ | v
  · rcases hnio : st.nextItem with _ | it
    · -- no lookahead: straight to the emission step
      simp only [symLoopStep, hrtg, hnio] at hstep
      exact symEmit_preserve st ⟨hwv, hws, hcn, hcs, hni, hnn, hic, hiv, hg, hr⟩
        (by intro it2 hit2; rw [hnio] at hit2; simp at hit2) out st' hstep
    · rcases hwso : st.workspace with _ | ⟨best, restWs⟩
      · -- absorb into the empty workspace
        have hitv := hni it hnio
        have hcnone : st.workspaceNextEnd = none := by
          rcases hcv : st.workspaceNextEnd with _ | m
          · rfl
          · obtain ⟨⟨r, hrm, _⟩, _⟩ := hcs m hcv
            rw [hwso] at hrm
            simp at hrm
        simp only [symLoopStep, hrtg, hnio, hwso, hcnone, minNextEnd, Option.elim_none,
          List.nil_append, Prod.mk.injEq, Option.some.injEq] at hstep
        obtain ⟨h1, h2⟩ := hstep
        subst h1
        subst h2
        constructor
        · refine ⟨?_, ?_, ?_, ?_, ?_, ?_, ?_, ?_, ?_, ?_⟩
          · intro r hrr
            simp only [List.mem_singleton] at hrr
            subst hrr
            exact hitv.1
          · intro r hrr b hb
            simp only [List.mem_singleton] at hrr
            simp only [List.head?_cons, Option.mem_def, Option.some.injEq] at hb
            rw [hrr, ← hb]
          · intro h
            simp at h
          · intro m hm
            simp only [Option.some.injEq] at hm
            subst hm
            exact ⟨⟨it, by simp, rfl⟩, by intro r hrr; simp at hrr; rw [hrr]⟩
          · intro it2 hit2
            simp only at hit2
            obtain ⟨t, ht⟩ := List.head?_eq_some_iff.mp hit2
            refine ⟨hiv it2 (by rw [ht]; simp), ?_, ?_⟩
            · intro r hrr
              have hrr2 : r ∈ st.iter.tail := hrr
              rw [ht] at hic hrr2
              exact ss_head_le it2 t hic r (by simpa using hrr2)
            · intro b hb
              simp only [List.head?_cons, Option.mem_def, Option.some.injEq] at hb
              rw [← hb]
              exact hitv.2.1 it2 (by rw [ht]; simp)
          · intro h
            simp only at h
            rw [List.head?_eq_none_iff.mp h]
            rfl
          · exact hic.tail
          · intro r hrr
            exact hiv r (List.mem_of_mem_tail hrr)
          · intro g hgeq
            simp only at hgeq
            obtain ⟨h1, _, h3⟩ := hg g hgeq
            refine ⟨h1, ?_, ?_⟩
            · intro b hb
              simp only [List.head?_cons, Option.mem_def, Option.some.injEq] at hb
              rw [← hb]
              exact h3 it hnio
            · intro it2 hit2
              simp only at hit2
              obtain ⟨t, ht⟩ := List.head?_eq_some_iff.mp hit2
              have := hitv.2.1 it2 (by rw [ht]; simp)
              have := h3 it hnio
              omega
          · intro v hv
            simp at hv
        · have hf1 : absorbFlag st = 1 := by
            unfold absorbFlag
            rw [hnio, hwso]
          have hf2 := absorbFlag_le_one { st with
            workspaceNextEnd := some it.2,
            workspace := [it],
            nextItem := st.iter.head?,
            iter := st.iter.tail }
          have hlen := tail_head_length st.iter
          simp only [symMeasure, hrtg, hnio, hwso, hf1] at hf2 ⊢
          simp only [List.length_nil, List.length_cons, Option.toList_some,
            List.length_singleton, Option.toList_none] at hf2 ⊢
          omega
      · by_cases heq : it.1 = best.1
        · -- absorb at the shared start
          have hitv := hni it hnio
          obtain ⟨m, hcsome⟩ : ∃ m, st.workspaceNextEnd = some m := by
            rcases hcv : st.workspaceNextEnd with _ | m
            · exact absurd (hcn hcv) (by rw [hwso]; simp)
            · exact ⟨m, rfl⟩
          obtain ⟨⟨wmin, hwmin, hwmin2⟩, hminall⟩ := hcs m hcsome
          simp only [symLoopStep, hrtg, hnio, hwso, if_pos heq, hcsome, minNextEnd,
            Option.elim_some, Prod.mk.injEq, Option.some.injEq] at hstep
          obtain ⟨h1, h2⟩ := hstep
          subst h1
          subst h2
          constructor
          · refine ⟨?_, ?_, ?_, ?_, ?_, ?_, ?_, ?_, ?_, ?_⟩
            · intro r hrr
              have hrr2 : r ∈ best :: restWs ++ [it] := hrr
              simp only [List.mem_cons, List.mem_append, List.mem_singleton,
                List.not_mem_nil, or_false] at hrr2
              rcases hrr2 with (h | h) | h
              · rw [h]
                exact hwv best (by rw [hwso]; simp)
              · exact hwv r (by rw [hwso]; simp [h])
              · rw [h]
                exact hitv.1
            · intro r hrr b hb
              have hb2 : b ∈ (best :: restWs ++ [it]).head? := hb
              simp only [List.cons_append, List.head?_cons, Option.mem_def,
                Option.some.injEq] at hb2
              have hrr2 : r ∈ best :: restWs ++ [it] := hrr
              simp only [List.mem_cons, List.mem_append, List.mem_singleton,
                List.not_mem_nil, or_false] at hrr2
              rw [← hb2]
              rcases hrr2 with (h | h) | h
              · rw [h]
              · exact hws r (by rw [hwso]; simp [h]) best (by rw [hwso]; simp)
              · rw [h, heq]
            · intro h
              simp at h
            · intro m2 hm2
              simp only [Option.some.injEq] at hm2
              subst hm2
              constructor
              · rcases le_total m it.2 with hle | hle
                · refine ⟨wmin, ?_, by omega⟩
                  rw [hwso] at hwmin
                  simp only [List.cons_append, List.mem_cons, List.mem_append,
                    List.mem_singleton]
                  rcases List.mem_cons.mp hwmin with h | h
                  · exact Or.inl h
                  · exact Or.inr (Or.inl h)
                · exact ⟨it, by simp, by omega⟩
              · intro r hrr
                have hrr2 : r ∈ best :: restWs ++ [it] := hrr
                simp only [List.mem_cons, List.mem_append, List.mem_singleton,
                  List.not_mem_nil, or_false] at hrr2
                rcases hrr2 with (h | h) | h
                · have := hminall r (by rw [hwso, h]; exact List.mem_cons_self _ _)
                  exact le_trans (min_le_left m it.2) this
                · have := hminall r (by rw [hwso]; simp [h])
                  exact le_trans (min_le_left m it.2) this
                · rw [h]
                  exact min_le_right m it.2
            · intro it2 hit2
              simp only at hit2
              obtain ⟨t, ht⟩ := List.head?_eq_some_iff.mp hit2
              refine ⟨hiv it2 (by rw [ht]; simp), ?_, ?_⟩
              · intro r hrr
                have hrr2 : r ∈ st.iter.tail := hrr
                rw [ht] at hic hrr2
                exact ss_head_le it2 t hic r (by simpa using hrr2)
              · intro b hb
                simp only [List.cons_append, List.head?_cons, Option.mem_def,
                  Option.some.injEq] at hb
                subst hb
                have := hitv.2.1 it2 (by rw [ht]; simp)
                omega
            · intro h
              simp only at h
              rw [List.head?_eq_none_iff.mp h]
              rfl
            · exact hic.tail
            · intro r hrr
              exact hiv r (List.mem_of_mem_tail hrr)
            · intro g hgeq
              simp only at hgeq
              obtain ⟨h1, h2, h3⟩ := hg g hgeq
              refine ⟨h1, ?_, ?_⟩
              · intro b hb
                simp only [List.cons_append, List.head?_cons, Option.mem_def,
                  Option.some.injEq] at hb
                subst hb
                exact h2 best (by rw [hwso]; simp)
              · intro it2 hit2
                simp only at hit2
                obtain ⟨t, ht⟩ := List.head?_eq_some_iff.mp hit2
                have := hitv.2.1 it2 (by rw [ht]; simp)
                have := h3 it hnio
                omega
            · intro v hv
              simp at hv
          · have hf1 : absorbFlag st = 0 := by
              unfold absorbFlag
              rw [hnio, hwso]
              simp [heq]
            have hf2 := absorbFlag_le_one { st with
              workspaceNextEnd := some (min m it.2),
              workspace := (best :: restWs) ++ [it],
              nextItem := st.iter.head?,
              iter := st.iter.tail }
            have hlen := tail_head_length st.iter
            simp only [symMeasure, hrtg, hnio, hwso, hf1] at hf2 ⊢
            simp only [List.cons_append, List.length_cons, List.length_append,
              List.length_singleton, Option.toList_some, List.length_singleton,
              Option.toList_none, List.length_nil] at hf2 ⊢
            omega
        · -- held lookahead: emission step
          simp only [symLoopStep, hrtg, hnio, hwso, if_neg heq] at hstep
          refine symEmit_preserve st ⟨hwv, hws, hcn, hcs, hni, hnn, hic, hiv, hg, hr⟩
            ?_ out st' hstep
          intro it2 hit2 b hb
          rw [hnio] at hit2
          injection hit2 with hit2
          rw [hwso] at hb
          simp only [List.head?_cons, Option.mem_def, Option.some.injEq] at hb
          subst hb
          rw [← hit2]
          have := (hni it hnio).2.2 best (by rw [hwso]; simp)
          omega
  · -- hand over the buffered range
    simp only [symLoopStep, hrtg, Prod.mk.injEq, Option.some.injEq] at hstep
    obtain ⟨h1, h2⟩ := hstep
    subst h1
    subst h2
    constructor
    · exact ⟨hwv, hws, hcn, hcs, hni, hnn, hic, hiv, hg, by intro v2 hv2; simp at hv2⟩
    · have hf : absorbFlag { st with readyToGo := none } = absorbFlag st := rfl
      simp only [symMeasure, hf, hrtg]
      simp only [Option.toList_some, List.length_singleton, Option.toList_none,
        List.length_nil]
      omega

/-- Coverage counts add over concatenation. -/
theorem countCov_append (x : ℤ) (a b : List Rg) :
    countCov x (a ++ b) = countCov x a + countCov x b := by
  simp [countCov, List.countP_append]

/-- Splitting a list into optional head and tail preserves coverage counts. -/
theorem countCov_head_tail (x : ℤ) (l : List Rg) :
    countCov x l.head?.toList + countCov x l.tail = countCov x l := by
  rcases l with _ | ⟨h, t⟩
  · simp [countCov]
  · simp [countCov, List.countP_cons]
    omega

/-- Membership across appended outputs. -/
theorem memOut_append (x : ℤ) (a b : List Rg) :
    memOut x (a ++ b) ↔ memOut x a ∨ memOut x b := by
  constructor
  · rintro ⟨r, hr, hc⟩
    rcases List.mem_append.mp hr with h | h
    · exact Or.inl ⟨r, h, hc⟩
    · exact Or.inr ⟨r, h, hc⟩
  · rintro (⟨r, hr, hc⟩ | ⟨r, hr, hc⟩)
    · exact ⟨r, List.mem_append_left _ hr, hc⟩
    · exact ⟨r, List.mem_append_right _ hr, hc⟩

/-- What the rest of the run owes at coordinate `x`: a buffered range
covering it, or odd parity of the coverage count of the unprocessed
ranges. -/
def symRHS (x : ℤ) (st : SymState) : Prop :=
  (∃ v ∈ st.readyToGo.toList, covers v x) ∨ (∃ g ∈ st.gather.toList, covers g x) ∨
    countCov x (symRemaining st) % 2 = 1

/-- All pending material of a state lies at or after coordinate `c`. -/
def lbOK (c : ℤ) (st : SymState) : Prop :=
  (∀ v, st.readyToGo = some v → c ≤ v.1) ∧
  (∀ g, st.gather = some g → c ≤ g.1) ∧
  (∀ r ∈ st.workspace, c ≤ r.1) ∧
  (∀ it, st.nextItem = some it → c ≤ it.1) ∧
  (∀ r ∈ st.iter, c ≤ r.1)

/-- Shape of the non-terminal emission step: no output, the workspace is
rebuilt at the emission boundary, and the new `gather`/`ready_to_go` pair
is one of five explicit combinations. -/
theorem symEmit_shape (st : SymState) (best : Rg) (restWs : List Rg) (cachedEnd : ℤ)
    (hwso : st.workspace = best :: restWs)
    (hcache : st.workspaceNextEnd = some cachedEnd) :
    ∃ ne g2 r2,
      symEmit st = ([], some { st with
        workspace := (symTrim ne st.workspace).1
        workspaceNextEnd := (symTrim ne st.workspace).2
        gather := g2
        readyToGo := r2 }) ∧
      ne = st.nextItem.elim cachedEnd (fun it => min (it.1 - 1) cachedEnd) ∧
      ((∃ g, st.gather = some g ∧ g.2 + 1 = best.1 ∧ st.workspace.length % 2 = 1 ∧
          g2 = some (g.1, ne) ∧ r2 = none) ∨
       (∃ g, st.gather = some g ∧ ¬st.workspace.length % 2 = 1 ∧
          g2 = none ∧ r2 = some g) ∨
       (∃ g, st.gather = some g ∧ ¬g.2 + 1 = best.1 ∧ st.workspace.length % 2 = 1 ∧
          g2 = some (best.1, ne) ∧ r2 = some g) ∨
       (st.gather = none ∧ st.workspace.length % 2 = 1 ∧
          g2 = some (best.1, ne) ∧ r2 = none) ∨
       (st.gather = none ∧ ¬st.workspace.length % 2 = 1 ∧
          g2 = none ∧ r2 = none)) := by
  have hne : (match st.nextItem with
      | some nextItem => min (nextItem.1 - 1) cachedEnd
      | none => cachedEnd) =
      st.nextItem.elim cachedEnd (fun it => min (it.1 - 1) cachedEnd) := by
    rcases st.nextItem <;> rfl
  rcases hgo : st.gather with _ | g
  · by_cases hpar : st.workspace.length % 2 = 1
    · refine ⟨_, _, _, ?_, hne, Or.inr (Or.inr (Or.inr (Or.inl ⟨rfl, hpar, rfl, rfl⟩)))⟩
      simp only [symEmit, hwso, hcache, hgo]
      rw [← hwso, if_pos hpar]
    · refine ⟨_, _, _, ?_, hne, Or.inr (Or.inr (Or.inr (Or.inr ⟨rfl, hpar, rfl, rfl⟩)))⟩
      simp only [symEmit, hwso, hcache, hgo]
      rw [← hwso, if_neg hpar]
  · by_cases hcont : g.2 + 1 = best.1
    · by_cases hpar : st.workspace.length % 2 = 1
      · refine ⟨_, _, _, ?_, hne, Or.inl ⟨g, rfl, hcont, hpar, rfl, rfl⟩⟩
        simp only [symEmit, hwso, hcache, hgo]
        rw [← hwso, if_pos hcont, if_pos hpar]
      · refine ⟨_, _, _, ?_, hne, Or.inr (Or.inl ⟨g, rfl, hpar, rfl, rfl⟩)⟩
        simp only [symEmit, hwso, hcache, hgo]
        rw [← hwso, if_pos hcont, if_neg hpar]
    · by_cases hpar : st.workspace.length % 2 = 1
      · refine ⟨_, _, _, ?_, hne, Or.inr (Or.inr (Or.inl ⟨g, rfl, hcont, hpar, rfl, rfl⟩))⟩
        simp only [symEmit, hwso, hcache, hgo]
        rw [← hwso, if_neg hcont, if_pos hpar]
      · refine ⟨_, _, _, ?_, hne, Or.inr (Or.inl ⟨g, rfl, hpar, rfl, rfl⟩)⟩
        simp only [symEmit, hwso, hcache, hgo]
        rw [← hwso, if_neg hcont, if_neg hpar]

/-- One loop iteration keeps every returned range and all pending material
at or after `c`. -/
theorem symLoopStep_lb (st : SymState) (c : ℤ) (hinv : SymInv st) (hlb : lbOK c st) :
    ∀ (out : List Rg) (os : Option SymState), symLoopStep st = (out, os) →
      (∀ r ∈ out, c ≤ r.1) ∧ ∀ st2, os = some st2 → lbOK c st2 := by
  obtain ⟨hwv, hws, hcn, hcs, hni, hnn, hic, hiv, hg, hr⟩ := hinv
  obtain ⟨hbr, hbg, hbw, hbn, hbi⟩ := hlb
  intro out os hstep
  rcases hrtg : st.readyToGo with _ | v
  · rcases hnio : st.nextItem with _ | it
    · rcases hwso : st.workspace with _ | ⟨best, restWs⟩
      · -- terminal step: return the gather and stop
        simp only [symLoopStep, hrtg, hnio, symEmit, hwso, Prod.mk.injEq] at hstep
        obtain ⟨h1, h2⟩ := hstep
        subst h1
        subst h2
        refine ⟨?_, ?_⟩
        · intro r hrr
          rcases hgo : st.gather with _ | g
          · rw [hgo] at hrr
            simp at hrr
          · rw [hgo] at hrr
            simp only [Option.toList_some, List.mem_singleton] at hrr
            subst hrr
            exact hbg r hgo
        · intro st2 h
          simp at h
      · rcases hcache : st.workspaceNextEnd with _ | cachedEnd
        · -- stuck step: nothing returned, no continuation
          simp only [symLoopStep, hrtg, hnio, symEmit, hwso, hcache, Prod.mk.injEq] at hstep
          obtain ⟨h1, h2⟩ := hstep
          subst h1
          subst h2
          exact ⟨by intro r hrr; simp at hrr, by intro st2 h; simp at h⟩
        · -- emission step
          obtain ⟨ne, g2, r2, hemit, hnedef, hcases⟩ :=
            symEmit_shape st best restWs cachedEnd hwso hcache
          rw [hnio] at hnedef
          simp only [Option.elim_none] at hnedef
          obtain ⟨⟨w, hw, hw2⟩, hminall⟩ := hcs cachedEnd hcache
          have hcbest : c ≤ best.1 := hbw best (by rw [hwso]; simp)
          have hs0ne : best.1 ≤ ne := by
            have h1 := hws w hw best (by rw [hwso]; simp)
            have h2 := hwv w hw
            omega
          simp only [symLoopStep, hrtg, hnio, hemit, Prod.mk.injEq] at hstep
          obtain ⟨h1, h2⟩ := hstep
          subst h1
          subst h2
          refine ⟨by intro r hrr; simp at hrr, ?_⟩
          intro st2 h
          injection h with h
          subst h
          refine ⟨?_, ?_, ?_, ?_, ?_⟩
          · intro v2 hv2
            simp only at hv2
            rcases hcases with ⟨g, _, _, _, _, hrr2⟩ | ⟨g, hgeq, _, _, hrr2⟩ |
              ⟨g, hgeq, _, _, _, hrr2⟩ | ⟨_, _, _, hrr2⟩ | ⟨_, _, _, hrr2⟩ <;>
              rw [hrr2] at hv2
            · simp at hv2
            · injection hv2 with hv2
              rw [← hv2]
              exact hbg g hgeq
            · injection hv2 with hv2
              rw [← hv2]
              exact hbg g hgeq
            · simp at hv2
            · simp at hv2
          · intro g2v hg2v
            simp only at hg2v
            rcases hcases with ⟨g, hgeq, _, _, hg2eq, _⟩ | ⟨g, _, _, hg2eq, _⟩ |
              ⟨g, _, _, _, hg2eq, _⟩ | ⟨_, _, hg2eq, _⟩ | ⟨_, _, hg2eq, _⟩ <;>
              rw [hg2eq] at hg2v
            · injection hg2v with hg2v
              rw [← hg2v]
              exact hbg g hgeq
            · simp at hg2v
            · injection hg2v with hg2v
              rw [← hg2v]
              exact hcbest
            · injection hg2v with hg2v
              rw [← hg2v]
              exact hcbest
            · simp at hg2v
          · intro r hrr
            have hrr2 : r ∈ (symTrim ne st.workspace).1 := hrr
            rw [symTrim_start ne st.workspace r hrr2]
            omega
          · intro it hit
            have hit2 : (none : Option Rg) = some it := hit
            simp at hit2
          · intro r hrr
            exact hbi r hrr
    · rcases hwso : st.workspace with _ | ⟨best, restWs⟩
      · -- absorb into the empty workspace
        simp only [symLoopStep, hrtg, hnio, hwso, Prod.mk.injEq] at hstep
        obtain ⟨h1, h2⟩ := hstep
        subst h1
        subst h2
        refine ⟨by intro r hrr; simp at hrr, ?_⟩
        intro st2 h
        injection h with h
        subst h
        refine ⟨?_, ?_, ?_, ?_, ?_⟩
        · intro v2 hv2
          have hv3 : (none : Option Rg) = some v2 := hv2
          simp at hv3
        · intro g2v hg2v
          exact hbg g2v hg2v
        · intro r hrr
          have hrr2 : r ∈ [] ++ [it] := hrr
          simp only [List.nil_append, List.mem_singleton] at hrr2
          rw [hrr2]
          exact hbn it hnio
        · intro it2 hit2
          have hit3 : st.iter.head? = some it2 := hit2
          exact hbi it2 (List.mem_of_mem_head? hit3)
        · intro r hrr
          have hrr2 : r ∈ st.iter.tail := hrr
          exact hbi r (List.mem_of_mem_tail hrr2)
      · by_cases heq : it.1 = best.1
        · -- absorb at the shared start
          simp only [symLoopStep, hrtg, hnio, hwso, if_pos heq, Prod.mk.injEq] at hstep
          obtain ⟨h1, h2⟩ := hstep
          subst h1
          subst h2
          refine ⟨by intro r hrr; simp at hrr, ?_⟩
          intro st2 h
          injection h with h
          subst h
          refine ⟨?_, ?_, ?_, ?_, ?_⟩
          · intro v2 hv2
            have hv3 : (none : Option Rg) = some v2 := hv2
            simp at hv3
          · intro g2v hg2v
            exact hbg g2v hg2v
          · intro r hrr
            have hrr2 : r ∈ (best :: restWs) ++ [it] := hrr
            rcases List.mem_append.mp hrr2 with h3 | h3
            · exact hbw r (by rw [hwso]; exact h3)
            · simp only [List.mem_singleton] at h3
              rw [h3]
              exact hbn it hnio
          · intro it2 hit2
            have hit3 : st.iter.head? = some it2 := hit2
            exact hbi it2 (List.mem_of_mem_head? hit3)
          · intro r hrr
            have hrr2 : r ∈ st.iter.tail := hrr
            exact hbi r (List.mem_of_mem_tail hrr2)
        · -- held lookahead: emission step
          rcases hcache : st.workspaceNextEnd with _ | cachedEnd
          · simp only [symLoopStep, hrtg, hnio, hwso, if_neg heq, symEmit, hcache,
              Prod.mk.injEq] at hstep
            obtain ⟨h1, h2⟩ := hstep
            subst h1
            subst h2
            exact ⟨by intro r hrr; simp at hrr, by intro st2 h; simp at h⟩
          · obtain ⟨ne, g2, r2, hemit, hnedef, hcases⟩ :=
              symEmit_shape st best restWs cachedEnd hwso hcache
            rw [hnio] at hnedef
            simp only [Option.elim_some] at hnedef
            obtain ⟨⟨w, hw, hw2⟩, hminall⟩ := hcs cachedEnd hcache
            have hcbest : c ≤ best.1 := hbw best (by rw [hwso]; simp)
            have hblt : best.1 ≤ it.1 := (hni it hnio).2.2 best (by rw [hwso]; simp)
            have hs0ne : best.1 ≤ ne := by
              have h1 := hws w hw best (by rw [hwso]; simp)
              have h2 := hwv w hw
              have h3 : min (it.1 - 1) cachedEnd = ne := hnedef.symm
              omega
            simp only [symLoopStep, hrtg, hnio, hwso, if_neg heq] at hstep
            rw [hemit, Prod.mk.injEq] at hstep
            obtain ⟨h1, h2⟩ := hstep
            subst h1
            subst h2
            refine ⟨by intro r hrr; simp at hrr, ?_⟩
            intro st2 h
            injection h with h
            subst h
            refine ⟨?_, ?_, ?_, ?_, ?_⟩
            · intro v2 hv2
              simp only at hv2
              rcases hcases with ⟨g, _, _, _, _, hrr2⟩ | ⟨g, hgeq, _, _, hrr2⟩ |
                ⟨g, hgeq, _, _, _, hrr2⟩ | ⟨_, _, _, hrr2⟩ | ⟨_, _, _, hrr2⟩ <;>
                rw [hrr2] at hv2
              · simp at hv2
              · injection hv2 with hv2
                rw [← hv2]
                exact hbg g hgeq
              · injection hv2 with hv2
                rw [← hv2]
                exact hbg g hgeq
              · simp at hv2
              · simp at hv2
            · intro g2v hg2v
              simp only at hg2v
              rcases hcases with ⟨g, hgeq, _, _, hg2eq, _⟩ | ⟨g, _, _, hg2eq, _⟩ |
                ⟨g, _, _, _, hg2eq, _⟩ | ⟨_, _, hg2eq, _⟩ | ⟨_, _, hg2eq, _⟩ <;>
                rw [hg2eq] at hg2v
              · injection hg2v with hg2v
                rw [← hg2v]
                exact hbg g hgeq
              · simp at hg2v
              · injection hg2v with hg2v
                rw [← hg2v]
                exact hcbest
              · injection hg2v with hg2v
                rw [← hg2v]
                exact hcbest
              · simp at hg2v
            · intro r hrr
              have hrr2 : r ∈ (symTrim ne st.workspace).1 := hrr
              rw [symTrim_start ne st.workspace r hrr2]
              omega
            · intro it2 hit2
              exact hbn it2 hit2
            · intro r hrr
              exact hbi r hrr
  · -- hand over the buffered range
    simp only [symLoopStep, hrtg, Prod.mk.injEq] at hstep
    obtain ⟨h1, h2⟩ := hstep
    subst h1
    subst h2
    refine ⟨?_, ?_⟩
    · intro r hrr
      simp only [List.mem_singleton] at hrr
      rw [hrr]
      exact hbr v hrtg
    · intro st2 h
      injection h with h
      subst h
      refine ⟨?_, ?_, ?_, ?_, ?_⟩
      · intro v2 hv2
        simp at hv2
      · intro g2v hg2v
        exact hbg g2v hg2v
      · intro r hrr
        exact hbw r hrr
      · intro it2 hit2
        exact hbn it2 hit2
      · intro r hrr
        exact hbi r hrr

/-- The emission step leaves the owed-output characterization unchanged:
whatever the old gather/parity promised at `x`, the rebuilt state promises
the same. -/
theorem symEmit_rhs (st : SymState) (best : Rg) (restWs : List Rg) (cachedEnd ne : ℤ)
    (hinv : SymInv st) (x : ℤ)
    (hwso : st.workspace = best :: restWs)
    (hrtg : st.readyToGo = none)
    (hcache : st.workspaceNextEnd = some cachedEnd)
    (hs0ne : best.1 ≤ ne)
    (hnec : ne ≤ cachedEnd)
    (hnext : ∀ r ∈ st.nextItem.toList, ne < r.1)
    (hiter : ∀ r ∈ st.iter, ne < r.1)
    (g2 r2 : Option Rg)
    (hcases :
      (∃ g, st.gather = some g ∧ g.2 + 1 = best.1 ∧ st.workspace.length % 2 = 1 ∧
          g2 = some (g.1, ne) ∧ r2 = none) ∨
       (∃ g, st.gather = some g ∧ ¬st.workspace.length % 2 = 1 ∧
          g2 = none ∧ r2 = some g) ∨
       (∃ g, st.gather = some g ∧ ¬g.2 + 1 = best.1 ∧ st.workspace.length % 2 = 1 ∧
          g2 = some (best.1, ne) ∧ r2 = some g) ∨
       (st.gather = none ∧ st.workspace.length % 2 = 1 ∧
          g2 = some (best.1, ne) ∧ r2 = none) ∨
       (st.gather = none ∧ ¬st.workspace.length % 2 = 1 ∧
          g2 = none ∧ r2 = none)) :
    (symRHS x { st with
        workspace := (symTrim ne st.workspace).1
        workspaceNextEnd := (symTrim ne st.workspace).2
        gather := g2
        readyToGo := r2 } ↔ symRHS x st) := by
  obtain ⟨hwv, hws, hcn, hcs, hni, hnn, hic, hiv, hg, hr⟩ := hinv
  obtain ⟨⟨w, hw, hw2⟩, hminall⟩ := hcs cachedEnd hcache
  have hA : x < best.1 → countCov x st.workspace = 0 := by
    intro hx
    apply List.countP_eq_zero.mpr
    intro r hrm
    have := hws r hrm best (by rw [hwso]; simp)
    simp only [covers, decide_eq_true_eq]
    omega
  have hB : best.1 ≤ x → x ≤ ne → countCov x st.workspace = st.workspace.length := by
    intro hx1 hx2
    apply List.countP_eq_length.mpr
    intro r hrm
    have h1 := hws r hrm best (by rw [hwso]; simp)
    have h2 := hminall r hrm
    simp only [covers, decide_eq_true_eq]
    omega
  have hC : x ≤ ne → countCov x st.nextItem.toList = 0 := by
    intro hx
    apply List.countP_eq_zero.mpr
    intro r hrm
    have := hnext r hrm
    simp only [covers, decide_eq_true_eq]
    omega
  have hD : x ≤ ne → countCov x st.iter = 0 := by
    intro hx
    apply List.countP_eq_zero.mpr
    intro r hrm
    have := hiter r hrm
    simp only [covers, decide_eq_true_eq]
    omega
  have hE : x ≤ ne → countCov x (symTrim ne st.workspace).1 = 0 := by
    intro hx
    apply List.countP_eq_zero.mpr
    intro r hrm
    have := symTrim_start ne st.workspace r hrm
    simp only [covers, decide_eq_true_eq]
    omega
  have hF : ne < x → countCov x (symTrim ne st.workspace).1 = countCov x st.workspace := by
    intro hx
    apply symTrim_count ne st.workspace x hx
    intro it2 hit2
    have := hws it2 hit2 best (by rw [hwso]; simp)
    omega
  rcases hcases with ⟨g, hgo, hcont, hpar, hg2eq, hr2eq⟩ |
    ⟨g, hgo, hpar, hg2eq, hr2eq⟩ | ⟨g, hgo, hcont, hpar, hg2eq, hr2eq⟩ |
    ⟨hgo, hpar, hg2eq, hr2eq⟩ | ⟨hgo, hpar, hg2eq, hr2eq⟩ <;>
    subst hg2eq <;> subst hr2eq
  · obtain ⟨hgv, hgb2, _⟩ := hg g hgo
    have hgb : g.2 + 1 ≤ best.1 := hgb2 best (by rw [hwso]; simp)
    simp only [symRHS, symRemaining, hrtg, hgo, Option.toList_some, Option.toList_none,
      List.not_mem_nil, false_and, exists_false, List.mem_singleton, exists_eq_left,
      countCov_append, covers, false_or]
    omega
  · obtain ⟨hgv, hgb2, _⟩ := hg g hgo
    have hgb : g.2 + 1 ≤ best.1 := hgb2 best (by rw [hwso]; simp)
    simp only [symRHS, symRemaining, hrtg, hgo, Option.toList_some, Option.toList_none,
      List.not_mem_nil, false_and, exists_false, List.mem_singleton, exists_eq_left,
      countCov_append, covers, false_or]
    omega
  · obtain ⟨hgv, hgb2, _⟩ := hg g hgo
    have hgb : g.2 + 1 ≤ best.1 := hgb2 best (by rw [hwso]; simp)
    simp only [symRHS, symRemaining, hrtg, hgo, Option.toList_some, Option.toList_none,
      List.not_mem_nil, false_and, exists_false, List.mem_singleton, exists_eq_left,
      countCov_append, covers, false_or]
    omega
  · simp only [symRHS, symRemaining, hrtg, hgo, Option.toList_some, Option.toList_none,
      List.not_mem_nil, false_and, exists_false, List.mem_singleton, exists_eq_left,
      countCov_append, covers, false_or]
    omega
  · simp only [symRHS, symRemaining, hrtg, hgo, Option.toList_some, Option.toList_none,
      List.not_mem_nil, false_and, exists_false, List.mem_singleton, exists_eq_left,
      countCov_append, covers, false_or]
    omega

/-- One loop iteration preserves the owed-output characterization: what the
iteration returns plus what the continuation still owes is exactly what the
original state owed. -/
theorem symLoopStep_rhs (st : SymState) (hinv : SymInv st) (x : ℤ) :
    ∀ (out : List Rg) (os : Option SymState), symLoopStep st = (out, os) →
      ((memOut x out ∨ ∃ st2, os = some st2 ∧ symRHS x st2) ↔ symRHS x st) := by
  obtain ⟨hwv, hws, hcn, hcs, hni, hnn, hic, hiv, hg, hr⟩ := hinv
  intro out os hstep
  rcases hrtg : st.readyToGo with _ | v
  · rcases hnio : st.nextItem with _ | it
    · rcases hwso : st.workspace with _ | ⟨best, restWs⟩
      · -- terminal step: return the gather and stop
        simp only [symLoopStep, hrtg, hnio, symEmit, hwso, Prod.mk.injEq] at hstep
        obtain ⟨h1, h2⟩ := hstep
        subst h1
        subst h2
        have hiter : st.iter = [] := hnn hnio
        rcases hgo : st.gather with _ | g
        · simp [symRHS, symRemaining, hrtg, hnio, hgo, hwso, hiter, memOut, countCov]
        · simp [symRHS, symRemaining, hrtg, hnio, hgo, hwso, hiter, memOut, countCov]
      · rcases hcache : st.workspaceNextEnd with _ | cachedEnd
        · exact absurd (hcn hcache) (by rw [hwso]; simp)
        · obtain ⟨ne, g2, r2, hemit, hnedef, hcases⟩ :=
            symEmit_shape st best restWs cachedEnd hwso hcache
          rw [hnio] at hnedef
          simp only [Option.elim_none] at hnedef
          obtain ⟨⟨w, hw, hw2⟩, hminall⟩ := hcs cachedEnd hcache
          have hs0ne : best.1 ≤ ne := by
            have h1 := hws w hw best (by rw [hwso]; simp)
            have h2 := hwv w hw
            omega
          simp only [symLoopStep, hrtg, hnio, hemit, Prod.mk.injEq] at hstep
          obtain ⟨h1, h2⟩ := hstep
          subst h1
          subst h2
          simp only [memOut, List.not_mem_nil, false_and, exists_false,
            Option.some.injEq, exists_eq_left', false_or]
          rw [← hnio]
          exact symEmit_rhs st best restWs cachedEnd ne
            ⟨hwv, hws, hcn, hcs, hni, hnn, hic, hiv, hg, hr⟩ x hwso hrtg hcache
            hs0ne (by omega)
            (by intro r hrm; rw [hnio] at hrm; simp at hrm)
            (by intro r hrm; rw [hnn hnio] at hrm; simp at hrm)
            g2 r2 hcases
    · rcases hwso : st.workspace with _ | ⟨best, restWs⟩
      · -- absorb into the empty workspace
        simp only [symLoopStep, hrtg, hnio, hwso, Prod.mk.injEq] at hstep
        obtain ⟨h1, h2⟩ := hstep
        subst h1
        subst h2
        simp only [memOut, List.not_mem_nil, false_and, exists_false,
          Option.some.injEq, exists_eq_left', false_or]
        have hcnt : countCov x ([] ++ [it] ++ st.iter.head?.toList ++ st.iter.tail) =
            countCov x (symRemaining st) := by
          simp only [symRemaining, hwso, hnio, countCov_append, Option.toList_some]
          have := countCov_head_tail x st.iter
          omega
        simp only [symRHS, symRemaining, hrtg, hcnt]
      · by_cases heq : it.1 = best.1
        · -- absorb at the shared start
          simp only [symLoopStep, hrtg, hnio, hwso, if_pos heq, Prod.mk.injEq] at hstep
          obtain ⟨h1, h2⟩ := hstep
          subst h1
          subst h2
          simp only [memOut, List.not_mem_nil, false_and, exists_false,
            Option.some.injEq, exists_eq_left', false_or]
          have hcnt : countCov x
              ((best :: restWs) ++ [it] ++ st.iter.head?.toList ++ st.iter.tail) =
              countCov x (symRemaining st) := by
            simp only [symRemaining, hwso, hnio, countCov_append, Option.toList_some]
            have := countCov_head_tail x st.iter
            omega
          simp only [symRHS, symRemaining, hrtg, hcnt]
        · -- held lookahead: emission step
          rcases hcache : st.workspaceNextEnd with _ | cachedEnd
          · exact absurd (hcn hcache) (by rw [hwso]; simp)
          · obtain ⟨ne, g2, r2, hemit, hnedef, hcases⟩ :=
              symEmit_shape st best restWs cachedEnd hwso hcache
            rw [hnio] at hnedef
            simp only [Option.elim_some] at hnedef
            obtain ⟨⟨w, hw, hw2⟩, hminall⟩ := hcs cachedEnd hcache
            have hitb : best.1 ≤ it.1 := (hni it hnio).2.2 best (by rw [hwso]; simp)
            have hs0ne : best.1 ≤ ne := by
              have h1 := hws w hw best (by rw [hwso]; simp)
              have h2 := hwv w hw
              omega
            have hitr := (hni it hnio).2.1
            simp only [symLoopStep, hrtg, hnio, hwso, if_neg heq] at hstep
            rw [hemit, Prod.mk.injEq] at hstep
            obtain ⟨h1, h2⟩ := hstep
            subst h1
            subst h2
            simp only [memOut, List.not_mem_nil, false_and, exists_false,
              Option.some.injEq, exists_eq_left', false_or]
            exact symEmit_rhs st best restWs cachedEnd ne
              ⟨hwv, hws, hcn, hcs, hni, hnn, hic, hiv, hg, hr⟩ x hwso hrtg hcache
              hs0ne (by omega)
              (by
                intro r hrm
                rw [hnio] at hrm
                simp only [Option.toList_some, List.mem_singleton] at hrm
                subst hrm
                omega)
              (by
                intro r hrm
                have := hitr r hrm
                omega)
              g2 r2 hcases
  · -- hand over the buffered range
    simp only [symLoopStep, hrtg, Prod.mk.injEq] at hstep
    obtain ⟨h1, h2⟩ := hstep
    subst h1
    subst h2
    simp only [memOut, List.mem_singleton, exists_eq_left, Option.some.injEq,
      exists_eq_left']
    simp only [symRHS, symRemaining, hrtg, Option.toList_some, Option.toList_none,
      List.not_mem_nil, false_and, exists_false, false_or, List.mem_singleton,
      exists_eq_left]

/-- Prepending a well-formed range strictly before a Sorted-Disjoint list. -/
theorem sd_cons (v : Rg) (l : List Rg) (hv : v.1 ≤ v.2) (hsd : SortedDisjoint l)
    (hlt : ∀ r ∈ l, v.2 + 1 < r.1) : SortedDisjoint (v :: l) := by
  refine ⟨?_, ?_⟩
  · intro r hrr
    rcases List.mem_cons.mp hrr with rfl | h
    · exact hv
    · exact hsd.1 r h
  · rw [List.chain'_cons']
    exact ⟨fun b hb => hlt b (List.mem_of_mem_head? hb), hsd.2⟩

/-- On invariant states enough fuel gives the complete stream: a coordinate
is covered by the output exactly when the state still owes it. -/
theorem symRun_mem : ∀ (fuel : ℕ) (st : SymState), SymInv st → symMeasure st ≤ fuel →
    ∀ x, memOut x (symRun fuel st) ↔ symRHS x st := by
  intro fuel
  induction fuel with
  | zero =>
    intro st hinv hm x
    exfalso
    unfold symMeasure at hm
    omega
  | succ fuel ih =>
    intro st hinv hm x
    rcases hstep : symLoopStep st with ⟨out, os⟩
    have hrhs := symLoopStep_rhs st hinv x out os hstep
    rcases os with _ | st2
    · have hrun : symRun (fuel + 1) st = out := by
        simp [symRun, hstep]
      rw [hrun]
      constructor
      · intro h
        exact hrhs.mp (Or.inl h)
      · intro h
        rcases hrhs.mpr h with h2 | ⟨st2, hst2, _⟩
        · exact h2
        · simp at hst2
    · obtain ⟨hinv2, hdec⟩ := symLoopStep_preserve st hinv out st2 hstep
      have hrun : symRun (fuel + 1) st = out ++ symRun fuel st2 := by
        simp [symRun, hstep]
      rw [hrun]
      constructor
      · intro h
        rcases (memOut_append x out _).mp h with h2 | h2
        · exact hrhs.mp (Or.inl h2)
        · exact hrhs.mp (Or.inr ⟨st2, rfl, (ih st2 hinv2 (by omega) x).mp h2⟩)
      · intro h
        rcases hrhs.mpr h with h2 | ⟨st3, hst3, h3⟩
        · exact (memOut_append x out _).mpr (Or.inl h2)
        · injection hst3 with hst3
          subst hst3
          exact (memOut_append x out _).mpr
            (Or.inr ((ih st2 hinv2 (by omega) x).mpr h3))

/-- Lower-bound propagation: if all pending material of an invariant state
is at or after `c`, so is every range the run ever returns. -/
theorem symRun_lb : ∀ (fuel : ℕ) (st : SymState) (c : ℤ), SymInv st → lbOK c st →
    ∀ r ∈ symRun fuel st, c ≤ r.1 := by
  intro fuel
  induction fuel with
  | zero =>
    intro st c _ _ r hr
    simp [symRun] at hr
  | succ fuel ih =>
    intro st c hinv hlb r hr
    rcases hstep : symLoopStep st with ⟨out, os⟩
    obtain ⟨hout, hnext⟩ := symLoopStep_lb st c hinv hlb out os hstep
    rcases os with _ | st2
    · have hrun : symRun (fuel + 1) st = out := by simp [symRun, hstep]
      rw [hrun] at hr
      exact hout r hr
    · have hrun : symRun (fuel + 1) st = out ++ symRun fuel st2 := by
        simp [symRun, hstep]
      rw [hrun] at hr
      rcases List.mem_append.mp hr with h | h
      · exact hout r h
      · exact ih st2 c (symLoopStep_preserve st hinv out st2 hstep).1 (hnext st2 rfl) r h

/-- A terminating iteration returns a Sorted-Disjoint batch (the final
gather, or nothing when stuck). -/
theorem symLoopStep_none_sd (st : SymState) (hinv : SymInv st) :
    ∀ out, symLoopStep st = (out, none) → SortedDisjoint out := by
  obtain ⟨hwv, hws, hcn, hcs, hni, hnn, hic, hiv, hg, hr⟩ := hinv
  intro out hstep
  rcases hrtg : st.readyToGo with _ | v
  · rcases hnio : st.nextItem with _ | it
    · rcases hwso : st.workspace with _ | ⟨best, restWs⟩
      · simp only [symLoopStep, hrtg, hnio, symEmit, hwso, Prod.mk.injEq] at hstep
        obtain ⟨h1, _⟩ := hstep
        subst h1
        rcases hgo : st.gather with _ | g
        · exact ⟨by simp, by simp⟩
        · refine ⟨?_, by simp⟩
          intro r hrr
          simp only [Option.toList_some, List.mem_singleton] at hrr
          subst hrr
          exact (hg r hgo).1
      · rcases hcache : st.workspaceNextEnd with _ | cachedEnd
        · simp only [symLoopStep, hrtg, hnio, symEmit, hwso, hcache, Prod.mk.injEq] at hstep
          obtain ⟨h1, _⟩ := hstep
          subst h1
          exact ⟨by simp, by simp⟩
        · obtain ⟨ne, g2, r2, hemit, _, _⟩ :=
            symEmit_shape st best restWs cachedEnd hwso hcache
          simp only [symLoopStep, hrtg, hnio, hemit, Prod.mk.injEq] at hstep
          exact absurd hstep.2 (by simp)
    · rcases hwso : st.workspace with _ | ⟨best, restWs⟩
      · simp only [symLoopStep, hrtg, hnio, hwso, Prod.mk.injEq] at hstep
        exact absurd hstep.2 (by simp)
      · by_cases heq : it.1 = best.1
        · simp only [symLoopStep, hrtg, hnio, hwso, if_pos heq, Prod.mk.injEq] at hstep
          exact absurd hstep.2 (by simp)
        · rcases hcache : st.workspaceNextEnd with _ | cachedEnd
          · simp only [symLoopStep, hrtg, hnio, hwso, if_neg heq, symEmit, hcache,
              Prod.mk.injEq] at hstep
            obtain ⟨h1, _⟩ := hstep
            subst h1
            exact ⟨by simp, by simp⟩
          · obtain ⟨ne, g2, r2, hemit, _, _⟩ :=
              symEmit_shape st best restWs cachedEnd hwso hcache
            simp only [symLoopStep, hrtg, hnio, hwso, if_neg heq] at hstep
            rw [hemit, Prod.mk.injEq] at hstep
            exact absurd hstep.2 (by simp)
  · simp only [symLoopStep, hrtg, Prod.mk.injEq] at hstep
    exact absurd hstep.2 (by simp)

/-- A continuing iteration returns nothing, or hands over exactly the
buffered `ready_to_go` range. -/
theorem symLoopStep_some_shape (st : SymState) :
    ∀ out st2, symLoopStep st = (out, some st2) →
      out = [] ∨ ∃ v, out = [v] ∧ st.readyToGo = some v ∧
        st2 = { st with readyToGo := none } := by
  intro out st2 hstep
  rcases hrtg : st.readyToGo with _ | v
  · left
    rcases hnio : st.nextItem with _ | it
    · rcases hwso : st.workspace with _ | ⟨best, restWs⟩
      · simp only [symLoopStep, hrtg, hnio, symEmit, hwso, Prod.mk.injEq] at hstep
        exact absurd hstep.2 (by simp)
      · rcases hcache : st.workspaceNextEnd with _ | cachedEnd
        · simp only [symLoopStep, hrtg, hnio, symEmit, hwso, hcache, Prod.mk.injEq] at hstep
          exact absurd hstep.2 (by simp)
        · obtain ⟨ne, g2, r2, hemit, _, _⟩ :=
            symEmit_shape st best restWs cachedEnd hwso hcache
          simp only [symLoopStep, hrtg, hnio, hemit, Prod.mk.injEq] at hstep
          exact hstep.1.symm
    · rcases hwso : st.workspace with _ | ⟨best, restWs⟩
      · simp only [symLoopStep, hrtg, hnio, hwso, Prod.mk.injEq] at hstep
        exact hstep.1.symm
      · by_cases heq : it.1 = best.1
        · simp only [symLoopStep, hrtg, hnio, hwso, if_pos heq, Prod.mk.injEq] at hstep
          exact hstep.1.symm
        · rcases hcache : st.workspaceNextEnd with _ | cachedEnd
          · simp only [symLoopStep, hrtg, hnio, hwso, if_neg heq, symEmit, hcache,
              Prod.mk.injEq] at hstep
            exact absurd hstep.2 (by simp)
          · obtain ⟨ne, g2, r2, hemit, _, _⟩ :=
              symEmit_shape st best restWs cachedEnd hwso hcache
            simp only [symLoopStep, hrtg, hnio, hwso, if_neg heq] at hstep
            rw [hemit, Prod.mk.injEq] at hstep
            exact hstep.1.symm
  · right
    simp only [symLoopStep, hrtg, Prod.mk.injEq] at hstep
    obtain ⟨h1, h2⟩ := hstep
    injection h2 with h2
    exact ⟨v, h1.symm, rfl, h2.symm⟩

/-- After handing over the buffered range, everything still pending starts
at least two past its end. -/
theorem rtg_lb (st : SymState) (hinv : SymInv st) (v : Rg) (hrtg : st.readyToGo = some v) :
    lbOK (v.2 + 2) { st with readyToGo := none } := by
  obtain ⟨hwv, hws, hcn, hcs, hni, hnn, hic, hiv, hg, hr⟩ := hinv
  obtain ⟨hv1, hv2, hv3⟩ := hr v hrtg
  refine ⟨?_, ?_, ?_, ?_, ?_⟩
  · intro v2 hv2eq
    have h : (none : Option Rg) = some v2 := hv2eq
    simp at h
  · intro g hgeq
    have hgeq2 : st.gather = some g := hgeq
    have := hv2 g hgeq2
    omega
  · intro r hrr
    have hrr2 : r ∈ st.workspace := hrr
    rcases hwso : st.workspace with _ | ⟨b, t⟩
    · rw [hwso] at hrr2
      simp at hrr2
    · have hrb : r.1 = b.1 := by
        rw [hwso] at hrr2
        exact hws r (by rw [hwso]; exact hrr2) b (by rw [hwso]; simp)
      rcases hgo : st.gather with _ | g
      · have := (hv3 hgo).1 b (by rw [hwso]; simp)
        omega
      · have h1 := hv2 g hgo
        have h2 := (hg g hgo).1
        have h3 := (hg g hgo).2.1 b (by rw [hwso]; simp)
        omega
  · intro it hit
    have hit2 : st.nextItem = some it := hit
    rcases hgo : st.gather with _ | g
    · have := (hv3 hgo).2 it hit2
      omega
    · have h1 := hv2 g hgo
      have h2 := (hg g hgo).1
      have h3 := (hg g hgo).2.2 it hit2
      omega
  · intro r hrr
    have hrr2 : r ∈ st.iter := hrr
    rcases hnio : st.nextItem with _ | it
    · rw [hnn hnio] at hrr2
      simp at hrr2
    · have h0 := (hni it hnio).2.1 r hrr2
      rcases hgo : st.gather with _ | g
      · have := (hv3 hgo).2 it hnio
        omega
      · have h1 := hv2 g hgo
        have h2 := (hg g hgo).1
        have h3 := (hg g hgo).2.2 it hnio
        omega

/-- The output stream of the symmetric-difference loop is Sorted-Disjoint
from any invariant state. -/
theorem symRun_sd : ∀ (fuel : ℕ) (st : SymState), SymInv st →
    SortedDisjoint (symRun fuel st) := by
  intro fuel
  induction fuel with
  | zero =>
    intro st _
    exact ⟨by intro r hr; simp [symRun] at hr, by simp [symRun]⟩
  | succ fuel ih =>
    intro st hinv
    rcases hstep : symLoopStep st with ⟨out, os⟩
    rcases os with _ | st2
    · have hrun : symRun (fuel + 1) st = out := by simp [symRun, hstep]
      rw [hrun]
      exact symLoopStep_none_sd st hinv out hstep
    · obtain ⟨hinv2, _⟩ := symLoopStep_preserve st hinv out st2 hstep
      have hrun : symRun (fuel + 1) st = out ++ symRun fuel st2 := by
        simp [symRun, hstep]
      rw [hrun]
      rcases symLoopStep_some_shape st out st2 hstep with rfl | ⟨v, rfl, hrtg, rfl⟩
      · simpa using ih st2 hinv2
      · simp only [List.singleton_append]
        refine sd_cons v _ (hinv.2.2.2.2.2.2.2.2.2 v hrtg).1 (ih _ hinv2) ?_
        intro r hrr
        have := symRun_lb fuel _ (v.2 + 2) hinv2 (rtg_lb st hinv v hrtg) r hrr
        omega

/-- `SymDiffIter::new` establishes the loop invariant on Sorted-Starts
well-formed input. -/
theorem symDiffInit_inv (xs : List Rg) (hss : SortedStarts xs)
    (hv : ∀ r ∈ xs, r.1 ≤ r.2) : SymInv (symDiffInit xs) := by
  refine ⟨?_, ?_, ?_, ?_, ?_, ?_, ?_, ?_, ?_, ?_⟩
  · intro r hrr
    have h : r ∈ ([] : List Rg) := hrr
    simp at h
  · intro r hrr
    have h : r ∈ ([] : List Rg) := hrr
    simp at h
  · intro _
    rfl
  · intro m hm
    have h : (none : Option ℤ) = some m := hm
    simp at h
  · intro it hit
    have hit2 : xs.head? = some it := hit
    obtain ⟨t, ht⟩ := List.head?_eq_some_iff.mp hit2
    refine ⟨hv it (by rw [ht]; simp), ?_, ?_⟩
    · intro r hrr
      have hrr2 : r ∈ xs.tail := hrr
      rw [ht] at hrr2 hss
      exact ss_head_le it t hss r (by simpa using hrr2)
    · intro b hb
      have h : b ∈ ([] : List Rg).head? := hb
      simp at h
  · intro h
    have h2 : xs.head? = none := h
    show xs.tail = []
    rw [List.head?_eq_none_iff.mp h2]
    rfl
  · exact List.Chain'.tail hss
  · intro r hrr
    exact hv r (List.mem_of_mem_tail hrr)
  · intro g hgeq
    have h : (none : Option Rg) = some g := hgeq
    simp at h
  · intro v hveq
    have h : (none : Option Rg) = some v := hveq
    simp at h

/-- The default fuel of `symDiffSeq` dominates the initial measure. -/
theorem symDiffInit_measure (xs : List Rg) :
    symMeasure (symDiffInit xs) ≤ 7 * xs.length + 10 := by
  have h := tail_head_length xs
  have h2 := absorbFlag_le_one (symDiffInit xs)
  simp only [symMeasure, symDiffInit, List.length_nil, Option.toList_none] at h2 ⊢
  omega

/-- Initially the state owes exactly odd-parity coverage of the input. -/
theorem symRHS_init (xs : List Rg) (x : ℤ) :
    symRHS x (symDiffInit xs) ↔ countCov x xs % 2 = 1 := by
  have h := countCov_head_tail x xs
  simp only [symRHS, symDiffInit, symRemaining, Option.toList_none, List.not_mem_nil,
    false_and, exists_false, false_or, List.nil_append, countCov_append]
  omega

/-- Loop-top reachability preserves the loop invariant. -/
theorem symIterate_inv : ∀ (n : ℕ) (st st' : SymState), SymInv st →
    symIterate n st = some st' → SymInv st' := by
  intro n
  induction n with
  | zero =>
    intro st st' hinv h
    simp only [symIterate, Option.some.injEq] at h
    rw [← h]
    exact hinv
  | succ n ih =>
    intro st st' hinv h
    rcases hstep : symLoopStep st with ⟨out, os⟩
    rcases os with _ | st2
    · simp [symIterate, hstep] at h
    · simp only [symIterate, hstep] at h
      exact ih st2 st' (symLoopStep_preserve st hinv out st2 hstep).1 h

/-- C2: for a start-sorted merged input stream of well-formed ranges, an
integer coordinate is covered by some range yielded by `SymDiffIter` if and
only if an odd number of input ranges cover it. -/
theorem sym_diff_parity (xs : List Rg) (hss : SortedStarts xs)
    (hv : ∀ r ∈ xs, r.1 ≤ r.2) (x : ℤ) :
    memOut x (symDiffSeq xs) ↔ countCov x xs % 2 = 1 := by
  rw [symDiffSeq, symRun_mem (7 * xs.length + 10) (symDiffInit xs)
    (symDiffInit_inv xs hss hv) (symDiffInit_measure xs) x]
  exact symRHS_init xs x

theorem sym_diff_parity_witness :
    SortedStarts [((0:ℤ), (5:ℤ)), (2, 3)] ∧
    (∀ r ∈ [((0:ℤ), (5:ℤ)), (2, 3)], r.1 ≤ r.2) ∧
    (memOut 1 (symDiffSeq [((0:ℤ), (5:ℤ)), (2, 3)]) ↔
      countCov 1 [((0:ℤ), (5:ℤ)), (2, 3)] % 2 = 1) :=
  ⟨by decide, by decide,
    sym_diff_parity [((0:ℤ), (5:ℤ)), (2, 3)] (by decide) (by decide) 1⟩

/-- C4: on valid inputs (Sorted-Starts for union and symmetric difference,
Sorted-Disjoint within the domain for complement) the three lazy operators
yield Sorted-Disjoint streams: every yielded range `(s, e)` has `s ≤ e` and
consecutive yielded ranges satisfy `e1 + 1 < s2`. -/
theorem outputs_sorted_disjoint (lo hi : ℤ) (xs ys zs : List Rg)
    (hxss : SortedStarts xs) (hxb : ∀ r ∈ xs, r.1 ≤ hi)
    (hyss : SortedStarts ys) (hyv : ∀ r ∈ ys, r.1 ≤ r.2)
    (hlo : lo ≤ hi) (hzb : ∀ r ∈ zs, lo ≤ r.1 ∧ r.1 ≤ r.2 ∧ r.2 ≤ hi)
    (hzsd : SortedDisjoint zs) :
    SortedDisjoint (unionIterSeq hi xs) ∧ SortedDisjoint (symDiffSeq ys) ∧
      SortedDisjoint (notIterSeq lo hi zs) := by
  refine ⟨unionIterSeq_sd hi xs hxb, ?_, ?_⟩
  · rw [symDiffSeq]
    exact symRun_sd _ _ (symDiffInit_inv ys hyss hyv)
  · exact (notIterRun_main lo hi zs lo hlo hzb hzsd.2).1

theorem outputs_sorted_disjoint_witness :
    SortedStarts [((0:ℤ), (3:ℤ)), (2, 5)] ∧ SortedDisjoint [((1:ℤ), (2:ℤ)), (5, 6)] ∧
    SortedDisjoint (unionIterSeq 10 [((0:ℤ), (3:ℤ)), (2, 5)]) ∧
    SortedDisjoint (symDiffSeq [((0:ℤ), (3:ℤ)), (2, 5)]) ∧
    SortedDisjoint (notIterSeq 0 10 [((1:ℤ), (2:ℤ)), (5, 6)]) := by
  have h := outputs_sorted_disjoint 0 10 [((0:ℤ), (3:ℤ)), (2, 5)]
    [((0:ℤ), (3:ℤ)), (2, 5)] [((1:ℤ), (2:ℤ)), (5, 6)] (by decide) (by decide)
    (by decide) (by decide) (by decide) (by decide) (by decide)
  exact ⟨by decide, by decide, h.1, h.2.1, h.2.2⟩

/-- C10: in every loop-top state reachable from a start-sorted well-formed
input, all workspace entries share the start of the first entry, and the
cached `workspace_next_end` is exactly the minimum end over the workspace
entries (absent only when the workspace is empty), so the odd/even
emission decision depends only on the number of workspace entries. -/
theorem sym_diff_workspace_invariant (xs : List Rg) (hss : SortedStarts xs)
    (hv : ∀ r ∈ xs, r.1 ≤ r.2) (n : ℕ) (st : SymState)
    (hreach : symIterate n (symDiffInit xs) = some st) :
    (∀ r ∈ st.workspace, ∀ b ∈ st.workspace.head?, r.1 = b.1) ∧
    (st.workspaceNextEnd = none → st.workspace = []) ∧
    (∀ m, st.workspaceNextEnd = some m →
      (∃ r ∈ st.workspace, r.2 = m) ∧ ∀ r ∈ st.workspace, m ≤ r.2) := by
  have h := symIterate_inv n (symDiffInit xs) st (symDiffInit_inv xs hss hv) hreach
  exact ⟨h.2.1, h.2.2.1, h.2.2.2.1⟩

theorem sym_diff_workspace_invariant_witness :
    SortedStarts [((0:ℤ), (3:ℤ)), (0, 5)] ∧
    ((∃ r ∈ [((0:ℤ), (3:ℤ)), (0, 5)], r.2 = 3) ∧
      ∀ r ∈ [((0:ℤ), (3:ℤ)), (0, 5)], (3:ℤ) ≤ r.2) :=
  ⟨by decide,
    (sym_diff_workspace_invariant [((0:ℤ), (3:ℤ)), (0, 5)] (by decide) (by decide) 2
      { iter := [], nextItem := none, workspace := [((0:ℤ), (3:ℤ)), (0, 5)],
        workspaceNextEnd := some 3, gather := none, readyToGo := none } rfl).2.2 3 rfl⟩

/-! ### Union, map flavor (`src/union_iter_map.rs`, `UnionIterMap::next`)

An item is a `(range, value)` pair tagged with its priority number
(`Priority` of `src/sorted_disjoint_map.rs`); per `Priority::cmp` a
SMALLER priority number is better, so the `BinaryHeap` (a max-heap for
that order) peeks/pops the smallest priority number first.  The heap is
embedded as a list kept sorted by ascending priority number (`heapInsert`
places a pushed item before the first worse entry); under the pairwise
distinct priority numbers that `Priority::eq` asserts this captures the
heap's pop order exactly.  The fields `iter`, `next_item`, `workspace`,
`gather` and `ready_to_go` of `UnionIterMap` become the state record; one
iteration of the `loop` in `next` is `umLoopStep`. -/

/-- A priority-tagged `(range, value)` fragment. -/
abbrev UMItem (V : Type) : Type := (Rg × V) × ℕ

/-- Model of `BinaryHeap::push`: insert before the first entry with a
larger (worse) priority number. -/
def heapInsert {V : Type} (it : UMItem V) : List (UMItem V) → List (UMItem V)
  | [] => [it]
  | b :: t => if it.2 < b.2 then it :: b :: t else b :: heapInsert it t

/-- The iterator state of `UnionIterMap`. -/
structure UMState (V : Type) : Type where
  iter : List (UMItem V)
  nextItem : Option (UMItem V)
  workspace : List (UMItem V)
  gather : Option (Rg × V)
  readyToGo : Option (Rg × V)

/-- The workspace rebuild loop of `UnionIterMap::next` (lines 190-217):
items are popped best-first, dropped when fully consumed
(`end <= next_end`), trimmed to start at `next_end + 1`, and dropped when
both worse than and no longer than the best of the new workspace;
otherwise pushed. -/
def umTrimGo {V : Type} (nextEnd : ℤ) : List (UMItem V) → List (UMItem V) → List (UMItem V)
  | [], acc => acc
  | item :: rest, acc =>
    if item.1.1.2 ≤ nextEnd then umTrimGo nextEnd rest acc
    else
      match acc with
      | [] => umTrimGo nextEnd rest (heapInsert (((nextEnd + 1, item.1.1.2), item.1.2), item.2) [])
      | nb :: _ =>
        if nb.2 < item.2 ∧ item.1.1.2 ≤ nb.1.1.2 then umTrimGo nextEnd rest acc
        else umTrimGo nextEnd rest (heapInsert (((nextEnd + 1, item.1.1.2), item.1.2), item.2) acc)

/-- The part of the loop body from the workspace-empty check onward
(lines 127-217): emit the gather when the workspace is empty, otherwise
buffer the best item's front up to the emission boundary (merging into a
touching equal-valued gather) and rebuild the workspace. -/
def umEmit {V : Type} [DecidableEq V] (st : UMState V) : List (Rg × V) × Option (UMState V) :=
  match st.workspace with
  | [] => (st.gather.toList, none)
  | best :: _ =>
    let nextEnd :=
      match st.nextItem with
      | some nextItem => min (nextItem.1.1.1 - 1) best.1.1.2
      | none => best.1.1.2
    let gatherReady : Option (Rg × V) × Option (Rg × V) :=
      match st.gather with
      | some gather =>
        if gather.2 = best.1.2 ∧ gather.1.2 + 1 = best.1.1.1 then
          (some ((gather.1.1, nextEnd), gather.2), none)
        else
          (some ((best.1.1.1, nextEnd), best.1.2), some gather)
      | none => (some ((best.1.1.1, nextEnd), best.1.2), none)
    ([], some { st with
      workspace := umTrimGo nextEnd st.workspace []
      gather := gatherReady.1
      readyToGo := gatherReady.2 })

/-- One iteration of the main processing loop of `UnionIterMap::next`. -/
def umLoopStep {V : Type} [DecidableEq V] (st : UMState V) : List (Rg × V) × Option (UMState V) :=
  match st.readyToGo with
  | some value => ([value], some { st with readyToGo := none })
  | none =>
    match st.nextItem, st.workspace with
    | some nextItem, [] =>
      ([], some { st with
        workspace := [nextItem]
        nextItem := st.iter.head?
        iter := st.iter.tail })
    | some nextItem, best :: _ =>
      if nextItem.1.1.1 = best.1.1.1 then
        ([], some { st with
          workspace :=
            if nextItem.2 < best.2 ∨ best.1.1.2 < nextItem.1.1.2 then
              heapInsert nextItem st.workspace
            else st.workspace
          nextItem := st.iter.head?
          iter := st.iter.tail })
      else umEmit st
    | none, _ => umEmit st

/-- The whole output stream, with fuel bounding the loop count. -/
def umRun {V : Type} [DecidableEq V] : ℕ → UMState V → List (Rg × V)
  | 0, _ => []
  | fuel + 1, st =>
    (umLoopStep st).1 ++
      match (umLoopStep st).2 with
      | none => []
      | some st2 => umRun fuel st2

/-- `UnionIterMap::new`: prime `next_item` with the first upstream item. -/
def umInit {V : Type} (xs : List (UMItem V)) : UMState V :=
  { iter := xs.tail, nextItem := xs.head?, workspace := [], gather := none,
    readyToGo := none }

/-- The union output stream of a priority-tagged Sorted-Starts input. -/
def unionMapSeq {V : Type} [DecidableEq V] (xs : List (UMItem V)) : List (Rg × V) :=
  umRun (7 * xs.length + 10) (umInit xs)

def umAbsorbFlag {V : Type} (st : UMState V) : ℕ :=
  match st.nextItem, st.workspace with
  | some nextItem, best :: _ => if nextItem.1.1.1 = best.1.1.1 then 0 else 1
  | _, _ => 1

/-- Termination measure for the `UnionIterMap` loop. -/
def umMeasure {V : Type} (st : UMState V) : ℕ :=
  7 * (st.iter.length + st.nextItem.toList.length) + 4 * st.workspace.length +
    st.readyToGo.toList.length + 2 * umAbsorbFlag st + 1

/-- The fragments still to be processed from a state. -/
def umRemaining {V : Type} (st : UMState V) : List (UMItem V) :=
  st.workspace ++ st.nextItem.toList ++ st.iter

/-- `it` is a fragment of `l` covering `x` with the best (smallest)
priority number among those that cover `x`. -/
def isBest {V : Type} (x : ℤ) (l : List (UMItem V)) (it : UMItem V) : Prop :=
  it ∈ l ∧ covers it.1.1 x ∧ ∀ j ∈ l, covers j.1.1 x → it.2 ≤ j.2

/-- What the rest of the run owes at coordinate `x` with value `v`: a
buffered output pair covering it, or a best-priority pending fragment
carrying `v`. -/
def umRHS {V : Type} (x : ℤ) (v : V) (st : UMState V) : Prop :=
  (∃ p ∈ st.readyToGo.toList, covers p.1 x ∧ p.2 = v) ∨
  (∃ p ∈ st.gather.toList, covers p.1 x ∧ p.2 = v) ∨
  (∃ it, isBest x (umRemaining st) it ∧ it.1.2 = v)

/-- The loop invariant of `UnionIterMap` at the top of the main loop. -/
def UMInv {V : Type} (st : UMState V) : Prop :=
  (∀ i ∈ st.workspace, i.1.1.1 ≤ i.1.1.2) ∧
  (∀ i ∈ st.workspace, ∀ b ∈ st.workspace.head?, i.1.1.1 = b.1.1.1) ∧
  st.workspace.Pairwise (fun a b => a.2 < b.2) ∧
  (∀ it, st.nextItem = some it → it.1.1.1 ≤ it.1.1.2 ∧
    (∀ r ∈ st.iter, it.1.1.1 ≤ r.1.1.1) ∧
    ∀ b ∈ st.workspace.head?, b.1.1.1 ≤ it.1.1.1) ∧
  (st.nextItem = none → st.iter = []) ∧
  st.iter.Chain' (fun a b => a.1.1.1 ≤ b.1.1.1) ∧
  (∀ r ∈ st.iter, r.1.1.1 ≤ r.1.1.2) ∧
  (∀ g, st.gather = some g → g.1.1 ≤ g.1.2 ∧
    (∀ b ∈ st.workspace.head?, g.1.2 + 1 ≤ b.1.1.1) ∧
    ∀ it, st.nextItem = some it → g.1.2 + 1 ≤ it.1.1.1) ∧
  (∀ v, st.readyToGo = some v → v.1.1 ≤ v.1.2 ∧
    (∀ g, st.gather = some g → v.1.2 < g.1.1 ∧ (v.1.2 + 1 = g.1.1 → v.2 ≠ g.2)) ∧
    (st.gather = none → (∀ b ∈ st.workspace.head?, v.1.2 + 1 < b.1.1.1) ∧
      ∀ it, st.nextItem = some it → v.1.2 + 1 < it.1.1.1)) ∧
  ((umRemaining st).map (fun i => i.2)).Nodup

/-- Sorted-Disjoint-Map output contract with coalescing: ranges are well
formed, consecutive ranges are disjoint and in order, and touching
consecutive ranges carry different values (maximal equal-valued runs are
single ranges). -/
def sdMapCoalesced {V : Type} (l : List (Rg × V)) : Prop :=
  (∀ p ∈ l, p.1.1 ≤ p.1.2) ∧
  l.Chain' (fun a b => a.1.2 < b.1.1 ∧ (a.1.2 + 1 = b.1.1 → a.2 ≠ b.2))

/-- Heap membership: a push adds exactly the pushed item. -/
theorem heapInsert_mem {V : Type} (it j : UMItem V) :
    ∀ l, j ∈ heapInsert it l ↔ j = it ∨ j ∈ l := by
  intro l
  induction l with
  | nil => simp [heapInsert]
  | cons b t ih =>
    by_cases h : it.2 < b.2
    · simp only [heapInsert, if_pos h, List.mem_cons]
    · simp only [heapInsert, if_neg h, List.mem_cons, ih]
      tauto

/-- A push permutes with consing. -/
theorem heapInsert_perm {V : Type} (it : UMItem V) :
    ∀ l, (heapInsert it l).Perm (it :: l) := by
  intro l
  induction l with
  | nil => simp [heapInsert]
  | cons b t ih =>
    by_cases h : it.2 < b.2
    · simp [heapInsert, if_pos h]
    · rw [heapInsert, if_neg h]
      exact ((ih.cons b).trans (List.Perm.swap it b t))

/-- A push keeps the heap model sorted by ascending priority number, given
the pushed priority number is fresh. -/
theorem heapInsert_pairwise {V : Type} (it : UMItem V) :
    ∀ l, l.Pairwise (fun a b : UMItem V => a.2 < b.2) → (∀ a ∈ l, a.2 ≠ it.2) →
      (heapInsert it l).Pairwise (fun a b : UMItem V => a.2 < b.2) := by
  intro l
  induction l with
  | nil =>
    intro _ _
    simp [heapInsert]
  | cons b t ih =>
    intro hp hfresh
    rw [List.pairwise_cons] at hp
    by_cases h : it.2 < b.2
    · rw [heapInsert, if_pos h, List.pairwise_cons]
      constructor
      · intro a ha
        rcases List.mem_cons.mp ha with rfl | ha
        · exact h
        · exact lt_trans h (hp.1 a ha)
      · exact List.pairwise_cons.mpr hp
    · rw [heapInsert, if_neg h, List.pairwise_cons]
      have hbit : b.2 < it.2 := by
        have := hfresh b (by simp)
        omega
      constructor
      · intro a ha
        rcases (heapInsert_mem it a t).mp ha with rfl | ha
        · exact hbit
        · exact hp.1 a ha
      · exact ih hp.2 (fun a ha => hfresh a (List.mem_cons_of_mem _ ha))

/-- Pushing a worst-priority item appends it at the end. -/
theorem heapInsert_append {V : Type} (it : UMItem V) :
    ∀ l, (∀ a ∈ l, a.2 < it.2) → heapInsert it l = l ++ [it] := by
  intro l
  induction l with
  | nil => intro _; rfl
  | cons b t ih =>
    intro h
    have hb := h b (by simp)
    rw [heapInsert, if_neg (by omega), ih (fun a ha => h a (List.mem_cons_of_mem _ ha))]
    rfl

/-- Step equations for the workspace rebuild loop. -/
theorem umTrimGo_cons_short {V : Type} (ne : ℤ) (j : UMItem V) (rest acc : List (UMItem V))
    (h : j.1.1.2 ≤ ne) :
    umTrimGo ne (j :: rest) acc = umTrimGo ne rest acc := by
  rw [umTrimGo.eq_def]
  simp [h]

theorem umTrimGo_cons_keep0 {V : Type} (ne : ℤ) (j : UMItem V) (rest : List (UMItem V))
    (h : ¬ j.1.1.2 ≤ ne) :
    umTrimGo ne (j :: rest) [] =
      umTrimGo ne rest [(((ne + 1, j.1.1.2), j.1.2), j.2)] := by
  rw [umTrimGo.eq_def]
  simp [h, heapInsert]

theorem umTrimGo_cons_dom {V : Type} (ne : ℤ) (j nb : UMItem V)
    (rest accT : List (UMItem V))
    (h : ¬ j.1.1.2 ≤ ne) (h2 : nb.2 < j.2 ∧ j.1.1.2 ≤ nb.1.1.2) :
    umTrimGo ne (j :: rest) (nb :: accT) = umTrimGo ne rest (nb :: accT) := by
  rw [umTrimGo.eq_def]
  simp [h, h2.1, h2.2]

theorem umTrimGo_cons_keep {V : Type} (ne : ℤ) (j nb : UMItem V)
    (rest accT : List (UMItem V))
    (h : ¬ j.1.1.2 ≤ ne) (h2 : ¬(nb.2 < j.2 ∧ j.1.1.2 ≤ nb.1.1.2)) :
    umTrimGo ne (j :: rest) (nb :: accT) =
      umTrimGo ne rest (heapInsert (((ne + 1, j.1.1.2), j.1.2), j.2) (nb :: accT)) := by
  rw [umTrimGo.eq_def]
  simp only [h, if_false, ite_false]
  rw [if_neg h2]

/-- Combined facts about the workspace rebuild loop: every kept item
starts at the boundary and reaches past it, the result stays
priority-sorted, every kept item is an accumulator entry or a trimmed
survivor, accumulator entries survive, every pending fragment reaching
past a coordinate beyond the boundary is matched by a kept item reaching
it with a no-worse priority, and the length is bounded by the
survivors. -/
theorem umTrimGo_facts {V : Type} (ne : ℤ) : ∀ (l acc : List (UMItem V)),
    l.Pairwise (fun a b : UMItem V => a.2 < b.2) →
    acc.Pairwise (fun a b : UMItem V => a.2 < b.2) →
    (∀ a ∈ acc, ∀ b ∈ l, a.2 < b.2) →
    (∀ a ∈ acc, a.1.1.1 = ne + 1 ∧ ne < a.1.1.2) →
    (∀ i ∈ umTrimGo ne l acc, i.1.1.1 = ne + 1 ∧ ne < i.1.1.2) ∧
    (umTrimGo ne l acc).Pairwise (fun a b : UMItem V => a.2 < b.2) ∧
    (∀ i ∈ umTrimGo ne l acc, i ∈ acc ∨ ∃ j ∈ l, ne < j.1.1.2 ∧
      i = (((ne + 1, j.1.1.2), j.1.2), j.2)) ∧
    (∀ a ∈ acc, a ∈ umTrimGo ne l acc) ∧
    (∀ j ∈ l, ∀ x : ℤ, ne < x → x ≤ j.1.1.2 →
      ∃ i ∈ umTrimGo ne l acc, x ≤ i.1.1.2 ∧ i.2 ≤ j.2) ∧
    (umTrimGo ne l acc).length ≤
      acc.length + (l.filter fun j => decide (ne < j.1.1.2)).length := by
  intro l
  induction l with
  | nil =>
    intro acc _ hacc _ haccP
    simp only [umTrimGo, List.filter_nil, List.length_nil]
    exact ⟨haccP, hacc, fun i hi => Or.inl hi, fun a ha => ha,
      by intro j hj; simp at hj, by omega⟩
  | cons j rest ih =>
    intro acc hl hacc hcross haccP
    rw [List.pairwise_cons] at hl
    by_cases hshort : j.1.1.2 ≤ ne
    · rw [umTrimGo_cons_short ne j rest acc hshort]
      obtain ⟨T1, T2, T4, T6, T5, T7⟩ := ih acc hl.2 hacc
        (fun a ha b hb => hcross a ha b (List.mem_cons_of_mem _ hb)) haccP
      refine ⟨T1, T2, ?_, T6, ?_, ?_⟩
      · intro i hi
        rcases T4 i hi with h | ⟨j2, hj2, h2⟩
        · exact Or.inl h
        · exact Or.inr ⟨j2, List.mem_cons_of_mem _ hj2, h2⟩
      · intro j2 hj2 x hx1 hx2
        rcases List.mem_cons.mp hj2 with rfl | hj2
        · omega
        · exact T5 j2 hj2 x hx1 hx2
      · have hflt : (List.filter (fun j2 : UMItem V => decide (ne < j2.1.1.2))
            (j :: rest)).length =
            (List.filter (fun j2 : UMItem V => decide (ne < j2.1.1.2)) rest).length := by
          rw [List.filter_cons, if_neg (by simp only [decide_eq_true_eq]; omega)]
        rw [hflt]
        exact T7
    · rcases acc with _ | ⟨nb, accT⟩
      · rw [umTrimGo_cons_keep0 ne j rest hshort]
        obtain ⟨T1, T2, T4, T6, T5, T7⟩ := ih [(((ne + 1, j.1.1.2), j.1.2), j.2)] hl.2
          (by simp)
          (by
            intro a ha b hb
            simp only [List.mem_singleton] at ha
            subst ha
            exact hl.1 b hb)
          (by
            intro a ha
            simp only [List.mem_singleton] at ha
            subst ha
            exact ⟨rfl, by simp only; omega⟩)
        refine ⟨T1, T2, ?_, ?_, ?_, ?_⟩
        · intro i hi
          rcases T4 i hi with h | ⟨j2, hj2, h2⟩
          · simp only [List.mem_singleton] at h
            exact Or.inr ⟨j, by simp, by omega, h⟩
          · exact Or.inr ⟨j2, List.mem_cons_of_mem _ hj2, h2⟩
        · intro a ha
          simp at ha
        · intro j2 hj2 x hx1 hx2
          rcases List.mem_cons.mp hj2 with rfl | hj2
          · exact ⟨(((ne + 1, j2.1.1.2), j2.1.2), j2.2), T6 _ (by simp), hx2, le_refl _⟩
          · exact T5 j2 hj2 x hx1 hx2
        · have hflt : (List.filter (fun j2 : UMItem V => decide (ne < j2.1.1.2))
              (j :: rest)).length =
              (List.filter (fun j2 : UMItem V => decide (ne < j2.1.1.2)) rest).length + 1 := by
            rw [List.filter_cons, if_pos (by simp only [decide_eq_true_eq]; omega)]
            simp
          rw [hflt]
          simp only [List.length_nil, List.length_singleton] at T7 ⊢
          omega
      · by_cases hdom : nb.2 < j.2 ∧ j.1.1.2 ≤ nb.1.1.2
        · rw [umTrimGo_cons_dom ne j nb rest accT hshort hdom]
          obtain ⟨T1, T2, T4, T6, T5, T7⟩ := ih (nb :: accT) hl.2 hacc
            (fun a ha b hb => hcross a ha b (List.mem_cons_of_mem _ hb)) haccP
          refine ⟨T1, T2, ?_, T6, ?_, ?_⟩
          · intro i hi
            rcases T4 i hi with h | ⟨j2, hj2, h2⟩
            · exact Or.inl h
            · exact Or.inr ⟨j2, List.mem_cons_of_mem _ hj2, h2⟩
          · intro j2 hj2 x hx1 hx2
            rcases List.mem_cons.mp hj2 with rfl | hj2
            · exact ⟨nb, T6 nb (by simp), by omega, by omega⟩
            · exact T5 j2 hj2 x hx1 hx2
          · have hflt : (List.filter (fun j2 : UMItem V => decide (ne < j2.1.1.2))
                (j :: rest)).length =
                (List.filter (fun j2 : UMItem V => decide (ne < j2.1.1.2)) rest).length + 1 := by
              rw [List.filter_cons, if_pos (by simp only [decide_eq_true_eq]; omega)]
              simp
            rw [hflt]
            simp only [List.length_cons] at T7 ⊢
            omega
        · rw [umTrimGo_cons_keep ne j nb rest accT hshort hdom]
          have happ : heapInsert (((ne + 1, j.1.1.2), j.1.2), j.2) (nb :: accT) =
              (nb :: accT) ++ [(((ne + 1, j.1.1.2), j.1.2), j.2)] :=
            heapInsert_append _ _ (fun a ha => hcross a ha j (by simp))
          rw [happ]
          obtain ⟨T1, T2, T4, T6, T5, T7⟩ := ih
            ((nb :: accT) ++ [(((ne + 1, j.1.1.2), j.1.2), j.2)]) hl.2
            (by
              rw [List.pairwise_append]
              refine ⟨hacc, by simp, ?_⟩
              intro a ha b hb
              simp only [List.mem_singleton] at hb
              subst hb
              exact hcross a ha j (by simp))
            (by
              intro a ha b hb
              rcases List.mem_append.mp ha with ha2 | ha2
              · exact hcross a ha2 b (List.mem_cons_of_mem _ hb)
              · simp only [List.mem_singleton] at ha2
                subst ha2
                exact hl.1 b hb)
            (by
              intro a ha
              rcases List.mem_append.mp ha with ha2 | ha2
              · exact haccP a ha2
              · simp only [List.mem_singleton] at ha2
                subst ha2
                exact ⟨rfl, by simp only; omega⟩)
          refine ⟨T1, T2, ?_, ?_, ?_, ?_⟩
          · intro i hi
            rcases T4 i hi with h | ⟨j2, hj2, h2⟩
            · rcases List.mem_append.mp h with h2 | h2
              · exact Or.inl h2
              · simp only [List.mem_singleton] at h2
                exact Or.inr ⟨j, by simp, by omega, h2⟩
            · exact Or.inr ⟨j2, List.mem_cons_of_mem _ hj2, h2⟩
          · intro a ha
            exact T6 a (List.mem_append_left _ ha)
          · intro j2 hj2 x hx1 hx2
            rcases List.mem_cons.mp hj2 with rfl | hj2
            · exact ⟨(((ne + 1, j2.1.1.2), j2.1.2), j2.2),
                T6 _ (List.mem_append_right _ (by simp)), hx2, le_refl _⟩
            · exact T5 j2 hj2 x hx1 hx2
          · have hflt : (List.filter (fun j2 : UMItem V => decide (ne < j2.1.1.2))
                (j :: rest)).length =
                (List.filter (fun j2 : UMItem V => decide (ne < j2.1.1.2)) rest).length + 1 := by
              rw [List.filter_cons, if_pos (by simp only [decide_eq_true_eq]; omega)]
              simp
            rw [hflt]
            simp only [List.length_append, List.length_cons, List.length_singleton,
              List.length_nil] at T7 ⊢
            omega

theorem head_toList_tail {α : Type} (l : List α) : l.head?.toList ++ l.tail = l := by
  rcases l <;> simp

/-- Replacing a prefix by a duplicate-free sublist of it keeps the whole
list duplicate-free. -/
theorem nodup_append_subset {A A2 B : List ℕ} (hsub : ∀ p ∈ A2, p ∈ A)
    (hA2 : A2.Nodup) (h : (A ++ B).Nodup) : (A2 ++ B).Nodup := by
  rw [List.nodup_append] at h ⊢
  refine ⟨hA2, h.2.1, ?_⟩
  intro p hp hq
  exact h.2.2 (hsub p hp) hq

/-- Shape of the non-terminal emission step of `UnionIterMap`: no output,
the workspace is rebuilt at the emission boundary, and the new
`gather`/`ready_to_go` pair is one of three explicit combinations. -/
theorem umEmit_shape {V : Type} [DecidableEq V] (st : UMState V) (best : UMItem V)
    (restWs : List (UMItem V)) (hwso : st.workspace = best :: restWs) :
    ∃ ne g2 r2,
      umEmit st = ([], some { st with
        workspace := umTrimGo ne st.workspace []
        gather := g2
        readyToGo := r2 }) ∧
      ne = st.nextItem.elim best.1.1.2 (fun it => min (it.1.1.1 - 1) best.1.1.2) ∧
      ((∃ g, st.gather = some g ∧ g.2 = best.1.2 ∧ g.1.2 + 1 = best.1.1.1 ∧
          g2 = some ((g.1.1, ne), g.2) ∧ r2 = none) ∨
       (∃ g, st.gather = some g ∧ ¬(g.2 = best.1.2 ∧ g.1.2 + 1 = best.1.1.1) ∧
          g2 = some ((best.1.1.1, ne), best.1.2) ∧ r2 = some g) ∨
       (st.gather = none ∧ g2 = some ((best.1.1.1, ne), best.1.2) ∧ r2 = none)) := by
  have hne : (match st.nextItem with
      | some nextItem => min (nextItem.1.1.1 - 1) best.1.1.2
      | none => best.1.1.2) =
      st.nextItem.elim best.1.1.2 (fun it => min (it.1.1.1 - 1) best.1.1.2) := by
    rcases st.nextItem <;> rfl
  rcases hgo : st.gather with _ | g
  · refine ⟨_, _, _, ?_, hne, Or.inr (Or.inr ⟨rfl, rfl, rfl⟩)⟩
    simp only [umEmit, hwso, hgo]
  · by_cases hmerge : g.2 = best.1.2 ∧ g.1.2 + 1 = best.1.1.1
    · refine ⟨_, _, _, ?_, hne, Or.inl ⟨g, rfl, hmerge.1, hmerge.2, rfl, rfl⟩⟩
      simp only [umEmit, hwso, hgo]
      rw [← hwso, if_pos hmerge]
    · refine ⟨_, _, _, ?_, hne, Or.inr (Or.inl ⟨g, rfl, hmerge, rfl, rfl⟩)⟩
      simp only [umEmit, hwso, hgo]
      rw [← hwso, if_neg hmerge]

theorem nodup_middle_ne {V : Type} (ws iter : List (UMItem V)) (it : UMItem V)
    (h : (((ws ++ [it]) ++ iter).map (fun i => i.2)).Nodup) :
    ∀ a ∈ ws, a.2 ≠ it.2 := by
  intro a ha
  rw [List.map_append, List.nodup_append] at h
  have h1 := h.1
  rw [List.map_append, List.nodup_append] at h1
  intro heq
  exact h1.2.2 (List.mem_map_of_mem _ ha) (by simp [heq])

theorem umAbsorbFlag_le_one {V : Type} (st : UMState V) : umAbsorbFlag st ≤ 1 := by
  unfold umAbsorbFlag
  rcases st.nextItem with _ | it
  · simp
  · rcases st.workspace with _ | ⟨b, t⟩
    · simp
    · by_cases h : it.1.1.1 = b.1.1.1 <;> simp [h]

/-- The emission step of `UnionIterMap` preserves the loop invariant and
decreases the measure. -/
theorem umEmit_preserve_core {V : Type} [DecidableEq V] (st : UMState V)
    (best : UMItem V) (restWs : List (UMItem V)) (ne : ℤ) (g2 r2 : Option (Rg × V))
    (hinv : UMInv st)
    (hwso : st.workspace = best :: restWs)
    (hrtg : st.readyToGo = none)
    (hflag : umAbsorbFlag st = 1)
    (hs0ne : best.1.1.1 ≤ ne)
    (hnelt : ∀ it, st.nextItem = some it → ne + 1 ≤ it.1.1.1)
    (hmcase : best.1.1.2 ≤ ne ∨
      (ne < best.1.1.2 ∧ ∃ it, st.nextItem = some it ∧ ne + 1 = it.1.1.1))
    (hcases :
      (∃ g, st.gather = some g ∧ g.2 = best.1.2 ∧ g.1.2 + 1 = best.1.1.1 ∧
          g2 = some ((g.1.1, ne), g.2) ∧ r2 = none) ∨
       (∃ g, st.gather = some g ∧ ¬(g.2 = best.1.2 ∧ g.1.2 + 1 = best.1.1.1) ∧
          g2 = some ((best.1.1.1, ne), best.1.2) ∧ r2 = some g) ∨
       (st.gather = none ∧ g2 = some ((best.1.1.1, ne), best.1.2) ∧ r2 = none)) :
    UMInv { st with
      workspace := umTrimGo ne st.workspace []
      gather := g2
      readyToGo := r2 } ∧
    umMeasure { st with
      workspace := umTrimGo ne st.workspace []
      gather := g2
      readyToGo := r2 } < umMeasure st := by
  obtain ⟨hwv, hws, hwp, hni, hnn, hic, hiv, hg, hr, hnd⟩ := hinv
  obtain ⟨T1, T2, T4, T6, T5, T7⟩ := umTrimGo_facts ne st.workspace [] hwp
    (by simp) (by simp) (by simp)
  have hbestm : best ∈ st.workspace := by rw [hwso]; simp
  constructor
  · refine ⟨?_, ?_, T2, ?_, hnn, hic, hiv, ?_, ?_, ?_⟩
    · intro i hi
      have := T1 i hi
      omega
    · intro i hi b hb
      have h1 := T1 i hi
      have h2 := T1 b (List.mem_of_mem_head? hb)
      rw [h1.1, h2.1]
    · intro it hit
      obtain ⟨h1, h2, _⟩ := hni it hit
      refine ⟨h1, h2, ?_⟩
      intro b hb
      have := T1 b (List.mem_of_mem_head? hb)
      have := hnelt it hit
      omega
    · rcases hcases with ⟨g, hgo, hveq, htouch, hg2eq, hr2eq⟩ |
        ⟨g, hgo, hnm, hg2eq, hr2eq⟩ | ⟨hgo, hg2eq, hr2eq⟩
      · intro g' hg'eq
        have hg'eq2 : g2 = some g' := hg'eq
        rw [hg2eq] at hg'eq2
        injection hg'eq2 with hg'eq2
        rw [← hg'eq2]
        obtain ⟨hgv, _, _⟩ := hg g hgo
        refine ⟨by simp only; omega, ?_, ?_⟩
        · intro b hb
          have := T1 b (List.mem_of_mem_head? hb)
          simp only
          omega
        · intro it hit
          have := hnelt it hit
          simp only
          omega
      · intro g' hg'eq
        have hg'eq2 : g2 = some g' := hg'eq
        rw [hg2eq] at hg'eq2
        injection hg'eq2 with hg'eq2
        rw [← hg'eq2]
        refine ⟨by simp only; omega, ?_, ?_⟩
        · intro b hb
          have := T1 b (List.mem_of_mem_head? hb)
          simp only
          omega
        · intro it hit
          have := hnelt it hit
          simp only
          omega
      · intro g' hg'eq
        have hg'eq2 : g2 = some g' := hg'eq
        rw [hg2eq] at hg'eq2
        injection hg'eq2 with hg'eq2
        rw [← hg'eq2]
        refine ⟨by simp only; omega, ?_, ?_⟩
        · intro b hb
          have := T1 b (List.mem_of_mem_head? hb)
          simp only
          omega
        · intro it hit
          have := hnelt it hit
          simp only
          omega
    · rcases hcases with ⟨g, hgo, hveq, htouch, hg2eq, hr2eq⟩ |
        ⟨g, hgo, hnm, hg2eq, hr2eq⟩ | ⟨hgo, hg2eq, hr2eq⟩
      · intro v hveq2
        have hveq3 : r2 = some v := hveq2
        rw [hr2eq] at hveq3
        simp at hveq3
      · intro v hveq2
        have hveq3 : r2 = some v := hveq2
        rw [hr2eq] at hveq3
        injection hveq3 with hveq3
        rw [← hveq3]
        obtain ⟨hgv, hgb2, _⟩ := hg g hgo
        have hgb : g.1.2 + 1 ≤ best.1.1.1 := hgb2 best (by rw [hwso]; simp)
        refine ⟨hgv, ?_, ?_⟩
        · intro g' hg'eq
          have hg'eq2 : g2 = some g' := hg'eq
          rw [hg2eq] at hg'eq2
          injection hg'eq2 with hg'eq2
          rw [← hg'eq2]
          refine ⟨by simp only; omega, ?_⟩
          intro htouch2
          simp only at htouch2
          intro hveq4
          simp only at hveq4
          exact hnm ⟨hveq4, by omega⟩
        · intro hgn
          have hgn2 : g2 = none := hgn
          rw [hg2eq] at hgn2
          simp at hgn2
      · intro v hveq2
        have hveq3 : r2 = some v := hveq2
        rw [hr2eq] at hveq3
        simp at hveq3
    · have hsub : ∀ p ∈ (umTrimGo ne st.workspace []).map (fun i => i.2),
          p ∈ st.workspace.map (fun i => i.2) := by
        intro p hp
        obtain ⟨i, hi, hip⟩ := List.mem_map.mp hp
        rcases T4 i hi with h | ⟨j, hj, _, hij⟩
        · simp at h
        · refine List.mem_map.mpr ⟨j, hj, ?_⟩
          rw [← hip, hij]
      have hA2 : ((umTrimGo ne st.workspace []).map (fun i => i.2)).Nodup := by
        have hpair := List.Pairwise.map (fun i : UMItem V => i.2)
          (fun a b (h : a.2 < b.2) => h) T2
        exact hpair.imp (fun h => Nat.ne_of_lt h)
      have hnd2 : ((st.workspace ++ (st.nextItem.toList ++ st.iter)).map
          (fun i => i.2)).Nodup := by
        have := hnd
        simp only [umRemaining] at this
        rw [List.append_assoc] at this
        exact this
      rw [List.map_append] at hnd2
      have hres := nodup_append_subset hsub hA2 hnd2
      show (((umTrimGo ne st.workspace [] ++ st.nextItem.toList) ++ st.iter).map
        (fun i => i.2)).Nodup
      rw [List.append_assoc, List.map_append]
      exact hres
  · have hf2 := umAbsorbFlag_le_one { st with
      workspace := umTrimGo ne st.workspace []
      gather := g2
      readyToGo := r2 }
    have hr2len : r2.toList.length ≤ 1 := by rcases r2 <;> simp
    have hlen : (umTrimGo ne st.workspace []).length ≤ st.workspace.length := by
      have h2 := List.length_filter_le (fun j : UMItem V => decide (ne < j.1.1.2))
        st.workspace
      simp only [List.length_nil] at T7
      omega
    rcases hmcase with hdrop | ⟨hlong, it, hit, hne1⟩
    · have hstrict : (umTrimGo ne st.workspace []).length < st.workspace.length := by
        have h3 : (st.workspace.filter fun j : UMItem V => decide (ne < j.1.1.2)).length <
            st.workspace.length := by
          apply List.length_filter_lt_length_iff_exists.mpr
          exact ⟨best, hbestm, by simp; omega⟩
        simp only [List.length_nil] at T7
        omega
      simp only [umMeasure, hflag, hrtg, Option.toList_none, List.length_nil]
      omega
    · have hnonempty : ∃ i, i ∈ umTrimGo ne st.workspace [] := by
        obtain ⟨i, hi, _⟩ := T5 best hbestm (ne + 1) (by omega) (by omega)
        exact ⟨i, hi⟩
      have hflag0 : umAbsorbFlag { st with
          workspace := umTrimGo ne st.workspace []
          gather := g2
          readyToGo := r2 } = 0 := by
        obtain ⟨i, hi⟩ := hnonempty
        rcases hws2 : umTrimGo ne st.workspace [] with _ | ⟨b2, t2⟩
        · rw [hws2] at hi
          simp at hi
        · have hb2 : b2 ∈ umTrimGo ne st.workspace [] := by rw [hws2]; simp
          have hstart := (T1 b2 hb2).1
          unfold umAbsorbFlag
          simp only [hit, hws2]
          rw [if_pos (by omega)]
      simp only [umMeasure, hflag, hflag0, hrtg, Option.toList_none, List.length_nil]
      omega

theorem chain_head_le_gen {α : Type} (f : α → ℤ) : ∀ (a : α) (t : List α),
    (a :: t).Chain' (fun x y => f x ≤ f y) → ∀ r ∈ t, f a ≤ f r := by
  intro a t
  induction t generalizing a with
  | nil =>
    intro _ r hr
    simp at hr
  | cons b t2 ih =>
    intro h r hr
    rw [List.chain'_cons] at h
    rcases List.mem_cons.mp hr with rfl | hr2
    · exact h.1
    · exact le_trans h.1 (ih b h.2 r hr2)

theorem nodup_map_perm {V : Type} {l1 l2 : List (UMItem V)} (hp : l1.Perm l2)
    (h : (l2.map (fun i => i.2)).Nodup) : (l1.map (fun i => i.2)).Nodup :=
  ((hp.map _).nodup_iff).mpr h

theorem heapInsert_length {V : Type} (it : UMItem V) (l : List (UMItem V)) :
    (heapInsert it l).length = l.length + 1 := by
  have := (heapInsert_perm it l).length_eq
  simpa using this

/-- Every loop iteration of `UnionIterMap` that continues preserves the
loop invariant and strictly decreases the measure. -/
theorem umLoopStep_preserve {V : Type} [DecidableEq V] (st : UMState V) (hinv : UMInv st) :
    ∀ (out : List (Rg × V)) (st2 : UMState V), umLoopStep st = (out, some st2) →
      UMInv st2 ∧ umMeasure st2 < umMeasure st := by
  obtain ⟨hwv, hws, hwp, hni, hnn, hic, hiv, hg, hr, hnd⟩ := hinv
  intro out st2 hstep
  rcases hrtg : st.readyToGo with _ | v
  · rcases hnio : st.nextItem with _ | it
    · rcases hwso : st.workspace with _ | ⟨best, restWs⟩
      · simp only [umLoopStep, hrtg, hnio, umEmit, hwso, Prod.mk.injEq] at hstep
        exact absurd hstep.2 (by simp)
      · obtain ⟨ne, g2, r2, hemit, hnedef, hcases⟩ := umEmit_shape st best restWs hwso
        rw [hnio] at hnedef
        simp only [Option.elim_none] at hnedef
        have hbv : best.1.1.1 ≤ best.1.1.2 := hwv best (by rw [hwso]; simp)
        have hflag : umAbsorbFlag st = 1 := by
          unfold umAbsorbFlag
          rw [hnio]
        simp only [umLoopStep, hrtg, hnio, hemit, Prod.mk.injEq] at hstep
        obtain ⟨h1, h2⟩ := hstep
        injection h2 with h2
        subst h2
        rw [← hnio]
        exact umEmit_preserve_core st best restWs ne g2 r2
          ⟨hwv, hws, hwp, hni, hnn, hic, hiv, hg, hr, hnd⟩ hwso hrtg hflag
          (by omega)
          (by intro it2 hit2; rw [hnio] at hit2; simp at hit2)
          (Or.inl (by omega)) hcases
    · have hitv := hni it hnio
      rcases hwso : st.workspace with _ | ⟨best, restWs⟩
      · -- absorb into the empty workspace
        simp only [umLoopStep, hrtg, hnio, hwso, Prod.mk.injEq] at hstep
        obtain ⟨h1, h2⟩ := hstep
        injection h2 with h2
        subst h2
        constructor
        · refine ⟨?_, ?_, ?_, ?_, ?_, ?_, ?_, ?_, ?_, ?_⟩
          · intro i hi
            have hi2 : i ∈ [it] := hi
            simp only [List.mem_singleton] at hi2
            rw [hi2]
            exact hitv.1
          · intro i hi b hb
            have hi2 : i ∈ [it] := hi
            have hb2 : b ∈ ([it] : List (UMItem V)).head? := hb
            simp only [List.mem_singleton] at hi2
            simp only [List.head?_cons, Option.mem_def, Option.some.injEq] at hb2
            rw [hi2, ← hb2]
          · show ([it] : List (UMItem V)).Pairwise _
            simp
          · intro it2 hit2
            have hit3 : st.iter.head? = some it2 := hit2
            obtain ⟨t, ht⟩ := List.head?_eq_some_iff.mp hit3
            refine ⟨hiv it2 (by rw [ht]; simp), ?_, ?_⟩
            · intro r hr2
              have hr3 : r ∈ st.iter.tail := hr2
              rw [ht] at hic hr3
              exact chain_head_le_gen (fun i => i.1.1.1) it2 t hic r (by simpa using hr3)
            · intro b hb
              have hb2 : b ∈ ([it] : List (UMItem V)).head? := hb
              simp only [List.head?_cons, Option.mem_def, Option.some.injEq] at hb2
              rw [← hb2]
              exact hitv.2.1 it2 (List.mem_of_mem_head? hit3)
          · intro h
            have h2 : st.iter.head? = none := h
            show st.iter.tail = []
            rw [List.head?_eq_none_iff.mp h2]
            rfl
          · exact hic.tail
          · intro r hr2
            exact hiv r (List.mem_of_mem_tail hr2)
          · intro g hgeq
            have hgeq2 : st.gather = some g := hgeq
            obtain ⟨hg1, _, hg3⟩ := hg g hgeq2
            refine ⟨hg1, ?_, ?_⟩
            · intro b hb
              have hb2 : b ∈ ([it] : List (UMItem V)).head? := hb
              simp only [List.head?_cons, Option.mem_def, Option.some.injEq] at hb2
              rw [← hb2]
              exact hg3 it hnio
            · intro it2 hit2
              have hit3 : st.iter.head? = some it2 := hit2
              have h4 := hitv.2.1 it2 (List.mem_of_mem_head? hit3)
              have h5 := hg3 it hnio
              omega
          · intro v hveq
            have hveq2 : (none : Option (Rg × V)) = some v := hveq
            simp at hveq2
          · show ((([it] ++ st.iter.head?.toList) ++ st.iter.tail).map
              (fun i => i.2)).Nodup
            rw [List.append_assoc, head_toList_tail]
            have hnd2 := hnd
            simp only [umRemaining, hwso, hnio, Option.toList_some, List.nil_append] at hnd2
            exact hnd2
        · have hf2 := umAbsorbFlag_le_one { st with
            workspace := [it]
            nextItem := st.iter.head?
            iter := st.iter.tail }
          have hlen := tail_head_length st.iter
          have hf1 : umAbsorbFlag st = 1 := by
            unfold umAbsorbFlag
            rw [hnio, hwso]
          simp only [umMeasure, hrtg, hnio, hwso, hf1] at hf2 ⊢
          simp only [List.length_nil, List.length_cons, Option.toList_some,
            List.length_singleton, Option.toList_none] at hf2 ⊢
          omega
      · by_cases heq : it.1.1.1 = best.1.1.1
        · -- absorb at the shared start: push or drop
          have hfresh : ∀ a ∈ st.workspace, a.2 ≠ it.2 := by
            have hnd2 := hnd
            simp only [umRemaining, hnio, Option.toList_some] at hnd2
            exact nodup_middle_ne st.workspace st.iter it hnd2
          have hstarts : ∀ i ∈ st.workspace, i.1.1.1 = best.1.1.1 := by
            intro i hi
            exact hws i hi best (by rw [hwso]; simp)
          by_cases hpush : it.2 < best.2 ∨ best.1.1.2 < it.1.1.2
          · simp only [umLoopStep, hrtg, hnio, hwso, if_pos heq, Prod.mk.injEq] at hstep
            rw [if_pos hpush] at hstep
            obtain ⟨h1, h2⟩ := hstep
            injection h2 with h2
            subst h2
            rw [← hwso]
            have hall : ∀ i ∈ heapInsert it st.workspace, i.1.1.1 = best.1.1.1 := by
              intro i hi
              rcases (heapInsert_mem it i st.workspace).mp hi with rfl | hi2
              · exact heq
              · exact hstarts i hi2
            constructor
            · refine ⟨?_, ?_, ?_, ?_, ?_, ?_, ?_, ?_, ?_, ?_⟩
              · intro i hi
                have hi2 : i ∈ heapInsert it st.workspace := hi
                rcases (heapInsert_mem it i st.workspace).mp hi2 with rfl | hi3
                · exact hitv.1
                · exact hwv i hi3
              · intro i hi b hb
                have hi2 : i ∈ heapInsert it st.workspace := hi
                have hb2 : b ∈ (heapInsert it st.workspace).head? := hb
                rw [hall i hi2, hall b (List.mem_of_mem_head? hb2)]
              · exact heapInsert_pairwise it st.workspace hwp hfresh
              · intro it2 hit2
                have hit3 : st.iter.head? = some it2 := hit2
                obtain ⟨t, ht⟩ := List.head?_eq_some_iff.mp hit3
                refine ⟨hiv it2 (by rw [ht]; simp), ?_, ?_⟩
                · intro r hr2
                  have hr3 : r ∈ st.iter.tail := hr2
                  rw [ht] at hic hr3
                  exact chain_head_le_gen (fun i => i.1.1.1) it2 t hic r
                    (by simpa using hr3)
                · intro b hb
                  have hb2 : b ∈ (heapInsert it st.workspace).head? := hb
                  rw [hall b (List.mem_of_mem_head? hb2)]
                  have h4 := hitv.2.2 best (by rw [hwso]; simp)
                  have h5 := hitv.2.1 it2 (List.mem_of_mem_head? hit3)
                  omega
              · intro h
                have h2 : st.iter.head? = none := h
                show st.iter.tail = []
                rw [List.head?_eq_none_iff.mp h2]
                rfl
              · exact hic.tail
              · intro r hr2
                exact hiv r (List.mem_of_mem_tail hr2)
              · intro g hgeq
                have hgeq2 : st.gather = some g := hgeq
                obtain ⟨hg1, hg2, hg3⟩ := hg g hgeq2
                refine ⟨hg1, ?_, ?_⟩
                · intro b hb
                  have hb2 : b ∈ (heapInsert it st.workspace).head? := hb
                  rw [hall b (List.mem_of_mem_head? hb2)]
                  exact hg2 best (by rw [hwso]; simp)
                · intro it2 hit2
                  have hit3 : st.iter.head? = some it2 := hit2
                  have h4 := hitv.2.1 it2 (List.mem_of_mem_head? hit3)
                  have h5 := hg3 it hnio
                  omega
              · intro v hveq
                have hveq2 : (none : Option (Rg × V)) = some v := hveq
                simp at hveq2
              · show (((heapInsert it st.workspace ++ st.iter.head?.toList) ++
                  st.iter.tail).map (fun i => i.2)).Nodup
                have hperm : ((heapInsert it st.workspace ++ st.iter.head?.toList) ++
                    st.iter.tail).Perm ((st.workspace ++ [it]) ++ st.iter) := by
                  rw [List.append_assoc, head_toList_tail]
                  refine ((heapInsert_perm it st.workspace).append_right _).trans ?_
                  apply List.Perm.append_right
                  exact (List.perm_append_singleton it st.workspace).symm
                apply nodup_map_perm hperm
                have hnd2 := hnd
                simp only [umRemaining, hnio, Option.toList_some] at hnd2
                exact hnd2
            · have hf2 := umAbsorbFlag_le_one { st with
                workspace := heapInsert it st.workspace
                nextItem := st.iter.head?
                iter := st.iter.tail }
              have hlen := tail_head_length st.iter
              have hf1 : umAbsorbFlag st = 0 := by
                unfold umAbsorbFlag
                rw [hnio, hwso]
                simp [heq]
              have hil := heapInsert_length it st.workspace
              simp only [umMeasure, hrtg, hnio, hf1] at hf2 ⊢
              simp only [Option.toList_some, List.length_singleton,
                Option.toList_none, List.length_nil] at hf2 ⊢
              omega
          · simp only [umLoopStep, hrtg, hnio, hwso, if_pos heq, Prod.mk.injEq] at hstep
            rw [if_neg hpush] at hstep
            obtain ⟨h1, h2⟩ := hstep
            injection h2 with h2
            subst h2
            rw [← hwso]
            constructor
            · refine ⟨hwv, hws, hwp, ?_, ?_, hic.tail, ?_, ?_, ?_, ?_⟩
              · intro it2 hit2
                have hit3 : st.iter.head? = some it2 := hit2
                obtain ⟨t, ht⟩ := List.head?_eq_some_iff.mp hit3
                refine ⟨hiv it2 (by rw [ht]; simp), ?_, ?_⟩
                · intro r hr2
                  have hr3 : r ∈ st.iter.tail := hr2
                  rw [ht] at hic hr3
                  exact chain_head_le_gen (fun i => i.1.1.1) it2 t hic r
                    (by simpa using hr3)
                · intro b hb
                  have h4 := hni it hnio
                  have h5 := h4.2.2 b hb
                  have h6 := h4.2.1 it2 (List.mem_of_mem_head? hit3)
                  omega
              · intro h
                have h2 : st.iter.head? = none := h
                show st.iter.tail = []
                rw [List.head?_eq_none_iff.mp h2]
                rfl
              · intro r hr2
                exact hiv r (List.mem_of_mem_tail hr2)
              · intro g hgeq
                have hgeq2 : st.gather = some g := hgeq
                obtain ⟨hg1, hg2, hg3⟩ := hg g hgeq2
                refine ⟨hg1, hg2, ?_⟩
                intro it2 hit2
                have hit3 : st.iter.head? = some it2 := hit2
                have h4 := hitv.2.1 it2 (List.mem_of_mem_head? hit3)
                have h5 := hg3 it hnio
                omega
              · intro v hveq
                have hveq2 : (none : Option (Rg × V)) = some v := hveq
                simp at hveq2
              · show (((st.workspace ++ st.iter.head?.toList) ++
                  st.iter.tail).map (fun i => i.2)).Nodup
                rw [List.append_assoc, head_toList_tail]
                have hsub : (st.workspace ++ st.iter).Sublist
                    ((st.workspace ++ [it]) ++ st.iter) := by
                  rw [List.append_assoc]
                  exact (List.sublist_cons_self it st.iter).append_left st.workspace
                have hnd2 := hnd
                simp only [umRemaining, hnio, Option.toList_some] at hnd2
                exact List.Nodup.sublist (hsub.map _) hnd2
            · have hf2 := umAbsorbFlag_le_one { st with
                nextItem := st.iter.head?
                iter := st.iter.tail }
              have hlen := tail_head_length st.iter
              have hf1 : umAbsorbFlag st = 0 := by
                unfold umAbsorbFlag
                rw [hnio, hwso]
                simp [heq]
              simp only [umMeasure, hrtg, hnio, hf1] at hf2 ⊢
              simp only [Option.toList_some, List.length_singleton,
                Option.toList_none, List.length_nil] at hf2 ⊢
              omega
        · -- held lookahead: emission step
          obtain ⟨ne, g2, r2, hemit, hnedef, hcases⟩ := umEmit_shape st best restWs hwso
          rw [hnio] at hnedef
          simp only [Option.elim_some] at hnedef
          have hbv : best.1.1.1 ≤ best.1.1.2 := hwv best (by rw [hwso]; simp)
          have hblt : best.1.1.1 ≤ it.1.1.1 := hitv.2.2 best (by rw [hwso]; simp)
          have hflag : umAbsorbFlag st = 1 := by
            unfold umAbsorbFlag
            rw [hnio, hwso]
            simp [heq]
          simp only [umLoopStep, hrtg, hnio, hwso, if_neg heq] at hstep
          rw [hemit, Prod.mk.injEq] at hstep
          obtain ⟨h1, h2⟩ := hstep
          injection h2 with h2
          subst h2
          have hne1 : ne ≤ it.1.1.1 - 1 := by
            rw [hnedef]
            exact min_le_left _ _
          have hne2 : ne ≤ best.1.1.2 := by
            rw [hnedef]
            exact min_le_right _ _
          have hne5 : best.1.1.1 ≤ ne := by
            rw [hnedef]
            refine le_min (by omega) hbv
          have hmcase2 : best.1.1.2 ≤ ne ∨ (ne < best.1.1.2 ∧
              ∃ it2, st.nextItem = some it2 ∧ ne + 1 = it2.1.1.1) := by
            rcases le_or_lt best.1.1.2 (it.1.1.1 - 1) with hc | hc
            · left
              have := hnedef ▸ min_eq_right hc
              omega
            · have h4 : ne = it.1.1.1 - 1 := by
                rw [hnedef]
                exact min_eq_left (by omega)
              right
              refine ⟨by omega, it, hnio, by omega⟩
          have hnelt2 : ∀ it2, st.nextItem = some it2 → ne + 1 ≤ it2.1.1.1 := by
            intro it2 hit2
            rw [hnio] at hit2
            injection hit2 with hit2
            rw [← hit2]
            omega
          exact umEmit_preserve_core st best restWs ne g2 r2
            ⟨hwv, hws, hwp, hni, hnn, hic, hiv, hg, hr, hnd⟩ hwso hrtg hflag
            hne5 hnelt2 hmcase2 hcases
  · -- hand over the buffered range
    simp only [umLoopStep, hrtg, Prod.mk.injEq] at hstep
    obtain ⟨h1, h2⟩ := hstep
    injection h2 with h2
    subst h2
    constructor
    · refine ⟨hwv, hws, hwp, hni, hnn, hic, hiv, hg, ?_, hnd⟩
      intro v2 hv2
      have hv3 : (none : Option (Rg × V)) = some v2 := hv2
      simp at hv3
    · have hfeq : umAbsorbFlag { st with readyToGo := none } = umAbsorbFlag st := rfl
      simp only [umMeasure, hfeq, hrtg]
      simp only [Option.toList_some, List.length_singleton, Option.toList_none,
        List.length_nil]
      omega

/-- All pending material of a `UnionIterMap` state lies at or after `c`. -/
def umLbOK {V : Type} (c : ℤ) (st : UMState V) : Prop :=
  (∀ v, st.readyToGo = some v → c ≤ v.1.1) ∧
  (∀ g, st.gather = some g → c ≤ g.1.1) ∧
  (∀ i ∈ st.workspace, c ≤ i.1.1.1) ∧
  (∀ it, st.nextItem = some it → c ≤ it.1.1.1) ∧
  (∀ r ∈ st.iter, c ≤ r.1.1.1)

/-- One `UnionIterMap` iteration keeps every returned pair and all pending
material at or after `c`. -/
theorem umLoopStep_lb {V : Type} [DecidableEq V] (st : UMState V) (c : ℤ)
    (hinv : UMInv st) (hlb : umLbOK c st) :
    ∀ (out : List (Rg × V)) (os : Option (UMState V)), umLoopStep st = (out, os) →
      (∀ p ∈ out, c ≤ p.1.1) ∧ ∀ st2, os = some st2 → umLbOK c st2 := by
  obtain ⟨hwv, hws, hwp, hni, hnn, hic, hiv, hg, hr, hnd⟩ := hinv
  obtain ⟨hbr, hbg, hbw, hbn, hbi⟩ := hlb
  intro out os hstep
  have hemitlb : ∀ (best : UMItem V) (restWs : List (UMItem V)) (ne : ℤ)
      (g2 r2 : Option (Rg × V)),
      st.workspace = best :: restWs → best.1.1.1 ≤ ne →
      ((∃ g, st.gather = some g ∧ g.2 = best.1.2 ∧ g.1.2 + 1 = best.1.1.1 ∧
          g2 = some ((g.1.1, ne), g.2) ∧ r2 = none) ∨
       (∃ g, st.gather = some g ∧ ¬(g.2 = best.1.2 ∧ g.1.2 + 1 = best.1.1.1) ∧
          g2 = some ((best.1.1.1, ne), best.1.2) ∧ r2 = some g) ∨
       (st.gather = none ∧ g2 = some ((best.1.1.1, ne), best.1.2) ∧ r2 = none)) →
      umLbOK c { st with
        workspace := umTrimGo ne st.workspace []
        gather := g2
        readyToGo := r2 } := by
    intro best restWs ne g2 r2 hwso hs0ne hcases
    obtain ⟨T1, _, _, _, _, _⟩ := umTrimGo_facts ne st.workspace [] hwp
      (by simp) (by simp) (by simp)
    have hcbest : c ≤ best.1.1.1 := hbw best (by rw [hwso]; simp)
    refine ⟨?_, ?_, ?_, ?_, ?_⟩
    · intro v hveq
      have hveq2 : r2 = some v := hveq
      rcases hcases with ⟨g, hgo, _, _, _, hr2eq⟩ | ⟨g, hgo, _, _, hr2eq⟩ |
        ⟨hgo, _, hr2eq⟩ <;> rw [hr2eq] at hveq2
      · simp at hveq2
      · injection hveq2 with hveq2
        rw [← hveq2]
        exact hbg g hgo
      · simp at hveq2
    · intro g' hg'eq
      have hg'eq2 : g2 = some g' := hg'eq
      rcases hcases with ⟨g, hgo, _, _, hg2eq, _⟩ | ⟨g, hgo, _, hg2eq, _⟩ |
        ⟨hgo, hg2eq, _⟩ <;> rw [hg2eq] at hg'eq2 <;> injection hg'eq2 with hg'eq2 <;>
        rw [← hg'eq2]
      · exact hbg g hgo
      · exact hcbest
      · exact hcbest
    · intro i hi
      have hi2 : i ∈ umTrimGo ne st.workspace [] := hi
      have := T1 i hi2
      omega
    · intro it hit
      exact hbn it hit
    · intro r hr2
      exact hbi r hr2
  rcases hrtg : st.readyToGo with _ | v
  · rcases hnio : st.nextItem with _ | it
    · rcases hwso : st.workspace with _ | ⟨best, restWs⟩
      · -- terminal: return the gather and stop
        simp only [umLoopStep, hrtg, hnio, umEmit, hwso, Prod.mk.injEq] at hstep
        obtain ⟨h1, h2⟩ := hstep
        subst h1
        subst h2
        refine ⟨?_, by intro st2 h; simp at h⟩
        intro p hp
        rcases hgo : st.gather with _ | g
        · rw [hgo] at hp
          simp at hp
        · rw [hgo] at hp
          simp only [Option.toList_some, List.mem_singleton] at hp
          subst hp
          exact hbg p hgo
      · obtain ⟨ne, g2, r2, hemit, hnedef, hcases⟩ := umEmit_shape st best restWs hwso
        rw [hnio] at hnedef
        simp only [Option.elim_none] at hnedef
        have hbv : best.1.1.1 ≤ best.1.1.2 := hwv best (by rw [hwso]; simp)
        simp only [umLoopStep, hrtg, hnio, hemit, Prod.mk.injEq] at hstep
        obtain ⟨h1, h2⟩ := hstep
        subst h1
        subst h2
        refine ⟨by intro p hp; simp at hp, ?_⟩
        intro st2 h
        injection h with h
        subst h
        rw [← hnio]
        exact hemitlb best restWs ne g2 r2 hwso (by omega) hcases
    · rcases hwso : st.workspace with _ | ⟨best, restWs⟩
      · simp only [umLoopStep, hrtg, hnio, hwso, Prod.mk.injEq] at hstep
        obtain ⟨h1, h2⟩ := hstep
        subst h1
        subst h2
        refine ⟨by intro p hp; simp at hp, ?_⟩
        intro st2 h
        injection h with h
        subst h
        refine ⟨?_, hbg, ?_, ?_, ?_⟩
        · intro v hveq
          have hveq2 : (none : Option (Rg × V)) = some v := hveq
          simp at hveq2
        · intro i hi
          have hi2 : i ∈ [it] := hi
          simp only [List.mem_singleton] at hi2
          rw [hi2]
          exact hbn it hnio
        · intro it2 hit2
          have hit3 : st.iter.head? = some it2 := hit2
          exact hbi it2 (List.mem_of_mem_head? hit3)
        · intro r hr2
          have hr3 : r ∈ st.iter.tail := hr2
          exact hbi r (List.mem_of_mem_tail hr3)
      · by_cases heq : it.1.1.1 = best.1.1.1
        · by_cases hpush : it.2 < best.2 ∨ best.1.1.2 < it.1.1.2
          all_goals simp only [umLoopStep, hrtg, hnio, hwso, if_pos heq,
            Prod.mk.injEq] at hstep
          · rw [if_pos hpush] at hstep
            obtain ⟨h1, h2⟩ := hstep
            subst h1
            subst h2
            refine ⟨by intro p hp; simp at hp, ?_⟩
            intro st2 h
            injection h with h
            subst h
            refine ⟨?_, hbg, ?_, ?_, ?_⟩
            · intro v hveq
              have hveq2 : (none : Option (Rg × V)) = some v := hveq
              simp at hveq2
            · intro i hi
              have hi2 : i ∈ heapInsert it (best :: restWs) := hi
              rcases (heapInsert_mem it i _).mp hi2 with rfl | hi3
              · exact hbn i hnio
              · exact hbw i (by rw [hwso]; exact hi3)
            · intro it2 hit2
              have hit3 : st.iter.head? = some it2 := hit2
              exact hbi it2 (List.mem_of_mem_head? hit3)
            · intro r hr2
              have hr3 : r ∈ st.iter.tail := hr2
              exact hbi r (List.mem_of_mem_tail hr3)
          · rw [if_neg hpush] at hstep
            obtain ⟨h1, h2⟩ := hstep
            subst h1
            subst h2
            refine ⟨by intro p hp; simp at hp, ?_⟩
            intro st2 h
            injection h with h
            subst h
            refine ⟨?_, hbg, ?_, ?_, ?_⟩
            · intro v hveq
              have hveq2 : (none : Option (Rg × V)) = some v := hveq
              simp at hveq2
            · intro i hi
              have hi2 : i ∈ best :: restWs := hi
              exact hbw i (by rw [hwso]; exact hi2)
            · intro it2 hit2
              have hit3 : st.iter.head? = some it2 := hit2
              exact hbi it2 (List.mem_of_mem_head? hit3)
            · intro r hr2
              have hr3 : r ∈ st.iter.tail := hr2
              exact hbi r (List.mem_of_mem_tail hr3)
        · obtain ⟨ne, g2, r2, hemit, hnedef, hcases⟩ := umEmit_shape st best restWs hwso
          rw [hnio] at hnedef
          simp only [Option.elim_some] at hnedef
          have hbv : best.1.1.1 ≤ best.1.1.2 := hwv best (by rw [hwso]; simp)
          have hblt : best.1.1.1 ≤ it.1.1.1 := (hni it hnio).2.2 best (by rw [hwso]; simp)
          have hne5 : best.1.1.1 ≤ ne := by
            rw [hnedef]
            exact le_min (by omega) hbv
          simp only [umLoopStep, hrtg, hnio, hwso, if_neg heq] at hstep
          rw [hemit, Prod.mk.injEq] at hstep
          obtain ⟨h1, h2⟩ := hstep
          subst h1
          subst h2
          refine ⟨by intro p hp; simp at hp, ?_⟩
          intro st2 h
          injection h with h
          subst h
          exact hemitlb best restWs ne g2 r2 hwso hne5 hcases
  · simp only [umLoopStep, hrtg, Prod.mk.injEq] at hstep
    obtain ⟨h1, h2⟩ := hstep
    subst h1
    subst h2
    refine ⟨?_, ?_⟩
    · intro p hp
      simp only [List.mem_singleton] at hp
      rw [hp]
      exact hbr v hrtg
    · intro st2 h
      injection h with h
      subst h
      refine ⟨?_, hbg, hbw, hbn, hbi⟩
      intro v2 hv2
      have hv3 : (none : Option (Rg × V)) = some v2 := hv2
      simp at hv3

/-- Lower-bound propagation for the whole `UnionIterMap` run. -/
theorem umRun_lb {V : Type} [DecidableEq V] : ∀ (fuel : ℕ) (st : UMState V) (c : ℤ),
    UMInv st → umLbOK c st → ∀ p ∈ umRun fuel st, c ≤ p.1.1 := by
  intro fuel
  induction fuel with
  | zero =>
    intro st c _ _ p hp
    simp [umRun] at hp
  | succ fuel ih =>
    intro st c hinv hlb p hp
    rcases hstep : umLoopStep st with ⟨out, os⟩
    obtain ⟨hout, hnext⟩ := umLoopStep_lb st c hinv hlb out os hstep
    rcases os with _ | st2
    · have hrun : umRun (fuel + 1) st = out := by simp [umRun, hstep]
      rw [hrun] at hp
      exact hout p hp
    · have hrun : umRun (fuel + 1) st = out ++ umRun fuel st2 := by
        simp [umRun, hstep]
      rw [hrun] at hp
      rcases List.mem_append.mp hp with h | h
      · exact hout p h
      · exact ih st2 c (umLoopStep_preserve st hinv out st2 hstep).1 (hnext st2 rfl) p h

/-- A terminating `UnionIterMap` iteration returns exactly the gather (and
arises only with an exhausted state). -/
theorem umLoopStep_none_shape {V : Type} [DecidableEq V] (st : UMState V) :
    ∀ out, umLoopStep st = (out, none) →
      out = st.gather.toList ∧ st.readyToGo = none ∧ st.workspace = [] ∧
        st.nextItem = none := by
  intro out hstep
  rcases hrtg : st.readyToGo with _ | v
  · rcases hnio : st.nextItem with _ | it
    · rcases hwso : st.workspace with _ | ⟨best, restWs⟩
      · simp only [umLoopStep, hrtg, hnio, umEmit, hwso, Prod.mk.injEq] at hstep
        exact ⟨hstep.1.symm, rfl, rfl, rfl⟩
      · obtain ⟨ne, g2, r2, hemit, _, _⟩ := umEmit_shape st best restWs hwso
        simp only [umLoopStep, hrtg, hnio, hemit, Prod.mk.injEq] at hstep
        exact absurd hstep.2 (by simp)
    · rcases hwso : st.workspace with _ | ⟨best, restWs⟩
      · simp only [umLoopStep, hrtg, hnio, hwso, Prod.mk.injEq] at hstep
        exact absurd hstep.2 (by simp)
      · by_cases heq : it.1.1.1 = best.1.1.1
        · simp only [umLoopStep, hrtg, hnio, hwso, if_pos heq, Prod.mk.injEq] at hstep
          exact absurd hstep.2 (by simp)
        · obtain ⟨ne, g2, r2, hemit, _, _⟩ := umEmit_shape st best restWs hwso
          simp only [umLoopStep, hrtg, hnio, hwso, if_neg heq] at hstep
          rw [hemit, Prod.mk.injEq] at hstep
          exact absurd hstep.2 (by simp)
  · simp only [umLoopStep, hrtg, Prod.mk.injEq] at hstep
    exact absurd hstep.2 (by simp)

/-- A continuing `UnionIterMap` iteration returns nothing, or hands over
exactly the buffered `ready_to_go` pair. -/
theorem umLoopStep_some_shape {V : Type} [DecidableEq V] (st : UMState V) :
    ∀ out st2, umLoopStep st = (out, some st2) →
      out = [] ∨ ∃ v, out = [v] ∧ st.readyToGo = some v ∧
        st2 = { st with readyToGo := none } := by
  intro out st2 hstep
  rcases hrtg : st.readyToGo with _ | v
  · left
    rcases hnio : st.nextItem with _ | it
    · rcases hwso : st.workspace with _ | ⟨best, restWs⟩
      · simp only [umLoopStep, hrtg, hnio, umEmit, hwso, Prod.mk.injEq] at hstep
        exact absurd hstep.2 (by simp)
      · obtain ⟨ne, g2, r2, hemit, _, _⟩ := umEmit_shape st best restWs hwso
        simp only [umLoopStep, hrtg, hnio, hemit, Prod.mk.injEq] at hstep
        exact hstep.1.symm
    · rcases hwso : st.workspace with _ | ⟨best, restWs⟩
      · simp only [umLoopStep, hrtg, hnio, hwso, Prod.mk.injEq] at hstep
        exact hstep.1.symm
      · by_cases heq : it.1.1.1 = best.1.1.1
        · simp only [umLoopStep, hrtg, hnio, hwso, if_pos heq, Prod.mk.injEq] at hstep
          exact hstep.1.symm
        · obtain ⟨ne, g2, r2, hemit, _, _⟩ := umEmit_shape st best restWs hwso
          simp only [umLoopStep, hrtg, hnio, hwso, if_neg heq] at hstep
          rw [hemit, Prod.mk.injEq] at hstep
          exact hstep.1.symm
  · right
    simp only [umLoopStep, hrtg, Prod.mk.injEq] at hstep
    obtain ⟨h1, h2⟩ := hstep
    injection h2 with h2
    exact ⟨v, h1.symm, rfl, h2.symm⟩

/-- After handing over the buffered pair with no gather present, everything
still pending starts at least two past its end. -/
theorem umRtg_lb {V : Type} (st : UMState V) (hinv : UMInv st) (v : Rg × V)
    (hrtg : st.readyToGo = some v) (hgn : st.gather = none) :
    umLbOK (v.1.2 + 2) { st with readyToGo := none } := by
  obtain ⟨hwv, hws, hwp, hni, hnn, hic, hiv, hg, hr, hnd⟩ := hinv
  have hv3 := (hr v hrtg).2.2 hgn
  refine ⟨?_, ?_, ?_, ?_, ?_⟩
  · intro v2 hv2
    have hv4 : (none : Option (Rg × V)) = some v2 := hv2
    simp at hv4
  · intro g hgeq
    have hgeq2 : st.gather = some g := hgeq
    rw [hgn] at hgeq2
    simp at hgeq2
  · intro i hi
    have hi2 : i ∈ st.workspace := hi
    rcases hwso : st.workspace with _ | ⟨b, t⟩
    · rw [hwso] at hi2
      simp at hi2
    · have hib : i.1.1.1 = b.1.1.1 := by
        rw [hwso] at hi2
        exact hws i (by rw [hwso]; exact hi2) b (by rw [hwso]; simp)
      have := hv3.1 b (by rw [hwso]; simp)
      omega
  · intro it hit
    have hit2 : st.nextItem = some it := hit
    have := hv3.2 it hit2
    omega
  · intro r hr2
    have hr3 : r ∈ st.iter := hr2
    rcases hnio : st.nextItem with _ | it
    · rw [hnn hnio] at hr3
      simp at hr3
    · have h1 := (hni it hnio).2.1 r hr3
      have h2 := hv3.2 it hnio
      omega

/-- First-output characterization: a buffered `ready_to_go` pair is
returned first; otherwise the pending gather is returned first, possibly
extended to the right. -/
theorem umRun_head {V : Type} [DecidableEq V] : ∀ (fuel : ℕ) (st : UMState V),
    UMInv st → umMeasure st ≤ fuel →
    (∀ v, st.readyToGo = some v → (umRun fuel st).head? = some v) ∧
    (st.readyToGo = none → ∀ g, st.gather = some g →
      ∃ e2, g.1.2 ≤ e2 ∧ (umRun fuel st).head? = some ((g.1.1, e2), g.2)) := by
  intro fuel
  induction fuel with
  | zero =>
    intro st _ hm
    exfalso
    unfold umMeasure at hm
    omega
  | succ fuel ih =>
    intro st hinv hm
    obtain ⟨hwv, hws, hwp, hni, hnn, hic, hiv, hg, hr, hnd⟩ := hinv
    constructor
    · intro v hrtg
      have hrun : umRun (fuel + 1) st =
          [v] ++ (match (umLoopStep st).2 with
            | none => []
            | some st2 => umRun fuel st2) := by
        simp [umRun, umLoopStep, hrtg]
      rw [hrun]
      simp
    · intro hrtg g hgo
      rcases hnio : st.nextItem with _ | it
      · rcases hwso : st.workspace with _ | ⟨best, restWs⟩
        · -- terminal: the gather comes out now
          have hrun : umRun (fuel + 1) st = st.gather.toList := by
            simp [umRun, umLoopStep, hrtg, hnio, umEmit, hwso]
          rw [hrun, hgo]
          exact ⟨g.1.2, le_refl _, by simp⟩
        · -- emission with no lookahead
          obtain ⟨ne, g2, r2, hemit, hnedef, hcases⟩ := umEmit_shape st best restWs hwso
          rw [hnio] at hnedef
          simp only [Option.elim_none] at hnedef
          have hbv : best.1.1.1 ≤ best.1.1.2 := hwv best (by rw [hwso]; simp)
          have hstep : umLoopStep st = ([], some { st with
              workspace := umTrimGo ne st.workspace []
              gather := g2
              readyToGo := r2 }) := by
            simp only [umLoopStep, hrtg, hnio, hemit]
          have hflag : umAbsorbFlag st = 1 := by
            unfold umAbsorbFlag
            rw [hnio]
          obtain ⟨hinv2, hdec⟩ := umLoopStep_preserve st
            ⟨hwv, hws, hwp, hni, hnn, hic, hiv, hg, hr, hnd⟩ _ _ hstep
          have hrun : umRun (fuel + 1) st = umRun fuel { st with
              workspace := umTrimGo ne st.workspace []
              gather := g2
              readyToGo := r2 } := by
            simp [umRun, hstep]
          rw [hrun]
          have hih := ih _ hinv2 (by omega)
          rcases hcases with ⟨g', hgo2, hveq, htouch, hg2eq, hr2eq⟩ |
            ⟨g', hgo2, hnm, hg2eq, hr2eq⟩ | ⟨hgo2, _, _⟩
          · -- merged: gather extended to the emission boundary
            rw [hgo] at hgo2
            injection hgo2 with hgo2
            subst hgo2
            obtain ⟨e2, he2a, he2b⟩ := hih.2 (by rw [hr2eq])
              ((g.1.1, ne), g.2) (by rw [hg2eq])
            simp only at he2a
            have hgv : g.1.2 + 1 = best.1.1.1 := htouch
            refine ⟨e2, by omega, he2b⟩
          · -- not merged: the old gather is buffered and comes out next
            rw [hgo] at hgo2
            injection hgo2 with hgo2
            subst hgo2
            have := hih.1 g (by rw [hr2eq])
            exact ⟨g.1.2, le_refl _, this⟩
          · rw [hgo] at hgo2
            simp at hgo2
      · rcases hwso : st.workspace with _ | ⟨best, restWs⟩
        · -- absorb into the empty workspace
          have hstep : umLoopStep st = ([], some { st with
              workspace := [it]
              nextItem := st.iter.head?
              iter := st.iter.tail }) := by
            simp only [umLoopStep, hrtg, hnio, hwso]
          obtain ⟨hinv2, hdec⟩ := umLoopStep_preserve st
            ⟨hwv, hws, hwp, hni, hnn, hic, hiv, hg, hr, hnd⟩ _ _ hstep
          have hrun : umRun (fuel + 1) st = umRun fuel { st with
              workspace := [it]
              nextItem := st.iter.head?
              iter := st.iter.tail } := by
            simp [umRun, hstep]
          rw [hrun]
          exact (ih _ hinv2 (by omega)).2 (by exact hrtg) g (by exact hgo)
        · by_cases heq : it.1.1.1 = best.1.1.1
          · by_cases hpush : it.2 < best.2 ∨ best.1.1.2 < it.1.1.2
            · have hstep : umLoopStep st = ([], some { st with
                  workspace := heapInsert it st.workspace
                  nextItem := st.iter.head?
                  iter := st.iter.tail }) := by
                simp only [umLoopStep, hrtg, hnio, hwso, if_pos heq]
                rw [if_pos hpush, ← hwso]
              obtain ⟨hinv2, hdec⟩ := umLoopStep_preserve st
                ⟨hwv, hws, hwp, hni, hnn, hic, hiv, hg, hr, hnd⟩ _ _ hstep
              have hrun : umRun (fuel + 1) st = umRun fuel { st with
                  workspace := heapInsert it st.workspace
                  nextItem := st.iter.head?
                  iter := st.iter.tail } := by
                simp [umRun, hstep]
              rw [hrun]
              exact (ih _ hinv2 (by omega)).2 (by exact hrtg) g (by exact hgo)
            · have hstep : umLoopStep st = ([], some { st with
                  nextItem := st.iter.head?
                  iter := st.iter.tail }) := by
                simp only [umLoopStep, hrtg, hnio, hwso, if_pos heq]
                rw [if_neg hpush, ← hwso]
              obtain ⟨hinv2, hdec⟩ := umLoopStep_preserve st
                ⟨hwv, hws, hwp, hni, hnn, hic, hiv, hg, hr, hnd⟩ _ _ hstep
              have hrun : umRun (fuel + 1) st = umRun fuel { st with
                  nextItem := st.iter.head?
                  iter := st.iter.tail } := by
                simp [umRun, hstep]
              rw [hrun]
              exact (ih _ hinv2 (by omega)).2 (by exact hrtg) g (by exact hgo)
          · -- held lookahead: emission
            obtain ⟨ne, g2, r2, hemit, hnedef, hcases⟩ := umEmit_shape st best restWs hwso
            rw [hnio] at hnedef
            simp only [Option.elim_some] at hnedef
            have hbv : best.1.1.1 ≤ best.1.1.2 := hwv best (by rw [hwso]; simp)
            have hblt : best.1.1.1 ≤ it.1.1.1 :=
              (hni it hnio).2.2 best (by rw [hwso]; simp)
            have hne5 : best.1.1.1 ≤ ne := by
              rw [hnedef]
              exact le_min (by omega) hbv
            have hstep0 : umLoopStep st = umEmit st := by
              simp only [umLoopStep, hrtg, hnio, hwso, if_neg heq]
            have hstep : umLoopStep st = ([], some { st with
                workspace := umTrimGo ne st.workspace []
                gather := g2
                readyToGo := r2 }) := hstep0.trans hemit
            obtain ⟨hinv2, hdec⟩ := umLoopStep_preserve st
              ⟨hwv, hws, hwp, hni, hnn, hic, hiv, hg, hr, hnd⟩ _ _ hstep
            have hrun : umRun (fuel + 1) st = umRun fuel { st with
                workspace := umTrimGo ne st.workspace []
                gather := g2
                readyToGo := r2 } := by
              simp [umRun, hstep]
            rw [hrun]
            have hih := ih _ hinv2 (by omega)
            rcases hcases with ⟨g', hgo2, hveq, htouch, hg2eq, hr2eq⟩ |
              ⟨g', hgo2, hnm, hg2eq, hr2eq⟩ | ⟨hgo2, _, _⟩
            · rw [hgo] at hgo2
              injection hgo2 with hgo2
              subst hgo2
              obtain ⟨e2, he2a, he2b⟩ := hih.2 (by rw [hr2eq])
                ((g.1.1, ne), g.2) (by rw [hg2eq])
              simp only at he2a
              have hgv : g.1.2 + 1 = best.1.1.1 := htouch
              refine ⟨e2, by omega, he2b⟩
            · rw [hgo] at hgo2
              injection hgo2 with hgo2
              subst hgo2
              have := hih.1 g (by rw [hr2eq])
              exact ⟨g.1.2, le_refl _, this⟩
            · rw [hgo] at hgo2
              simp at hgo2

/-- Prepending a pair that ends strictly before (and does not touch with
an equal value) a coalesced Sorted-Disjoint-Map list. -/
theorem sdm_cons {V : Type} (p : Rg × V) (l : List (Rg × V)) (hp : p.1.1 ≤ p.1.2)
    (hsd : sdMapCoalesced l)
    (hrel : ∀ b ∈ l.head?, p.1.2 < b.1.1 ∧ (p.1.2 + 1 = b.1.1 → p.2 ≠ b.2)) :
    sdMapCoalesced (p :: l) := by
  refine ⟨?_, ?_⟩
  · intro q hq
    rcases List.mem_cons.mp hq with rfl | h
    · exact hp
    · exact hsd.1 q h
  · rw [List.chain'_cons']
    exact ⟨hrel, hsd.2⟩

/-- The output stream of `UnionIterMap` from any invariant state is
Sorted-Disjoint with maximal equal-valued runs coalesced. -/
theorem umRun_sd {V : Type} [DecidableEq V] : ∀ (fuel : ℕ) (st : UMState V),
    UMInv st → umMeasure st ≤ fuel → sdMapCoalesced (umRun fuel st) := by
  intro fuel
  induction fuel with
  | zero =>
    intro st _ hm
    exfalso
    unfold umMeasure at hm
    omega
  | succ fuel ih =>
    intro st hinv hm
    rcases hstep : umLoopStep st with ⟨out, os⟩
    rcases os with _ | st2
    · have hrun : umRun (fuel + 1) st = out := by simp [umRun, hstep]
      rw [hrun]
      obtain ⟨h1, _, _, _⟩ := umLoopStep_none_shape st out hstep
      subst h1
      rcases hgo : st.gather with _ | g
      · exact ⟨by simp, by simp⟩
      · refine ⟨?_, by simp⟩
        intro q hq
        simp only [Option.toList_some, List.mem_singleton] at hq
        subst hq
        exact (hinv.2.2.2.2.2.2.2.1 q hgo).1
    · obtain ⟨hinv2, hdec⟩ := umLoopStep_preserve st hinv out st2 hstep
      have hrun : umRun (fuel + 1) st = out ++ umRun fuel st2 := by
        simp [umRun, hstep]
      rw [hrun]
      have hsd2 := ih st2 hinv2 (by omega)
      rcases umLoopStep_some_shape st out st2 hstep with rfl | ⟨v, rfl, hrtg, rfl⟩
      · simpa using hsd2
      · simp only [List.singleton_append]
        have hvv := hinv.2.2.2.2.2.2.2.2.1 v hrtg
        refine sdm_cons v _ hvv.1 hsd2 ?_
        intro b hb
        rcases hgo : st.gather with _ | g
        · -- no gather: everything pending is strictly past the buffered end
          have hlb := umRun_lb fuel _ (v.1.2 + 2) hinv2
            (umRtg_lb st hinv v hrtg hgo) b (List.mem_of_mem_head? hb)
          constructor
          · omega
          · intro ht
            omega
        · -- a gather is pending: it is the very next output
          obtain ⟨e2, he2a, he2b⟩ := (umRun_head fuel _ hinv2 (by omega)).2 rfl g
            (by exact hgo)
          rw [he2b] at hb
          simp only [Option.mem_def, Option.some.injEq] at hb
          subst hb
          obtain ⟨hv1, hv2⟩ := hvv.2.1 g hgo
          exact ⟨hv1, fun ht => hv2 ht⟩

/-- A nonempty set of covering fragments has a best-priority one. -/
theorem exists_isBest {V : Type} (x : ℤ) : ∀ l : List (UMItem V),
    (∃ j ∈ l, covers j.1.1 x) → ∃ it, isBest x l it := by
  intro l
  induction l with
  | nil =>
    rintro ⟨j, hj, _⟩
    simp at hj
  | cons a t ih =>
    rintro ⟨j, hj, hcov⟩
    by_cases hta : ∃ j2 ∈ t, covers j2.1.1 x
    · obtain ⟨b, hb1, hb2, hb3⟩ := ih hta
      by_cases hac : covers a.1.1 x
      · by_cases hab : a.2 ≤ b.2
        · refine ⟨a, by simp, hac, ?_⟩
          intro j2 hj2 hcov2
          rcases List.mem_cons.mp hj2 with rfl | hj3
          · exact le_refl _
          · exact le_trans hab (hb3 j2 hj3 hcov2)
        · refine ⟨b, List.mem_cons_of_mem _ hb1, hb2, ?_⟩
          intro j2 hj2 hcov2
          rcases List.mem_cons.mp hj2 with rfl | hj3
          · omega
          · exact hb3 j2 hj3 hcov2
      · refine ⟨b, List.mem_cons_of_mem _ hb1, hb2, ?_⟩
        intro j2 hj2 hcov2
        rcases List.mem_cons.mp hj2 with rfl | hj3
        · exact absurd hcov2 hac
        · exact hb3 j2 hj3 hcov2
    · have hja : j = a := by
        rcases List.mem_cons.mp hj with rfl | hj2
        · rfl
        · exact absurd ⟨j, hj2, hcov⟩ hta
      subst hja
      refine ⟨j, by simp, hcov, ?_⟩
      intro j2 hj2 hcov2
      rcases List.mem_cons.mp hj2 with rfl | hj3
      · exact le_refl _
      · exact absurd ⟨j2, hj3, hcov2⟩ hta

/-- Beyond the emission boundary, the workspace rebuild preserves the
best-priority covering fragment and its value. -/
theorem um_trim_best_iff {V : Type} (ne : ℤ) (ws M : List (UMItem V)) (x : ℤ) (v : V)
    (hx : ne < x)
    (hws_start : ∀ j ∈ ws, j.1.1.1 ≤ ne + 1)
    (hnd : ((ws ++ M).map (fun i => i.2)).Nodup)
    (T1 : ∀ i ∈ umTrimGo ne ws [], i.1.1.1 = ne + 1 ∧ ne < i.1.1.2)
    (T4 : ∀ i ∈ umTrimGo ne ws [], i ∈ ([] : List (UMItem V)) ∨ ∃ j ∈ ws, ne < j.1.1.2 ∧
      i = (((ne + 1, j.1.1.2), j.1.2), j.2))
    (T5 : ∀ j ∈ ws, ∀ y : ℤ, ne < y → y ≤ j.1.1.2 →
      ∃ i ∈ umTrimGo ne ws [], y ≤ i.1.1.2 ∧ i.2 ≤ j.2) :
    ((∃ it, isBest x (umTrimGo ne ws [] ++ M) it ∧ it.1.2 = v) ↔
      (∃ it, isBest x (ws ++ M) it ∧ it.1.2 = v)) := by
  have hwsnd : (ws.map (fun i : UMItem V => i.2)).Nodup := by
    rw [List.map_append, List.nodup_append] at hnd
    exact hnd.1
  have hinj : ∀ a ∈ ws, ∀ b ∈ ws, a.2 = b.2 → a = b := by
    intro a ha b hb hab
    exact List.inj_on_of_nodup_map hwsnd ha hb hab
  have htrace : ∀ i ∈ umTrimGo ne ws [], ∃ j ∈ ws, ne < j.1.1.2 ∧
      i = (((ne + 1, j.1.1.2), j.1.2), j.2) := by
    intro i hi
    rcases T4 i hi with h | h
    · simp at h
    · exact h
  -- coverage transfer: an original fragment covers x iff its trimmed image does
  have hcov_orig : ∀ j ∈ ws, ne < j.1.1.2 → x ≤ j.1.1.2 → covers j.1.1 x := by
    intro j hj _ hxe
    exact ⟨by have := hws_start j hj; omega, hxe⟩
  constructor
  · rintro ⟨it, ⟨hmem, hcov, hmin⟩, hval⟩
    rcases List.mem_append.mp hmem with hmw | hmM
    · obtain ⟨j, hj, hjl, hje⟩ := htrace it hmw
      refine ⟨j, ⟨List.mem_append_left _ hj, ?_, ?_⟩, ?_⟩
      · refine hcov_orig j hj hjl ?_
        have : it.1.1.2 = j.1.1.2 := by rw [hje]
        have hc2 := hcov.2
        omega
      · intro j2 hj2 hcov2
        rcases List.mem_append.mp hj2 with hj2w | hj2M
        · obtain ⟨i2, hi2, hi2e, hi2p⟩ := T5 j2 hj2w x hx hcov2.2
          have hi2cov : covers i2.1.1 x := ⟨by have := (T1 i2 hi2).1; omega, hi2e⟩
          have := hmin i2 (List.mem_append_left _ hi2) hi2cov
          have : it.2 ≤ i2.2 := this
          have hjit : j.2 = it.2 := by rw [hje]
          omega
        · have := hmin j2 (List.mem_append_right _ hj2M) hcov2
          have hjit : j.2 = it.2 := by rw [hje]
          omega
      · rw [hje] at hval
        exact hval
    · refine ⟨it, ⟨List.mem_append_right _ hmM, hcov, ?_⟩, hval⟩
      intro j2 hj2 hcov2
      rcases List.mem_append.mp hj2 with hj2w | hj2M
      · obtain ⟨i2, hi2, hi2e, hi2p⟩ := T5 j2 hj2w x hx hcov2.2
        have hi2cov : covers i2.1.1 x := ⟨by have := (T1 i2 hi2).1; omega, hi2e⟩
        have := hmin i2 (List.mem_append_left _ hi2) hi2cov
        omega
      · exact hmin j2 (List.mem_append_right _ hj2M) hcov2
  · rintro ⟨it, ⟨hmem, hcov, hmin⟩, hval⟩
    rcases List.mem_append.mp hmem with hmw | hmM
    · obtain ⟨i, hi, hie, hip⟩ := T5 it hmw x hx hcov.2
      obtain ⟨j3, hj3, hj3l, hj3e⟩ := htrace i hi
      have hj3cov : covers j3.1.1 x := by
        refine hcov_orig j3 hj3 hj3l ?_
        have : i.1.1.2 = j3.1.1.2 := by rw [hj3e]
        omega
      have hitj3 : it.2 ≤ j3.2 := hmin j3 (List.mem_append_left _ hj3) hj3cov
      have hij3 : i.2 = j3.2 := by rw [hj3e]
      have hpeq : j3.2 = it.2 := by omega
      have hj3it : j3 = it := hinj j3 hj3 it hmw hpeq
      refine ⟨i, ⟨List.mem_append_left _ hi, ⟨by have := (T1 i hi).1; omega, hie⟩, ?_⟩, ?_⟩
      · intro j2 hj2 hcov2
        rcases List.mem_append.mp hj2 with hj2w | hj2M
        · obtain ⟨j4, hj4, hj4l, hj4e⟩ := htrace j2 hj2w
          have hj4cov : covers j4.1.1 x := by
            refine hcov_orig j4 hj4 hj4l ?_
            have : j2.1.1.2 = j4.1.1.2 := by rw [hj4e]
            have := hcov2.2
            omega
          have := hmin j4 (List.mem_append_left _ hj4) hj4cov
          have : j2.2 = j4.2 := by rw [hj4e]
          omega
        · have := hmin j2 (List.mem_append_right _ hj2M) hcov2
          omega
      · have : i.1.2 = j3.1.2 := by rw [hj3e]
        rw [this, hj3it]
        exact hval
    · refine ⟨it, ⟨List.mem_append_right _ hmM, hcov, ?_⟩, hval⟩
      intro j2 hj2 hcov2
      rcases List.mem_append.mp hj2 with hj2w | hj2M
      · obtain ⟨j4, hj4, hj4l, hj4e⟩ := htrace j2 hj2w
        have hj4cov : covers j4.1.1 x := by
          refine hcov_orig j4 hj4 hj4l ?_
          have : j2.1.1.2 = j4.1.1.2 := by rw [hj4e]
          have := hcov2.2
          omega
        have := hmin j4 (List.mem_append_left _ hj4) hj4cov
        have : j2.2 = j4.2 := by rw [hj4e]
        omega
      · exact hmin j2 (List.mem_append_right _ hj2M) hcov2

set_option maxHeartbeats 1000000 in
/-- The emission step of `UnionIterMap` leaves the owed-output
characterization unchanged: whatever value the old state owed at `x`, the
rebuilt state owes the same. -/
theorem umEmit_rhs_core {V : Type} [DecidableEq V] (st : UMState V)
    (best : UMItem V) (restWs : List (UMItem V)) (ne : ℤ) (g2 r2 : Option (Rg × V))
    (hinv : UMInv st) (x : ℤ) (v : V)
    (hwso : st.workspace = best :: restWs)
    (hrtg : st.readyToGo = none)
    (hs0ne : best.1.1.1 ≤ ne)
    (hneb : ne ≤ best.1.1.2)
    (hnelt : ∀ it, st.nextItem = some it → ne + 1 ≤ it.1.1.1)
    (hcases :
      (∃ g, st.gather = some g ∧ g.2 = best.1.2 ∧ g.1.2 + 1 = best.1.1.1 ∧
          g2 = some ((g.1.1, ne), g.2) ∧ r2 = none) ∨
       (∃ g, st.gather = some g ∧ ¬(g.2 = best.1.2 ∧ g.1.2 + 1 = best.1.1.1) ∧
          g2 = some ((best.1.1.1, ne), best.1.2) ∧ r2 = some g) ∨
       (st.gather = none ∧ g2 = some ((best.1.1.1, ne), best.1.2) ∧ r2 = none)) :
    (umRHS x v { st with
        workspace := umTrimGo ne st.workspace []
        gather := g2
        readyToGo := r2 } ↔ umRHS x v st) := by
  obtain ⟨hwv, hws, hwp, hni, hnn, hic, hiv, hg, hr, hnd⟩ := hinv
  obtain ⟨T1, T2, T4, T6, T5, T7⟩ := umTrimGo_facts ne st.workspace [] hwp
    (by simp) (by simp) (by simp)
  have hbestm : best ∈ st.workspace := by rw [hwso]; simp
  have hws_start0 : ∀ i ∈ st.workspace, i.1.1.1 = best.1.1.1 := by
    intro i hi
    exact hws i hi best (by rw [hwso]; simp)
  have hws_min : ∀ i ∈ st.workspace, best.2 ≤ i.2 := by
    intro i hi
    rw [hwso] at hwp hi
    rw [List.pairwise_cons] at hwp
    rcases List.mem_cons.mp hi with rfl | hi2
    · exact le_refl _
    · exact le_of_lt (hwp.1 i hi2)
  have hM_nocov : ∀ j ∈ st.nextItem.toList ++ st.iter, x ≤ ne → ¬covers j.1.1 x := by
    intro j hj hxe hcv
    rcases List.mem_append.mp hj with hj2 | hj2
    · rcases hnio : st.nextItem with _ | it
      · rw [hnio] at hj2
        simp at hj2
      · rw [hnio] at hj2
        simp only [Option.toList_some, List.mem_singleton] at hj2
        subst hj2
        have := hnelt j hnio
        have := hcv.1
        omega
    · rcases hnio : st.nextItem with _ | it
      · rw [hnn hnio] at hj2
        simp at hj2
      · have h1 := (hni it hnio).2.1 j hj2
        have h2 := hnelt it hnio
        have := hcv.1
        omega
  have hrem : umRemaining st = st.workspace ++ (st.nextItem.toList ++ st.iter) := by
    simp [umRemaining, List.append_assoc]
  have hrem2 : umRemaining { st with
      workspace := umTrimGo ne st.workspace []
      gather := g2
      readyToGo := r2 } =
      umTrimGo ne st.workspace [] ++ (st.nextItem.toList ++ st.iter) := by
    simp [umRemaining, List.append_assoc]
  have hndapp : ((st.workspace ++ (st.nextItem.toList ++ st.iter)).map
      (fun i => i.2)).Nodup := by
    rw [← hrem]
    exact hnd
  have hinjrem : ∀ a ∈ st.workspace ++ (st.nextItem.toList ++ st.iter),
      ∀ b ∈ st.workspace ++ (st.nextItem.toList ++ st.iter), a.2 = b.2 → a = b := by
    intro a ha b hb hab
    exact List.inj_on_of_nodup_map hndapp ha hb hab
  have hbestA : best.1.1.1 ≤ x → x ≤ ne →
      ((∃ it, isBest x (st.workspace ++ (st.nextItem.toList ++ st.iter)) it ∧
        it.1.2 = v) ↔ v = best.1.2) := by
    intro hx1 hx2
    have hbcov : covers best.1.1 x := ⟨hx1, by omega⟩
    constructor
    · rintro ⟨it, ⟨hmem, hcov, hmin⟩, hval⟩
      have hitws : it ∈ st.workspace := by
        rcases List.mem_append.mp hmem with h | h
        · exact h
        · exact absurd hcov (hM_nocov it h hx2)
      have h1 : best.2 ≤ it.2 := hws_min it hitws
      have h2 : it.2 ≤ best.2 := hmin best (List.mem_append_left _ hbestm) hbcov
      have : it = best := hinjrem it (List.mem_append_left _ hitws) best
        (List.mem_append_left _ hbestm) (by omega)
      rw [← this, hval]
    · intro hveq
      refine ⟨best, ⟨List.mem_append_left _ hbestm, hbcov, ?_⟩, hveq.symm⟩
      intro j2 hj2 hcov2
      rcases List.mem_append.mp hj2 with h | h
      · exact hws_min j2 h
      · exact absurd hcov2 (hM_nocov j2 h hx2)
  have hbpF2 : x ≤ ne → ¬∃ it, isBest x (umTrimGo ne st.workspace [] ++
      (st.nextItem.toList ++ st.iter)) it ∧ it.1.2 = v := by
    intro hxe
    rintro ⟨it, ⟨hmem, hcov, _⟩, _⟩
    rcases List.mem_append.mp hmem with h | h
    · have := (T1 it h).1
      have := hcov.1
      omega
    · exact hM_nocov it h hxe hcov
  have hbpF1 : x < best.1.1.1 →
      ¬∃ it, isBest x (st.workspace ++ (st.nextItem.toList ++ st.iter)) it ∧
        it.1.2 = v := by
    intro hxs
    rintro ⟨it, ⟨hmem, hcov, _⟩, _⟩
    rcases List.mem_append.mp hmem with h | h
    · have := hws_start0 it h
      have := hcov.1
      omega
    · exact hM_nocov it h (by omega) hcov
  rcases hcases with ⟨g, hgo, hveq, htouch, hg2eq, hr2eq⟩ |
    ⟨g, hgo, hnm, hg2eq, hr2eq⟩ | ⟨hgo, hg2eq, hr2eq⟩
  · -- merged with a touching equal-valued gather
    subst hg2eq
    subst hr2eq
    obtain ⟨hgv, hgb2, _⟩ := hg g hgo
    have hgb : g.1.2 + 1 ≤ best.1.1.1 := hgb2 best (by rw [hwso]; simp)
    simp only [umRHS, hrtg, hgo, Option.toList_none, Option.toList_some,
      List.not_mem_nil, false_and, exists_false, List.mem_singleton, exists_eq_left,
      false_or]
    rw [hrem, hrem2]
    by_cases hx4 : ne < x
    · have hiff := um_trim_best_iff ne st.workspace (st.nextItem.toList ++ st.iter) x v
        hx4 (fun j hj => by have := hws_start0 j hj; omega) hndapp T1 T4 T5
      have hcovA : ¬covers (g.1.1, ne) x := by
        intro h
        have := h.2
        simp only at this
        omega
      have hcovB : ¬covers g.1 x := by
        intro h
        have := h.2
        omega
      constructor
      · rintro (⟨hc, hv⟩ | hb)
        · exact absurd hc hcovA
        · exact Or.inr (hiff.mp hb)
      · rintro (⟨hc, hv⟩ | hb)
        · exact absurd hc hcovB
        · exact Or.inr (hiff.mpr hb)
    · by_cases hx2 : best.1.1.1 ≤ x
      · have hbA := hbestA hx2 (by omega)
        have hbF := hbpF2 (by omega)
        have hcovA : covers (g.1.1, ne) x := ⟨by simp only; omega, by simp only; omega⟩
        have hcovB : ¬covers g.1 x := by
          intro h
          have := h.2
          omega
        constructor
        · rintro (⟨hc, hv⟩ | hb)
          · exact Or.inr (hbA.mpr (hv.symm.trans hveq))
          · exact absurd hb hbF
        · rintro (⟨hc, hv⟩ | hb)
          · exact absurd hc hcovB
          · exact Or.inl ⟨hcovA, hveq.trans (hbA.mp hb).symm⟩
      · have hbF1 := hbpF1 (by omega)
        have hbF2 := hbpF2 (by omega)
        have hcoviff : covers (g.1.1, ne) x ↔ covers g.1 x := by
          constructor
          · intro h
            exact ⟨h.1, by have := h.2; simp only at this; omega⟩
          · intro h
            exact ⟨h.1, by simp only; have := h.2; omega⟩
        constructor
        · rintro (⟨hc, hv⟩ | hb)
          · exact Or.inl ⟨hcoviff.mp hc, hv⟩
          · exact absurd hb hbF2
        · rintro (⟨hc, hv⟩ | hb)
          · exact Or.inl ⟨hcoviff.mpr hc, hv⟩
          · exact absurd hb hbF1
  · -- old gather buffered, new gather from the best item
    subst hg2eq
    subst hr2eq
    obtain ⟨hgv, hgb2, _⟩ := hg g hgo
    have hgb : g.1.2 + 1 ≤ best.1.1.1 := hgb2 best (by rw [hwso]; simp)
    simp only [umRHS, hrtg, hgo, Option.toList_none, Option.toList_some,
      List.not_mem_nil, false_and, exists_false, List.mem_singleton, exists_eq_left,
      false_or]
    rw [hrem, hrem2]
    by_cases hx4 : ne < x
    · have hiff := um_trim_best_iff ne st.workspace (st.nextItem.toList ++ st.iter) x v
        hx4 (fun j hj => by have := hws_start0 j hj; omega) hndapp T1 T4 T5
      have hcovA : ¬covers (best.1.1.1, ne) x := by
        intro h
        have := h.2
        simp only at this
        omega
      have hcovB : ¬covers g.1 x := by
        intro h
        have := h.2
        omega
      constructor
      · rintro (⟨hc, hv⟩ | ⟨hc, hv⟩ | hb)
        · exact absurd hc hcovB
        · exact absurd hc hcovA
        · exact Or.inr (hiff.mp hb)
      · rintro (⟨hc, hv⟩ | hb)
        · exact absurd hc hcovB
        · exact Or.inr (Or.inr (hiff.mpr hb))
    · by_cases hx2 : best.1.1.1 ≤ x
      · have hbA := hbestA hx2 (by omega)
        have hbF := hbpF2 (by omega)
        have hcovA : covers (best.1.1.1, ne) x := ⟨by simp only; omega, by simp only; omega⟩
        have hcovB : ¬covers g.1 x := by
          intro h
          have := h.2
          omega
        constructor
        · rintro (⟨hc, hv⟩ | ⟨hc, hv⟩ | hb)
          · exact absurd hc hcovB
          · exact Or.inr (hbA.mpr hv.symm)
          · exact absurd hb hbF
        · rintro (⟨hc, hv⟩ | hb)
          · exact absurd hc hcovB
          · exact Or.inr (Or.inl ⟨hcovA, (hbA.mp hb).symm⟩)
      · have hbF1 := hbpF1 (by omega)
        have hbF2 := hbpF2 (by omega)
        have hcovA : ¬covers (best.1.1.1, ne) x := by
          intro h
          have := h.1
          simp only at this
          omega
        constructor
        · rintro (⟨hc, hv⟩ | ⟨hc, hv⟩ | hb)
          · exact Or.inl ⟨hc, hv⟩
          · exact absurd hc hcovA
          · exact absurd hb hbF2
        · rintro (⟨hc, hv⟩ | hb)
          · exact Or.inl ⟨hc, hv⟩
          · exact absurd hb hbF1
  · -- no gather: new gather from the best item
    subst hg2eq
    subst hr2eq
    simp only [umRHS, hrtg, hgo, Option.toList_none, Option.toList_some,
      List.not_mem_nil, false_and, exists_false, List.mem_singleton, exists_eq_left,
      false_or]
    rw [hrem, hrem2]
    by_cases hx4 : ne < x
    · have hiff := um_trim_best_iff ne st.workspace (st.nextItem.toList ++ st.iter) x v
        hx4 (fun j hj => by have := hws_start0 j hj; omega) hndapp T1 T4 T5
      have hcovA : ¬covers (best.1.1.1, ne) x := by
        intro h
        have := h.2
        simp only at this
        omega
      constructor
      · rintro (⟨hc, hv⟩ | hb)
        · exact absurd hc hcovA
        · exact hiff.mp hb
      · intro hb
        exact Or.inr (hiff.mpr hb)
    · by_cases hx2 : best.1.1.1 ≤ x
      · have hbA := hbestA hx2 (by omega)
        have hbF := hbpF2 (by omega)
        have hcovA : covers (best.1.1.1, ne) x := ⟨by simp only; omega, by simp only; omega⟩
        constructor
        · rintro (⟨hc, hv⟩ | hb)
          · exact hbA.mpr hv.symm
          · exact absurd hb hbF
        · intro hb
          exact Or.inl ⟨hcovA, (hbA.mp hb).symm⟩
      · have hbF1 := hbpF1 (by omega)
        have hbF2 := hbpF2 (by omega)
        have hcovA : ¬covers (best.1.1.1, ne) x := by
          intro h
          have := h.1
          simp only at this
          omega
        constructor
        · rintro (⟨hc, hv⟩ | hb)
          · exact absurd hc hcovA
          · exact absurd hb hbF2
        · intro hb
          exact absurd hb hbF1

/-- Membership-equal pending lists determine the same best fragments. -/
theorem isBest_mem_iff {V : Type} (x : ℤ) (l1 l2 : List (UMItem V))
    (h : ∀ j : UMItem V, j ∈ l1 ↔ j ∈ l2) (it : UMItem V) :
    isBest x l1 it ↔ isBest x l2 it := by
  unfold isBest
  constructor
  · rintro ⟨hm, hc, hmin⟩
    exact ⟨(h it).mp hm, hc, fun j hj hcj => hmin j ((h j).mpr hj) hcj⟩
  · rintro ⟨hm, hc, hmin⟩
    exact ⟨(h it).mpr hm, hc, fun j hj hcj => hmin j ((h j).mp hj) hcj⟩

set_option maxHeartbeats 1000000 in
/-- One `UnionIterMap` loop iteration preserves the owed-output
characterization: the pairs yielded now, together with what the successor
state owes, are exactly what the old state owed. -/
theorem umLoopStep_rhs {V : Type} [DecidableEq V] (st : UMState V) (hinv : UMInv st)
    (x : ℤ) (v : V) :
    ((∃ p ∈ (umLoopStep st).1, covers p.1 x ∧ p.2 = v) ∨
      (∃ st2, (umLoopStep st).2 = some st2 ∧ umRHS x v st2)) ↔ umRHS x v st := by
  have hinv2 := hinv
  obtain ⟨hwv, hws, hwp, hni, hnn, hic, hiv, hg, hr, hnd⟩ := hinv2
  have hiter2 : ∀ j : UMItem V,
      (j ∈ st.iter.head?.toList ∨ j ∈ st.iter.tail) ↔ j ∈ st.iter := by
    intro j
    rcases st.iter with _ | ⟨a, t⟩ <;> simp
  rcases hrtg : st.readyToGo with _ | value
  · rcases hnio : st.nextItem with _ | it
    · rcases hwso : st.workspace with _ | ⟨best, restWs⟩
      · -- exhausted: return the gather buffer and stop
        have hit : st.iter = [] := hnn hnio
        have hstep : umLoopStep st = (st.gather.toList, none) := by
          simp only [umLoopStep, hrtg, hnio, umEmit, hwso]
        rw [hstep]
        have hbF : ¬∃ j, isBest x (umRemaining st) j ∧ j.1.2 = v := by
          rintro ⟨j, ⟨hm, _, _⟩, _⟩
          rw [umRemaining, hwso, hnio, hit] at hm
          simp at hm
        simp only [umRHS, hrtg, Option.toList_none, List.not_mem_nil, false_and,
          exists_false, false_or]
        constructor
        · rintro (h | ⟨st2, hst2, _⟩)
          · exact Or.inl h
          · exact absurd hst2 (by simp)
        · rintro (h | hb)
          · exact Or.inl h
          · exact absurd hb hbF
      · -- upstream exhausted but workspace nonempty: emission step
        obtain ⟨ne, g2, r2, hemit, hnedef, hcases⟩ := umEmit_shape st best restWs hwso
        have hstep : umLoopStep st = umEmit st := by
          simp only [umLoopStep, hrtg, hnio]
        rw [hnio] at hnedef
        have hcore := umEmit_rhs_core st best restWs ne g2 r2 hinv x v hwso hrtg
          (by rw [hnedef]; exact hwv best (by rw [hwso]; simp))
          hnedef.le
          (fun it2 hit2 => by rw [hnio] at hit2; exact absurd hit2 (by simp))
          hcases
        rw [hstep, hemit]
        simp only [List.not_mem_nil, false_and, exists_false, false_or,
          Option.some.injEq, exists_eq_left']
        exact hcore
    · rcases hwso : st.workspace with _ | ⟨best, restWs⟩
      · -- absorb into an empty workspace
        have hstep : umLoopStep st = ([], some { st with
            workspace := [it]
            nextItem := st.iter.head?
            iter := st.iter.tail }) := by
          simp only [umLoopStep, hrtg, hnio, hwso]
        have hrem2 : umRemaining { st with
            workspace := [it]
            nextItem := st.iter.head?
            iter := st.iter.tail } = umRemaining st := by
          simp only [umRemaining, hwso, hnio, Option.toList_some, List.nil_append,
            List.cons_append, List.append_assoc, List.nil_append, head_toList_tail]
        rw [hrtg] at hrem2
        rw [hstep]
        simp only [umRHS, hrtg, Option.toList_none, List.not_mem_nil, false_and,
          exists_false, false_or, Option.some.injEq, exists_eq_left', hrem2]
      · by_cases heq : it.1.1.1 = best.1.1.1
        · -- absorb into a nonempty workspace
          by_cases hpush : it.2 < best.2 ∨ best.1.1.2 < it.1.1.2
          · have hstep : umLoopStep st = ([], some { st with
                workspace := heapInsert it (best :: restWs)
                nextItem := st.iter.head?
                iter := st.iter.tail }) := by
              unfold umLoopStep
              simp only [hrtg, hnio, hwso]
              rw [if_pos heq, if_pos hpush]
            have hmemiff : ∀ j : UMItem V, j ∈ umRemaining { st with
                workspace := heapInsert it (best :: restWs)
                nextItem := st.iter.head?
                iter := st.iter.tail } ↔ j ∈ umRemaining st := by
              intro j
              have h2 := hiter2 j
              simp only [umRemaining, hwso, hnio, Option.toList_some, List.mem_append,
                heapInsert_mem, List.mem_singleton, List.mem_cons] at h2 ⊢
              tauto
            have hbiff : (∃ j, isBest x (umRemaining { st with
                workspace := heapInsert it (best :: restWs)
                nextItem := st.iter.head?
                iter := st.iter.tail }) j ∧ j.1.2 = v) ↔
                (∃ j, isBest x (umRemaining st) j ∧ j.1.2 = v) := by
              constructor
              · rintro ⟨j, hj, hv2⟩
                exact ⟨j, (isBest_mem_iff x _ _ hmemiff j).mp hj, hv2⟩
              · rintro ⟨j, hj, hv2⟩
                exact ⟨j, (isBest_mem_iff x _ _ hmemiff j).mpr hj, hv2⟩
            rw [hrtg] at hbiff
            rw [hstep]
            simp only [umRHS, hrtg, Option.toList_none, List.not_mem_nil, false_and,
              exists_false, false_or, Option.some.injEq, exists_eq_left', hbiff]
          · -- duplicate-start fragment dominated by the current best: drop it
            have hdom : best.2 ≤ it.2 ∧ it.1.1.2 ≤ best.1.1.2 := by
              constructor <;> omega
            have hstep : umLoopStep st = ([], some { st with
                workspace := best :: restWs
                nextItem := st.iter.head?
                iter := st.iter.tail }) := by
              unfold umLoopStep
              simp only [hrtg, hnio, hwso]
              rw [if_pos heq, if_neg hpush]
            have hnd2 : (((best :: restWs) ++ [it] ++ st.iter).map
                (fun i => i.2)).Nodup := by
              have := hnd
              rw [umRemaining, hwso, hnio] at this
              exact this
            have hbs : ∀ a ∈ best :: restWs, a.2 ≠ it.2 :=
              nodup_middle_ne (best :: restWs) st.iter it hnd2
            have hstmem : ∀ j : UMItem V, j ∈ umRemaining { st with
                workspace := best :: restWs
                nextItem := st.iter.head?
                iter := st.iter.tail } ↔ (j ∈ best :: restWs ∨ j ∈ st.iter) := by
              intro j
              have h2 := hiter2 j
              simp only [umRemaining, List.mem_append]
              tauto
            have hstmem2 : ∀ j : UMItem V, j ∈ umRemaining st ↔
                (j ∈ best :: restWs ∨ j = it ∨ j ∈ st.iter) := by
              intro j
              simp only [umRemaining, hwso, hnio, Option.toList_some, List.mem_append,
                List.mem_singleton]
              tauto
            have hbestm2 : best ∈ umRemaining st := by
              rw [hstmem2]
              exact Or.inl (by simp)
            have hitcov : covers it.1.1 x → covers best.1.1 x := by
              intro hc
              exact ⟨by have := hc.1; omega, le_trans hc.2 hdom.2⟩
            have hbiff : (∃ j, isBest x (umRemaining { st with
                workspace := best :: restWs
                nextItem := st.iter.head?
                iter := st.iter.tail }) j ∧ j.1.2 = v) ↔
                (∃ j, isBest x (umRemaining st) j ∧ j.1.2 = v) := by
              constructor
              · rintro ⟨j, ⟨hm, hc, hmin⟩, hv2⟩
                refine ⟨j, ⟨?_, hc, ?_⟩, hv2⟩
                · rw [hstmem2]
                  rcases (hstmem j).mp hm with h | h
                  · exact Or.inl h
                  · exact Or.inr (Or.inr h)
                · intro k hk hck
                  rcases (hstmem2 k).mp hk with h | h | h
                  · exact hmin k ((hstmem k).mpr (Or.inl h)) hck
                  · subst h
                    have hbc : covers best.1.1 x := hitcov hck
                    have := hmin best ((hstmem best).mpr (Or.inl (by simp))) hbc
                    omega
                  · exact hmin k ((hstmem k).mpr (Or.inr h)) hck
              · rintro ⟨j, ⟨hm, hc, hmin⟩, hv2⟩
                have hjne : j ≠ it := by
                  intro hj
                  subst hj
                  have hbc : covers best.1.1 x := hitcov hc
                  have h1 := hmin best hbestm2 hbc
                  have h2 := hbs best (by simp)
                  omega
                refine ⟨j, ⟨?_, hc, ?_⟩, hv2⟩
                · rw [hstmem]
                  rcases (hstmem2 j).mp hm with h | h | h
                  · exact Or.inl h
                  · exact absurd h hjne
                  · exact Or.inr h
                · intro k hk hck
                  rcases (hstmem k).mp hk with h | h
                  · exact hmin k ((hstmem2 k).mpr (Or.inl h)) hck
                  · exact hmin k ((hstmem2 k).mpr (Or.inr (Or.inr h))) hck
            rw [hrtg] at hbiff
            rw [hstep]
            simp only [umRHS, hrtg, Option.toList_none, List.not_mem_nil, false_and,
              exists_false, false_or, Option.some.injEq, exists_eq_left', hbiff]
        · -- new start differs from the workspace start: emission step
          obtain ⟨ne, g2, r2, hemit, hnedef, hcases⟩ := umEmit_shape st best restWs hwso
          have hstep : umLoopStep st = umEmit st := by
            unfold umLoopStep
            simp only [hrtg, hnio, hwso]
            rw [if_neg heq]
          rw [hnio] at hnedef
          have hne : ne = min (it.1.1.1 - 1) best.1.1.2 := hnedef
          have hbi : best.1.1.1 ≤ it.1.1.1 :=
            (hni it hnio).2.2 best (by rw [hwso]; rfl)
          have hlt : best.1.1.1 < it.1.1.1 := lt_of_le_of_ne hbi (fun h => heq h.symm)
          have hbe : best.1.1.1 ≤ best.1.1.2 := hwv best (by rw [hwso]; simp)
          have hminl := min_le_left (it.1.1.1 - 1) best.1.1.2
          have hminr := min_le_right (it.1.1.1 - 1) best.1.1.2
          have hminb := le_min (by omega : best.1.1.1 ≤ it.1.1.1 - 1) hbe
          rw [← hne] at hminl hminr hminb
          have hcore := umEmit_rhs_core st best restWs ne g2 r2 hinv x v hwso hrtg
            hminb hminr
            (fun it2 hit2 => by
              rw [hnio] at hit2
              injection hit2 with hit2
              subst hit2
              omega)
            hcases
          rw [hstep, hemit]
          simp only [List.not_mem_nil, false_and, exists_false, false_or,
            Option.some.injEq, exists_eq_left']
          exact hcore
  · -- hand over the buffered ready-to-go pair
    have hstep : umLoopStep st = ([value], some { st with readyToGo := none }) := by
      simp only [umLoopStep, hrtg]
    rw [hstep]
    simp only [umRHS, umRemaining, hrtg, Option.toList_some, Option.toList_none,
      List.mem_singleton, exists_eq_left, List.not_mem_nil, false_and, exists_false,
      false_or, Option.some.injEq, exists_eq_left']

/-- With enough fuel, the `UnionIterMap` run yields a pair covering `x`
with value `v` exactly when the state still owes one. -/
theorem umRun_mem {V : Type} [DecidableEq V] : ∀ (fuel : ℕ) (st : UMState V)
    (x : ℤ) (v : V), UMInv st → umMeasure st ≤ fuel →
    ((∃ p ∈ umRun fuel st, covers p.1 x ∧ p.2 = v) ↔ umRHS x v st) := by
  intro fuel
  induction fuel with
  | zero =>
    intro st x v hinv hm
    unfold umMeasure at hm
    omega
  | succ fuel ih =>
    intro st x v hinv hm
    rcases hstep : umLoopStep st with ⟨out, os⟩
    have hrhs := umLoopStep_rhs st hinv x v
    rw [hstep] at hrhs
    rcases os with _ | st2
    · have hrun : umRun (fuel + 1) st = out := by simp [umRun, hstep]
      rw [hrun, ← hrhs]
      constructor
      · intro h
        exact Or.inl h
      · rintro (h | ⟨st2, hst2, _⟩)
        · exact h
        · exact absurd hst2 (by simp)
    · obtain ⟨hinv2, hlt⟩ := umLoopStep_preserve st hinv out st2 hstep
      have hrun : umRun (fuel + 1) st = out ++ umRun fuel st2 := by
        simp [umRun, hstep]
      rw [hrun, ← hrhs]
      have hih := ih st2 x v hinv2 (by omega)
      constructor
      · rintro ⟨p, hp, hc⟩
        rcases List.mem_append.mp hp with h | h
        · exact Or.inl ⟨p, h, hc⟩
        · exact Or.inr ⟨st2, rfl, hih.mp ⟨p, h, hc⟩⟩
      · rintro (⟨p, hp, hc⟩ | ⟨st3, hst3, hsr⟩)
        · exact ⟨p, List.mem_append_left _ hp, hc⟩
        · have hst3' : st2 = st3 := by
            have h2 : some st2 = some st3 := hst3
            injection h2
          subst hst3'
          obtain ⟨p, hp, hc⟩ := hih.mpr hsr
          exact ⟨p, List.mem_append_right _ hp, hc⟩

/-- A start-sorted, well-formed, priority-distinct input satisfies the
`UnionIterMap` loop invariant at the initial state. -/
theorem umInit_inv {V : Type} (xs : List (UMItem V))
    (hv : ∀ i ∈ xs, i.1.1.1 ≤ i.1.1.2)
    (hs : xs.Chain' (fun a b => a.1.1.1 ≤ b.1.1.1))
    (hnd : (xs.map (fun i => i.2)).Nodup) :
    UMInv (umInit xs) := by
  have hrem : umRemaining (umInit xs) = xs := by
    simp [umRemaining, umInit, head_toList_tail]
  refine ⟨?_, ?_, ?_, ?_, ?_, ?_, ?_, ?_, ?_, ?_⟩
  · intro i hi
    simp [umInit] at hi
  · intro i hi
    simp [umInit] at hi
  · simp [umInit]
  · intro it hit
    simp only [umInit] at hit
    rcases hxs : xs with _ | ⟨a, t⟩
    · rw [hxs] at hit
      simp at hit
    · rw [hxs] at hit
      simp only [List.head?_cons, Option.some.injEq] at hit
      subst hit
      refine ⟨hv a (by rw [hxs]; simp), ?_, ?_⟩
      · intro r hr
        simp only [umInit, hxs, List.tail_cons] at hr
        rw [hxs] at hs
        exact chain_head_le_gen (fun i => i.1.1.1) a t hs r hr
      · intro b hb
        simp [umInit] at hb
  · intro hnone
    simp only [umInit] at hnone ⊢
    rcases xs with _ | ⟨a, t⟩
    · rfl
    · simp at hnone
  · simp only [umInit]
    exact hs.tail
  · intro r hr
    simp only [umInit] at hr
    exact hv r (List.mem_of_mem_tail hr)
  · intro g hgo
    simp [umInit] at hgo
  · intro v hvv
    simp [umInit] at hvv
  · rw [hrem]
    exact hnd

theorem umInit_measure {V : Type} (xs : List (UMItem V)) :
    umMeasure (umInit xs) ≤ 7 * xs.length + 10 := by
  have hflag := umAbsorbFlag_le_one (umInit xs)
  unfold umMeasure
  rcases xs with _ | ⟨a, t⟩ <;> simp [umInit] at hflag ⊢ <;> omega

theorem umInit_rhs {V : Type} (xs : List (UMItem V)) (x : ℤ) (v : V) :
    umRHS x v (umInit xs) ↔ ∃ it, isBest x xs it ∧ it.1.2 = v := by
  have hrem : umRemaining (umInit xs) = xs := by
    simp [umRemaining, umInit, head_toList_tail]
  unfold umRHS
  rw [hrem]
  simp [umInit]

/-- C1: for every start-sorted stream of priority-tagged `(range, value)`
fragments with pairwise-distinct priority numbers, the `UnionIterMap`
output covers a coordinate with value `v` exactly when the covering input
fragment with the best (lowest) priority number carries `v`; the output
covers exactly the coordinates some input fragment covers; and the output
is Sorted-Disjoint with maximal equal-valued runs coalesced. -/
theorem union_iter_map_best_priority {V : Type} [DecidableEq V]
    (xs : List (UMItem V))
    (hv : ∀ i ∈ xs, i.1.1.1 ≤ i.1.1.2)
    (hs : xs.Chain' (fun a b => a.1.1.1 ≤ b.1.1.1))
    (hnd : (xs.map (fun i => i.2)).Nodup) :
    (∀ (x : ℤ) (v : V),
      (∃ p ∈ unionMapSeq xs, covers p.1 x ∧ p.2 = v) ↔
        ∃ it, isBest x xs it ∧ it.1.2 = v) ∧
    (∀ x : ℤ, (∃ p ∈ unionMapSeq xs, covers p.1 x) ↔ ∃ i ∈ xs, covers i.1.1 x) ∧
    sdMapCoalesced (unionMapSeq xs) := by
  have hinv := umInit_inv xs hv hs hnd
  have hm := umInit_measure xs
  have hpt : ∀ (x : ℤ) (v : V),
      (∃ p ∈ unionMapSeq xs, covers p.1 x ∧ p.2 = v) ↔
        ∃ it, isBest x xs it ∧ it.1.2 = v := by
    intro x v
    unfold unionMapSeq
    rw [umRun_mem (7 * xs.length + 10) (umInit xs) x v hinv hm]
    exact umInit_rhs xs x v
  refine ⟨hpt, ?_, ?_⟩
  · intro x
    constructor
    · rintro ⟨p, hp, hc⟩
      obtain ⟨it, ⟨hm2, hcov, _⟩, _⟩ := (hpt x p.2).mp ⟨p, hp, hc, rfl⟩
      exact ⟨it, hm2, hcov⟩
    · intro hcov
      obtain ⟨it, hbest⟩ := exists_isBest x xs hcov
      obtain ⟨p, hp, hc, _⟩ := (hpt x it.1.2).mpr ⟨it, hbest, rfl⟩
      exact ⟨p, hp, hc⟩
  · exact umRun_sd (7 * xs.length + 10) (umInit xs) hinv hm

theorem union_iter_map_best_priority_witness :
    (∀ i ∈ ([(((1, 4), 10), 0), (((5, 100), 10), 1), (((5, 5), 20), 2)] :
        List (UMItem ℕ)), i.1.1.1 ≤ i.1.1.2) ∧
    ([(((1, 4), 10), 0), (((5, 100), 10), 1), (((5, 5), 20), 2)] :
        List (UMItem ℕ)).Chain' (fun a b => a.1.1.1 ≤ b.1.1.1) ∧
    (([(((1, 4), 10), 0), (((5, 100), 10), 1), (((5, 5), 20), 2)] :
        List (UMItem ℕ)).map (fun i => i.2)).Nodup ∧
    ((∀ (x : ℤ) (v : ℕ),
      (∃ p ∈ unionMapSeq [(((1, 4), 10), 0), (((5, 100), 10), 1), (((5, 5), 20), 2)],
          covers p.1 x ∧ p.2 = v) ↔
        ∃ it, isBest x [(((1, 4), 10), 0), (((5, 100), 10), 1), (((5, 5), 20), 2)] it ∧
          it.1.2 = v) ∧
    (∀ x : ℤ,
      (∃ p ∈ unionMapSeq [(((1, 4), 10), 0), (((5, 100), 10), 1), (((5, 5), 20), 2)],
          covers p.1 x) ↔
        ∃ i ∈ ([(((1, 4), 10), 0), (((5, 100), 10), 1), (((5, 5), 20), 2)] :
          List (UMItem ℕ)), covers i.1.1 x) ∧
    sdMapCoalesced
      (unionMapSeq [(((1, 4), 10), 0), (((5, 100), 10), 1), (((5, 5), 20), 2)])) :=
  ⟨by decide, by norm_num [List.chain'_cons], by decide,
    union_iter_map_best_priority
      [(((1, 4), 10), 0), (((5, 100), 10), 1), (((5, 5), 20), 2)]
      (by decide) (by norm_num [List.chain'_cons]) (by decide)⟩

end RangeSetBlaze
